import Mathlib

/-!
# xlibc `xarray`: a shallow embedding of `src/xarray.c` / `src/xarray.h`

The sparse array is a radix trie of heap blocks with parent back-references.
The embedding keeps the pointer graph explicit: a state is the `xarray`
struct (with its embedded root block) together with the two kinds of heap
objects the code allocates (`xarray_block_t` and `xarray_node_t`), addressed
by natural-number pointers with `0` playing the role of `NULL`.

Modelling conventions
* `unsigned char` fields (`parent_pos`, `shift`, `used`) are naturals reduced
  modulo `2^8` at every store; `size_t` counters are reduced modulo `2^64`;
  `xuint` indices are reduced modulo `2^XARRAY_INDEX_BITS` at every call.
* The three preprocessor parameters `XARRAY_BITS`, `XARRAY_INDEX_BITS` and
  `XARRAY_ENABLE_CACHE` are the fields of `Config`.
* `malloc` is an oracle: every call of `xarray_set` receives the list of
  addresses the successive `malloc` calls return (`0`, or an exhausted list,
  is an allocation failure).  An address that is currently live is not a
  possible `malloc` result and is reported as `Fault.bad_malloc`.
* `free` removes the object from the heap.  Every access through a pointer
  that designates no live object of the expected kind is undefined behaviour
  in C and is reported as a `Fault`.
* The destructor callback is an observer: each invocation is appended to the
  trace `State.destroyed` together with the payload it was handed.
* Loops are structurally recursive on a fuel argument; running out of fuel
  is reported as `Fault.out_of_fuel`.
-/

namespace XArray

/-- Pointer values; `0` is `NULL`. -/
abbrev Ptr := Nat

/-- Compile-time configuration of `xarray.h`. -/
structure Config where
  /-- The macro `XARRAY_BITS`, documented range `[1, 8]`. -/
  XARRAY_BITS : Nat
  /-- The macro `XARRAY_INDEX_BITS`, documented values `16, 32, 64`. -/
  XARRAY_INDEX_BITS : Nat
  /-- The macro `XARRAY_ENABLE_CACHE`. -/
  XARRAY_ENABLE_CACHE : Bool
deriving DecidableEq, Repr

/-- The configurations the header documents as allowed. -/
def Config.allowed (c : Config) : Prop :=
  1 ≤ c.XARRAY_BITS ∧ c.XARRAY_BITS ≤ 8 ∧
    (c.XARRAY_INDEX_BITS = 16 ∨ c.XARRAY_INDEX_BITS = 32 ∨ c.XARRAY_INDEX_BITS = 64)

instance (c : Config) : Decidable c.allowed := by
  unfold Config.allowed; infer_instance

/-- The defaults of `xarray.h`: 6 branching bits, 32-bit indices, no cache. -/
def default_config : Config :=
  { XARRAY_BITS := 6, XARRAY_INDEX_BITS := 32, XARRAY_ENABLE_CACHE := false }

/-- The defaults of `xarray.h` compiled with `XARRAY_ENABLE_CACHE=1`. -/
def cache_config : Config :=
  { XARRAY_BITS := 6, XARRAY_INDEX_BITS := 32, XARRAY_ENABLE_CACHE := true }

/-- `#define XARRAY_BLOCK_SIZE (1 << XARRAY_BITS)`. -/
def XARRAY_BLOCK_SIZE (c : Config) : Nat := 1 <<< c.XARRAY_BITS

/-- `#define XARRAY_MASK (XARRAY_BLOCK_SIZE - 1)`. -/
def XARRAY_MASK (c : Config) : Nat := XARRAY_BLOCK_SIZE c - 1

/-- The macro `XARRAY_MAX_SHIFT` of `xarray.c`, lines 8-12. -/
def XARRAY_MAX_SHIFT (c : Config) : Nat :=
  if c.XARRAY_INDEX_BITS % c.XARRAY_BITS = 0 then
    c.XARRAY_INDEX_BITS - c.XARRAY_BITS
  else
    c.XARRAY_INDEX_BITS - c.XARRAY_INDEX_BITS % c.XARRAY_BITS

/-- Conversion of an argument to the index type `xuint`. -/
def xuint (c : Config) (n : Nat) : Nat := n % 2 ^ c.XARRAY_INDEX_BITS

/-- Store into an `unsigned char`. -/
def uchar (n : Nat) : Nat := n % 256

/-- The value `a - b` stored into an `unsigned char`. -/
def uchar_sub (a b : Nat) : Nat := (a % 256 + (256 - b % 256)) % 256

/-- The operator `++` on a `size_t`. -/
def size_inc (n : Nat) : Nat := (n + 1) % 2 ^ 64

/-- The operator `--` on a `size_t`. -/
def size_dec (n : Nat) : Nat := (2 ^ 64 - 1 + n) % 2 ^ 64

/-- Undefined behaviour and the other ways a run of the model has no result. -/
inductive Fault where
  /-- A `NULL` pointer is dereferenced. -/
  | null_deref
  /-- A pointer to no live object of the expected kind is dereferenced. -/
  | invalid_pointer
  /-- The argument of `free` is neither `NULL` nor a live allocation. -/
  | invalid_free
  /-- A shift count is not smaller than the width of the promoted operand. -/
  | shift_out_of_range
  /-- The oracle proposed an address `malloc` cannot return. -/
  | bad_malloc
  /-- The loop did not finish within the fuel given. -/
  | out_of_fuel
deriving DecidableEq, Repr

/-- The type `struct xarray_block`. -/
structure xarray_block where
  parent_block : Ptr
  parent_pos : Nat
  shift : Nat
  used : Nat
  values : Nat → Ptr

/-- The type `struct xarray_node`, with the payload that follows the header
(`none` is memory that was never written). -/
structure xarray_node where
  block : Ptr
  index : Nat
  data : Option (List Nat)
deriving DecidableEq, Repr

/-- The type `struct xarray`; `destroy_cb` records whether a callback is set. -/
structure xarray where
  blocks : Nat
  values : Nat
  val_size : Nat
  destroy_cb : Bool
  nod_cache : Ptr
  blk_cache : Ptr
  root : xarray_block

/-- A container together with the heap objects it points to and the trace of
destructor invocations (node handed to the callback, payload at that time). -/
structure State where
  array : xarray
  blks : Ptr → Option xarray_block
  nods : Ptr → Option xarray_node
  destroyed : List (Ptr × Option (List Nat))

/-- The address `&array->root`. -/
def ROOT : Ptr := 1

/-- The result of `memset(block, 0, sizeof(xarray_block_t))`. -/
def zero_block : xarray_block :=
  { parent_block := 0, parent_pos := 0, shift := 0, used := 0, values := fun _ => 0 }

/-- The store `values[i] = v`. -/
def store (values : Nat → Ptr) (i : Nat) (v : Ptr) : Nat → Ptr :=
  fun j => if j = i then v else values j

/-- Read of the block a pointer designates. -/
def State.block (st : State) (p : Ptr) : Except Fault xarray_block :=
  if p = ROOT then .ok st.array.root
  else
    match st.blks p with
    | some b => .ok b
    | none => .error (if p = 0 then Fault.null_deref else Fault.invalid_pointer)

/-- Read of the node a pointer designates. -/
def State.node (st : State) (p : Ptr) : Except Fault xarray_node :=
  match st.nods p with
  | some n => .ok n
  | none => .error (if p = 0 then Fault.null_deref else Fault.invalid_pointer)

/-- Write of a whole block. -/
def State.set_block (st : State) (p : Ptr) (b : xarray_block) : State :=
  if p = ROOT then { st with array := { st.array with root := b } }
  else { st with blks := fun q => if q = p then some b else st.blks q }

/-- Write of a whole node. -/
def State.set_node (st : State) (p : Ptr) (n : xarray_node) : State :=
  { st with nods := fun q => if q = p then some n else st.nods q }

/-- Read-modify-write of a block through a pointer. -/
def State.modify_block (st : State) (p : Ptr) (f : xarray_block → xarray_block) :
    Except Fault State :=
  match st.block p with
  | .ok b => .ok (st.set_block p (f b))
  | .error e => .error e

/-- Read-modify-write of a node through a pointer. -/
def State.modify_node (st : State) (p : Ptr) (f : xarray_node → xarray_node) :
    Except Fault State :=
  match st.node p with
  | .ok n => .ok (st.set_node p (f n))
  | .error e => .error e

/-- Whether `malloc` may return the address: a pointer value (pointers are as
wide as `size_t`), not `NULL`, not inside the container struct, not a live
allocation. -/
def State.fresh (st : State) (p : Ptr) : Bool :=
  decide (p < 2 ^ 64) && p != 0 && p != ROOT && (st.blks p).isNone && (st.nods p).isNone

/-- One call of `malloc`, answered by the oracle. -/
def malloc (st : State) (alloc : List Ptr) : Except Fault (List Ptr × Ptr) :=
  match alloc with
  | [] => .ok ([], 0)
  | p :: rest =>
    if p = 0 then .ok (rest, 0)
    else if st.fresh p then .ok (rest, p)
    else .error Fault.bad_malloc

/-- The library function `free`. -/
def free (st : State) (p : Ptr) : Except Fault State :=
  if p = 0 then .ok st
  else if (st.blks p).isSome then
    .ok { st with blks := fun q => if q = p then none else st.blks q }
  else if (st.nods p).isSome then
    .ok { st with nods := fun q => if q = p then none else st.nods q }
  else .error Fault.invalid_free

/-- The call `array->destroy_cb(xarray_iter_value(node))`. -/
def call_destroy (st : State) (node : Ptr) : Except Fault State :=
  match st.node node with
  | .ok n => .ok { st with destroyed := st.destroyed ++ [(node, n.data)] }
  | .error e => .error e

/-- The expression `(index >> shift) & XARRAY_MASK`; the left operand is an
`xuint` after integer promotion. -/
def slot_index (c : Config) (index shift : Nat) : Except Fault Nat :=
  if shift < max 32 c.XARRAY_INDEX_BITS then .ok ((index >>> shift) &&& XARRAY_MASK c)
  else .error Fault.shift_out_of_range

/-- The function `xarray_init`, applied to a struct with no heap objects. -/
def xarray_init (c : Config) (val_size : Nat) (cb : Bool) : State :=
  { array :=
      { blocks := 0, values := 0, val_size := val_size, destroy_cb := cb,
        nod_cache := 0, blk_cache := 0,
        root := { zero_block with shift := uchar (XARRAY_MAX_SHIFT c) } },
    blks := fun _ => none,
    nods := fun _ => none,
    destroyed := [] }

/-- Lines 71-85 of `xarray_set`: the new block comes from `blk_cache` when
the cache is compiled in and non-empty, from `malloc` otherwise.  A result
`0` is `malloc` returning `NULL`. -/
def alloc_block (c : Config) (st : State) (alloc : List Ptr) :
    Except Fault (State × List Ptr × Ptr) :=
  if c.XARRAY_ENABLE_CACHE = true ∧ st.array.blk_cache ≠ 0 then
    match st.block st.array.blk_cache with
    | .ok cb =>
      .ok ({ st with array := { st.array with blk_cache := cb.parent_block } }, alloc,
        st.array.blk_cache)
    | .error e => .error e
  else
    match malloc st alloc with
    | .ok (rest, p) => .ok (st, rest, p)
    | .error e => .error e

/-- Lines 86-95 of `xarray_set`: initialise the new block `child` and link it
into slot `i` of `parent`. -/
def link_block (c : Config) (st : State) (parent child : Ptr) (i : Nat) :
    Except Fault State := do
  -- memset(child, 0, sizeof(xarray_block_t));
  let st := st.set_block child zero_block
  -- child->parent_block = parent; child->parent_pos = i;
  let st ← st.modify_block child (fun b => { b with parent_block := parent })
  let st ← st.modify_block child (fun b => { b with parent_pos := uchar i })
  -- child->shift = parent->shift - XARRAY_BITS;
  let pb ← st.block parent
  let st ← st.modify_block child (fun b => { b with shift := uchar_sub pb.shift c.XARRAY_BITS })
  -- ++array->blocks; ++parent->used;
  let st := { st with array := { st.array with blocks := size_inc st.array.blocks } }
  let st ← st.modify_block parent (fun b => { b with used := uchar (b.used + 1) })
  -- parent->values[i] = child;
  st.modify_block parent (fun b => { b with values := store b.values i child })

/-- The `do ... while (parent->shift > 0)` loop of `xarray_set`, lines 64-100.
The pointer in the result is the block reached at shift 0, or `0` when the
function returned `NULL` from inside the loop. -/
def set_descend (c : Config) :
    Nat → State → Ptr → Nat → List Ptr → Except Fault (State × List Ptr × Ptr)
  | 0, _, _, _, _ => .error Fault.out_of_fuel
  | fuel + 1, st, parent, index, alloc =>
    match st.block parent with
    | .error e => .error e
    | .ok pb =>
      match slot_index c index pb.shift with
      | .error e => .error e
      | .ok i =>
        if pb.values i = 0 then
          match alloc_block c st alloc with
          | .error e => .error e
          | .ok (st1, alloc1, child) =>
            if child = 0 then .ok (st1, alloc1, 0)
            else
              match link_block c st1 parent child i with
              | .error e => .error e
              | .ok st2 =>
                match st2.block child with
                | .error e => .error e
                | .ok cb =>
                  if cb.shift > 0 then set_descend c fuel st2 child index alloc1
                  else .ok (st2, alloc1, child)
        else
          match st.block (pb.values i) with
          | .error e => .error e
          | .ok cb =>
            if cb.shift > 0 then set_descend c fuel st (pb.values i) index alloc
            else .ok (st, alloc, pb.values i)

/-- Lines 107-121 of `xarray_set`: the new node comes from `nod_cache` when
the cache is compiled in and non-empty, from `malloc` otherwise. -/
def alloc_node (c : Config) (st : State) (alloc : List Ptr) :
    Except Fault (State × List Ptr × Ptr) :=
  if c.XARRAY_ENABLE_CACHE = true ∧ st.array.nod_cache ≠ 0 then
    match st.node st.array.nod_cache with
    | .ok n =>
      .ok ({ st with array := { st.array with nod_cache := n.block } }, alloc,
        st.array.nod_cache)
    | .error e => .error e
  else
    match malloc st alloc with
    | .ok (rest, p) =>
      if p = 0 then .ok (st, rest, 0)
      else .ok (st.set_node p { block := 0, index := 0, data := none }, rest, p)
    | .error e => .error e

/-- The statement `if (pvalue) memcpy(xarray_iter_value(nwnd), pvalue, array->val_size)`. -/
def copy_value (st : State) (nwnd : Ptr) (pvalue : Option (List Nat)) : Except Fault State :=
  match pvalue with
  | none => .ok st
  | some v => st.modify_node nwnd (fun n => { n with data := some (v.take st.array.val_size) })

/-- Lines 102-139 of `xarray_set`, entered with the block `parent` of shift 0. -/
def set_leaf (c : Config) (st : State) (parent : Ptr) (index : Nat)
    (pvalue : Option (List Nat)) (alloc : List Ptr) : Except Fault (State × Ptr) :=
  match st.block parent with
  | .error e => .error e
  | .ok pb =>
    if pb.values (index &&& XARRAY_MASK c) = 0 then
      match alloc_node c st alloc with
      | .error e => .error e
      | .ok (st1, _, nwnd) =>
        if nwnd = 0 then .ok (st1, 0)
        else do
          -- nwnd->block = parent; nwnd->index = index;
          let st2 ← st1.modify_node nwnd (fun n => { n with block := parent })
          let st3 ← st2.modify_node nwnd (fun n => { n with index := index })
          -- parent->values[i] = nwnd;
          let st4 ← st3.modify_block parent
            (fun b => { b with values := store b.values (index &&& XARRAY_MASK c) nwnd })
          -- ++array->values; ++parent->used;
          let st5 := { st4 with array := { st4.array with values := size_inc st4.array.values } }
          let st6 ← st5.modify_block parent (fun b => { b with used := uchar (b.used + 1) })
          let st7 ← copy_value st6 nwnd pvalue
          pure (st7, nwnd)
    else do
      let st1 ← if st.array.destroy_cb then call_destroy st (pb.values (index &&& XARRAY_MASK c))
                else pure st
      let st2 ← copy_value st1 (pb.values (index &&& XARRAY_MASK c)) pvalue
      pure (st2, pb.values (index &&& XARRAY_MASK c))

/-- The function `xarray_set`.  `pvalue = none` is the `NULL` payload; `alloc`
lists the results of the `malloc` calls made; the result pointer `0` is the
return value `NULL`. -/
def xarray_set (c : Config) (fuel : Nat) (st : State) (index : Nat)
    (pvalue : Option (List Nat)) (alloc : List Ptr) : Except Fault (State × Ptr) :=
  match set_descend c fuel st ROOT (xuint c index) alloc with
  | .error e => .error e
  | .ok (st1, alloc1, parent) =>
    if parent = 0 then .ok (st1, 0)
    else set_leaf c st1 parent (xuint c index) pvalue alloc1

/-- The `do ... while (block->shift > 0)` loop shared, statement for
statement, by `xarray_unset` (lines 147-156) and `xarray_get` (lines 209-218).
The result is the block reached at shift 0, or `none` when an empty slot made
the function return. -/
def find_leaf_block (c : Config) : Nat → State → Ptr → Nat → Except Fault (Option Ptr)
  | 0, _, _, _ => .error Fault.out_of_fuel
  | fuel + 1, st, block, index =>
    match st.block block with
    | .error e => .error e
    | .ok b =>
      match slot_index c index b.shift with
      | .error e => .error e
      | .ok i =>
        if b.values i = 0 then .ok none
        else
          match st.block (b.values i) with
          | .error e => .error e
          | .ok cb =>
            if cb.shift > 0 then find_leaf_block c fuel st (b.values i) index
            else .ok (some (b.values i))

/-- The function `xarray_get`; the result `0` is `NULL`. -/
def xarray_get (c : Config) (fuel : Nat) (st : State) (index : Nat) : Except Fault Ptr :=
  match find_leaf_block c fuel st ROOT (xuint c index) with
  | .error e => .error e
  | .ok none => .ok 0
  | .ok (some block) =>
    match st.block block with
    | .error e => .error e
    | .ok b => .ok (b.values (xuint c index &&& XARRAY_MASK c))

/-- Lines 166-173 of `xarray_unset`: the node goes to `nod_cache` when the
cache is compiled in, to `free` otherwise. -/
def release_node (c : Config) (st : State) (node : Ptr) : Except Fault State :=
  if c.XARRAY_ENABLE_CACHE = true then
    match st.modify_node node (fun n => { n with block := st.array.nod_cache }) with
    | .ok st1 => .ok { st1 with array := { st1.array with nod_cache := node } }
    | .error e => .error e
  else free st node

/-- Lines 188-195 of `xarray_unset`: the block goes to `blk_cache` when the
cache is compiled in, to `free` otherwise. -/
def release_block (c : Config) (st : State) (blk : Ptr) : Except Fault State :=
  if c.XARRAY_ENABLE_CACHE = true then
    match st.modify_block blk (fun b => { b with parent_block := st.array.blk_cache }) with
    | .ok st1 => .ok { st1 with array := { st1.array with blk_cache := blk } }
    | .error e => .error e
  else free st blk

/-- Lines 177-200 of `xarray_unset`: the loop `while (!block->used)` followed
by the store `block->values[i] = NULL`. -/
def release_chain (c : Config) : Nat → State → Ptr → Nat → Except Fault State
  | 0, _, _, _ => .error Fault.out_of_fuel
  | fuel + 1, st, block, i =>
    match st.block block with
    | .error e => .error e
    | .ok b =>
      if b.used ≠ 0 then
        st.modify_block block (fun b => { b with values := store b.values i 0 })
      else if b.parent_block = 0 then
        -- i = block->parent_pos; break;
        st.modify_block block (fun b => { b with values := store b.values b.parent_pos 0 })
      else
        -- i = block->parent_pos; block = block->parent_block;
        match st.block b.parent_block with
        | .error e => .error e
        | .ok pb =>
          match release_block c st (pb.values b.parent_pos) with
          | .error e => .error e
          | .ok st1 =>
            -- --array->blocks; --block->used;
            match ({ st1 with array := { st1.array with blocks := size_dec st1.array.blocks } }
                    : State).modify_block b.parent_block
                    (fun p => { p with used := uchar_sub p.used 1 }) with
            | .error e => .error e
            | .ok st2 => release_chain c fuel st2 b.parent_block b.parent_pos

/-- The function `xarray_unset`. -/
def xarray_unset (c : Config) (fuel : Nat) (st : State) (index : Nat) : Except Fault State :=
  match find_leaf_block c fuel st ROOT (xuint c index) with
  | .error e => .error e
  | .ok none => .ok st
  | .ok (some block) =>
    match st.block block with
    | .error e => .error e
    | .ok b =>
      if b.values (xuint c index &&& XARRAY_MASK c) = 0 then .ok st
      else do
        let node := b.values (xuint c index &&& XARRAY_MASK c)
        let st1 ← if st.array.destroy_cb then call_destroy st node else pure st
        let st2 ← release_node c st1 node
        -- --array->values; --block->used;
        let st3 := { st2 with array := { st2.array with values := size_dec st2.array.values } }
        let st4 ← st3.modify_block block (fun b => { b with used := uchar_sub b.used 1 })
        release_chain c fuel st4 block (xuint c index &&& XARRAY_MASK c)

/-- The `do ... while (1)` loop of `xarray_clear`, lines 228-264. -/
def clear_loop (c : Config) : Nat → State → Ptr → Nat → Except Fault State
  | 0, _, _, _ => .error Fault.out_of_fuel
  | fuel + 1, st, block, i =>
    match st.block block with
    | .error e => .error e
    | .ok b =>
      if i < XARRAY_BLOCK_SIZE c then
        if b.values i = 0 then clear_loop c fuel st block (i + 1)
        else if b.shift ≠ 0 then clear_loop c fuel st (b.values i) 0
        else
          match (if st.array.destroy_cb then call_destroy st (b.values i) else .ok st) with
          | .error e => .error e
          | .ok st1 =>
            match free st1 (b.values i) with
            | .error e => .error e
            | .ok st2 =>
              clear_loop c fuel
                { st2 with array := { st2.array with values := size_dec st2.array.values } }
                block (i + 1)
      else if b.parent_block = 0 then .ok st
      else
        match st.block b.parent_block with
        | .error e => .error e
        | .ok pb =>
          match free st (pb.values b.parent_pos) with
          | .error e => .error e
          | .ok st1 =>
            clear_loop c fuel
              { st1 with array := { st1.array with blocks := size_dec st1.array.blocks } }
              b.parent_block (b.parent_pos + 1)

/-- The function `xarray_clear`. -/
def xarray_clear (c : Config) (fuel : Nat) (st : State) : Except Fault State :=
  match clear_loop c fuel st ROOT 0 with
  | .error e => .error e
  | .ok st1 =>
    .ok (st1.set_block ROOT { zero_block with shift := uchar (XARRAY_MAX_SHIFT c) })

/-- The `do ... while (i < XARRAY_BLOCK_SIZE)` loop of `xarray_begin`. -/
def begin_loop (c : Config) : Nat → State → Ptr → Nat → Except Fault Ptr
  | 0, _, _, _ => .error Fault.out_of_fuel
  | fuel + 1, st, block, i =>
    match st.block block with
    | .error e => .error e
    | .ok b =>
      if b.values i = 0 then
        if i + 1 < XARRAY_BLOCK_SIZE c then begin_loop c fuel st block (i + 1) else .ok 0
      else if b.shift ≠ 0 then
        if 0 < XARRAY_BLOCK_SIZE c then begin_loop c fuel st (b.values i) 0 else .ok 0
      else .ok (b.values i)

/-- The function `xarray_begin`; the result `0` is `xarray_end`. -/
def xarray_begin (c : Config) (fuel : Nat) (st : State) : Except Fault Ptr :=
  begin_loop c fuel st ROOT 0

/-- The `do ... while (1)` loop of `xarray_iter_next`. -/
def next_loop (c : Config) : Nat → State → Ptr → Nat → Except Fault Ptr
  | 0, _, _, _ => .error Fault.out_of_fuel
  | fuel + 1, st, block, i =>
    match st.block block with
    | .error e => .error e
    | .ok b =>
      if i < XARRAY_BLOCK_SIZE c then
        if b.values i = 0 then next_loop c fuel st block (i + 1)
        else if b.shift ≠ 0 then next_loop c fuel st (b.values i) 0
        else .ok (b.values i)
      else if b.parent_block = 0 then .ok 0
      else next_loop c fuel st b.parent_block (b.parent_pos + 1)

/-- The function `xarray_iter_next`; the result `0` is `xarray_end`. -/
def xarray_iter_next (c : Config) (fuel : Nat) (st : State) (iter : Ptr) : Except Fault Ptr :=
  match st.node iter with
  | .error e => .error e
  | .ok n => next_loop c fuel st n.block ((n.index &&& XARRAY_MASK c) + 1)

/-- Equality of results is decidable. -/
instance instDecidableEqExcept {ε α : Type} [DecidableEq ε] [DecidableEq α] :
    DecidableEq (Except ε α)
  | .ok a, .ok b =>
    if h : a = b then isTrue (by rw [h]) else isFalse (by intro h2; injection h2; contradiction)
  | .error a, .error b =>
    if h : a = b then isTrue (by rw [h]) else isFalse (by intro h2; injection h2; contradiction)
  | .ok _, .error _ => isFalse (by intro h; cases h)
  | .error _, .ok _ => isFalse (by intro h; cases h)

/-- The mutating public operations, as a caller issues them. -/
inductive Op where
  /-- The call `xarray_set(array, index, pvalue)` with the `malloc` results it meets. -/
  | set (index : Nat) (pvalue : Option (List Nat)) (alloc : List Ptr)
  /-- The call `xarray_unset(array, index)`. -/
  | unset (index : Nat)
  /-- The call `xarray_clear(array)`. -/
  | clear

/-- One operation of a caller; the handle `xarray_set` returns is dropped. -/
def step (c : Config) (fuel : Nat) (st : State) : Op → Except Fault State
  | .set index pvalue alloc =>
    match xarray_set c fuel st index pvalue alloc with
    | .ok (st1, _) => .ok st1
    | .error e => .error e
  | .unset index => xarray_unset c fuel st index
  | .clear => xarray_clear c fuel st

/-- A sequence of operations, issued one after the other. -/
def run (c : Config) (fuel : Nat) : State → List Op → Except Fault State
  | st, [] => .ok st
  | st, op :: ops =>
    match step c fuel st op with
    | .ok st1 => run c fuel st1 ops
    | .error e => .error e

/-- The number of non-empty slots of a block. -/
def occupied (c : Config) (b : xarray_block) : Nat :=
  ((List.range (XARRAY_BLOCK_SIZE c)).filter (fun i => b.values i != 0)).length

/-- The `malloc` results of the scenarios: five blocks, then one node. -/
def fresh_chain : List Ptr := [10, 11, 12, 13, 14, 20]

/-- A container with 4-byte payloads and a destructor, after
`Set(index, [1,0,0,0])` and `Unset(index)`. -/
def set_then_unset (c : Config) (index : Nat) : Except Fault State :=
  run c 1000 (xarray_init c 4 true)
    [Op.set index (some [1, 0, 0, 0]) fresh_chain, Op.unset index]

/-- The state of `set_then_unset` followed by `Set(0, [2,0,0,0])`, the
allocator handing the released addresses out again, last released first. -/
def set_unset_then_set_zero (c : Config) (index : Nat) : Except Fault State :=
  run c 1000 (xarray_init c 4 true)
    [Op.set index (some [1, 0, 0, 0]) fresh_chain, Op.unset index,
     Op.set 0 (some [2, 0, 0, 0]) fresh_chain]

/-- The scenario of the specification: branching bits 6, index width 32,
4-byte payloads, after `Set(5, 42)` and `Set(0, 7)`. -/
def two_entries : State :=
  match run default_config 1000 (xarray_init default_config 4 true)
      [Op.set 5 (some [42, 0, 0, 0]) fresh_chain, Op.set 0 (some [7, 0, 0, 0]) [21]] with
  | .ok st => st
  | .error _ => xarray_init default_config 4 true

/-- The block a pointer designates, the root included; `none` when the pointer
designates no live block. -/
def State.blk (st : State) (p : Ptr) : Option xarray_block :=
  if p = ROOT then some st.array.root else st.blks p

/-- A free list: starting at `head` and following `next`, the list is traversed
element by element and ends in `NULL`. -/
def Chain (next : Ptr → Option Ptr) : Ptr → List Ptr → Prop
  | head, [] => head = 0
  | head, p :: rest => head = p ∧ p ≠ 0 ∧ ∃ nx, next p = some nx ∧ Chain next nx rest

/-- The blocks of the trie: the root and the listed heap blocks. -/
def TreeBlock (T : List Ptr) (p : Ptr) : Prop := p = ROOT ∨ p ∈ T

/-- The structural invariant of the trie.  `T` lists the heap blocks linked
into the trie, `Lb` and `Ln` the blocks and nodes on the two free lists, and
`hole` is the one block that may momentarily have no occupied slot. -/
structure Inv (c : Config) (st : State) (T Lb Ln : List Ptr) (hole : Ptr) : Prop where
  root_shift : st.array.root.shift = XARRAY_MAX_SHIFT c
  root_parent : st.array.root.parent_block = 0
  root_pos : st.array.root.parent_pos = 0
  blks_root : st.blks ROOT = none
  blks_null : st.blk 0 = none
  nods_null : st.nods 0 = none
  sep : ∀ p, p ≠ ROOT → (st.blk p).isSome → st.nods p = none
  T_nodup : T.Nodup
  T_live : ∀ p, p ∈ T → p ≠ ROOT ∧ (st.blk p).isSome
  T_lt : ∀ p, p ∈ T → p < 2 ^ 64
  T_Lb : ∀ p, p ∈ T → p ∉ Lb
  Lb_lt : ∀ p, p ∈ Lb → p < 2 ^ 64
  up : ∀ p, p ∈ T → ∃ b pb, st.blk p = some b ∧ TreeBlock T b.parent_block ∧
    st.blk b.parent_block = some pb ∧ pb.shift = b.shift + c.XARRAY_BITS ∧
    b.parent_pos < XARRAY_BLOCK_SIZE c ∧ pb.values b.parent_pos = p
  down_blk : ∀ P pb, TreeBlock T P → st.blk P = some pb → 0 < pb.shift →
    ∀ i, i < XARRAY_BLOCK_SIZE c → pb.values i ≠ 0 →
      pb.values i ∈ T ∧ ∃ b, st.blk (pb.values i) = some b ∧ b.parent_block = P ∧
        b.parent_pos = i
  down_nod : ∀ P pb, TreeBlock T P → st.blk P = some pb → pb.shift = 0 →
    ∀ i, i < XARRAY_BLOCK_SIZE c → pb.values i ≠ 0 →
      pb.values i ∉ Ln ∧ ∃ n, st.nods (pb.values i) = some n ∧ n.block = P ∧
        n.index &&& XARRAY_MASK c = i
  used : ∀ P pb, TreeBlock T P → st.blk P = some pb → pb.used = occupied c pb % 256
  nonempty : ∀ p b, p ∈ T → p ≠ hole → st.blk p = some b → 1 ≤ occupied c b
  shift_ok : ∀ P pb, TreeBlock T P → st.blk P = some pb →
    pb.shift ≤ XARRAY_MAX_SHIFT c ∧ c.XARRAY_BITS ∣ pb.shift
  count : st.array.blocks = T.length
  Lb_nodup : Lb.Nodup
  Ln_nodup : Ln.Nodup
  chain_b : Chain (fun p => if p = ROOT then none else (st.blk p).map (fun b => b.parent_block))
    st.array.blk_cache Lb
  chain_n : Chain (fun p => (st.nods p).map (fun n => n.block)) st.array.nod_cache Ln

/-- The block a successful `link_block` leaves at the new child. -/
def linked_child (c : Config) (parent : Ptr) (i : Nat) (pb : xarray_block) : xarray_block :=
  { parent_block := parent, parent_pos := uchar i,
    shift := uchar_sub pb.shift c.XARRAY_BITS, used := 0, values := fun _ => 0 }

/-- The block a successful `link_block` leaves at the parent. -/
def linked_parent (child : Ptr) (i : Nat) (pb : xarray_block) : xarray_block :=
  { pb with used := uchar (pb.used + 1), values := store pb.values i child }

/-- The block `set_leaf` leaves at the leaf block after inserting a node. -/
def leaf_with (v : Ptr) (i : Nat) (pb : xarray_block) : xarray_block :=
  { pb with values := store pb.values i v, used := uchar (pb.used + 1) }

/-- The state in which the pending store `block->values[i] = NULL` of
`xarray_unset` has been carried out. -/
def clear_pending (st : State) (block : Ptr) (i : Nat) : State :=
  match st.blk block with
  | some b => st.set_block block { b with values := store b.values i 0 }
  | none => st

/-- The parent block after one of its children has been released: the slot is
cleared and `used` decremented. -/
def without_child (j : Nat) (pb : xarray_block) : xarray_block :=
  { pb with used := uchar_sub pb.used 1, values := store pb.values j 0 }

/-- The blocks reachable from the root: the root, and every block held in a
slot of a reachable block whose shift is not zero. -/
inductive Reachable (c : Config) (st : State) : Ptr → Prop where
  | root : Reachable c st ROOT
  | child {P : Ptr} {pb : xarray_block} {i : Nat} : Reachable c st P → st.blk P = some pb →
      0 < pb.shift → i < XARRAY_BLOCK_SIZE c → pb.values i ≠ 0 → Reachable c st (pb.values i)

/-- The top-level slice of an index: the slot of the root it lies under. -/
def top_slice (c : Config) (index : Nat) : Nat :=
  (xuint c index >>> XARRAY_MAX_SHIFT c) &&& XARRAY_MASK c

/-- The container states obtained from a newly initialised container by `Set`
calls that returned a handle and by `Unset` calls, leaving out the `Unset`
calls that bring the root's `used` count to zero for an index whose top-level
slice is not zero. -/
inductive Reached (c : Config) : State → Prop where
  | init (val_size : Nat) (cb : Bool) : Reached c (xarray_init c val_size cb)
  | set (fuel index : Nat) (pvalue : Option (List Nat)) (alloc : List Ptr) (hd : Ptr)
      {st st' : State} : Reached c st → xarray_set c fuel st index pvalue alloc = .ok (st', hd) →
      hd ≠ 0 → Reached c st'
  | unset (fuel index : Nat) {st st' : State} : Reached c st →
      xarray_unset c fuel st index = .ok st' →
      (st'.array.root.used ≠ 0 ∨ top_slice c index = 0 ∨ st' = st) → Reached c st'

/-- The state a sequence of operations on a new default container with 4-byte
payloads and a destructor ends in (the new container itself if the run has no
result). -/
def state_after (ops : List Op) : State :=
  match run default_config 1000 (xarray_init default_config 4 true) ops with
  | .ok st => st
  | .error _ => xarray_init default_config 4 true

/-- The `shift` field of a block created `k` levels below the root: line 21
stores `XARRAY_MAX_SHIFT` into the root's `unsigned char`, and line 90 stores
`parent->shift - XARRAY_BITS` into each new child's. -/
def descend_shift (c : Config) : Nat → Nat
  | 0 => uchar (XARRAY_MAX_SHIFT c)
  | k + 1 => uchar_sub (descend_shift c k) c.XARRAY_BITS

/-- The blocks reached by `k` descents from the root: a descent goes from a
block whose shift is not zero into one of its non-empty slots. -/
inductive Descends (c : Config) (st : State) : Nat → Ptr → Prop where
  | root : Descends c st 0 ROOT
  | child {k : Nat} {P : Ptr} {pb : xarray_block} {i : Nat} : Descends c st k P →
      st.blk P = some pb → 0 < pb.shift → i < XARRAY_BLOCK_SIZE c → pb.values i ≠ 0 →
      Descends c st (k + 1) (pb.values i)

/-- The configuration with the largest documented fan-out: 8 branching bits,
16-bit indices, no cache. -/
def wide_config : Config :=
  { XARRAY_BITS := 8, XARRAY_INDEX_BITS := 16, XARRAY_ENABLE_CACHE := false }

/-- The calls `Set(0, NULL)`, ..., `Set(n - 1, NULL)`: the first one allocates
the leaf block at `10`, and the node of index `i` is allocated at `1000 + i`. -/
def fill_ops (n : Nat) : List Op :=
  (List.range n).map (fun i => Op.set i none (if i = 0 then [10, 1000] else [1000 + i]))

/-! ## The structural invariant and its preservation -/

theorem block_eq_ok {st : State} {p : Ptr} {b : xarray_block} :
    st.block p = .ok b ↔ st.blk p = some b := by
  unfold State.block State.blk
  by_cases hp : p = ROOT
  · simp [hp]
  · simp only [hp, if_false]
    cases h : st.blks p <;> simp

theorem block_ok_of_blk {st : State} {p : Ptr} {b : xarray_block} (h : st.blk p = some b) :
    st.block p = .ok b := block_eq_ok.2 h

theorem blk_set_block (st : State) (p q : Ptr) (b : xarray_block) :
    (st.set_block p b).blk q = if q = p then some b else st.blk q := by
  unfold State.set_block State.blk
  by_cases hp : p = ROOT
  · subst hp
    by_cases hq : q = ROOT <;> simp [hq]
  · by_cases hq : q = ROOT
    · subst hq
      have : ROOT ≠ p := fun h => hp h.symm
      simp [hp, this]
    · simp [hp, hq]

theorem modify_block_ok {st st' : State} {p : Ptr} {f : xarray_block → xarray_block}
    (h : st.modify_block p f = .ok st') :
    ∃ b, st.blk p = some b ∧ st' = st.set_block p (f b) := by
  unfold State.modify_block at h
  cases hb : st.block p with
  | error e => simp [hb] at h
  | ok b =>
    simp only [hb] at h
    injection h with h
    exact ⟨b, block_eq_ok.1 hb, h.symm⟩

theorem modify_block_of_blk {st : State} {p : Ptr} {b : xarray_block}
    (f : xarray_block → xarray_block) (h : st.blk p = some b) :
    st.modify_block p f = .ok (st.set_block p (f b)) := by
  unfold State.modify_block
  rw [block_ok_of_blk h]

@[simp] theorem set_block_nods (st : State) (p : Ptr) (b : xarray_block) :
    (st.set_block p b).nods = st.nods := by
  unfold State.set_block; split <;> rfl

@[simp] theorem set_block_destroyed (st : State) (p : Ptr) (b : xarray_block) :
    (st.set_block p b).destroyed = st.destroyed := by
  unfold State.set_block; split <;> rfl

@[simp] theorem set_block_blocks (st : State) (p : Ptr) (b : xarray_block) :
    (st.set_block p b).array.blocks = st.array.blocks := by
  unfold State.set_block; split <;> rfl

@[simp] theorem set_block_values (st : State) (p : Ptr) (b : xarray_block) :
    (st.set_block p b).array.values = st.array.values := by
  unfold State.set_block; split <;> rfl

@[simp] theorem set_block_blk_cache (st : State) (p : Ptr) (b : xarray_block) :
    (st.set_block p b).array.blk_cache = st.array.blk_cache := by
  unfold State.set_block; split <;> rfl

@[simp] theorem set_block_nod_cache (st : State) (p : Ptr) (b : xarray_block) :
    (st.set_block p b).array.nod_cache = st.array.nod_cache := by
  unfold State.set_block; split <;> rfl

@[simp] theorem set_block_destroy_cb (st : State) (p : Ptr) (b : xarray_block) :
    (st.set_block p b).array.destroy_cb = st.array.destroy_cb := by
  unfold State.set_block; split <;> rfl

@[simp] theorem set_block_val_size (st : State) (p : Ptr) (b : xarray_block) :
    (st.set_block p b).array.val_size = st.array.val_size := by
  unfold State.set_block; split <;> rfl

theorem set_block_blks (st : State) (p q : Ptr) (b : xarray_block) :
    (st.set_block p b).blks q = if p ≠ ROOT ∧ q = p then some b else st.blks q := by
  unfold State.set_block
  by_cases hp : p = ROOT
  · simp [hp]
  · simp [hp]

theorem set_block_root (st : State) (p : Ptr) (b : xarray_block) :
    (st.set_block p b).array.root = if p = ROOT then b else st.array.root := by
  unfold State.set_block
  by_cases hp : p = ROOT <;> simp [hp]

/-- Counting over an initial segment when the predicate changes at one place. -/
theorem countP_range_update (n i : Nat) (f g : Nat → Bool) (hi : i < n)
    (hfg : ∀ j, j ≠ i → g j = f j) :
    (List.range n).countP g + (if f i then 1 else 0) =
      (List.range n).countP f + (if g i then 1 else 0) := by
  induction n with
  | zero => omega
  | succ n ih =>
    rw [List.range_succ, List.countP_append, List.countP_append]
    simp only [List.countP_cons, List.countP_nil, Nat.zero_add]
    by_cases hin : i < n
    · have := ih hin
      have hne : n ≠ i := by omega
      rw [hfg n hne]
      omega
    · have hieq : i = n := by omega
      subst hieq
      have hsame : (List.range i).countP g = (List.range i).countP f := by
        apply List.countP_congr
        intro j hj
        have : j ≠ i := by
          have := List.mem_range.1 hj
          omega
        rw [hfg j this]
      rw [hsame]
      cases hf : f i <;> cases hg : g i <;> simp

theorem occupied_eq_countP (c : Config) (b : xarray_block) :
    occupied c b = (List.range (XARRAY_BLOCK_SIZE c)).countP (fun i => b.values i != 0) := by
  unfold occupied
  rw [List.countP_eq_length_filter]

theorem occupied_le (c : Config) (b : xarray_block) : occupied c b ≤ XARRAY_BLOCK_SIZE c := by
  rw [occupied_eq_countP]
  calc _ ≤ (List.range (XARRAY_BLOCK_SIZE c)).length := List.countP_le_length _
    _ = _ := List.length_range _

theorem occupied_pos_iff (c : Config) (b : xarray_block) :
    0 < occupied c b ↔ ∃ i, i < XARRAY_BLOCK_SIZE c ∧ b.values i ≠ 0 := by
  rw [occupied_eq_countP, List.countP_pos_iff]
  constructor
  · rintro ⟨i, hi, h⟩
    exact ⟨i, List.mem_range.1 hi, by simpa using h⟩
  · rintro ⟨i, hi, h⟩
    exact ⟨i, List.mem_range.2 hi, by simpa using h⟩

theorem occupied_store (c : Config) (b : xarray_block) (i : Nat) (v : Ptr)
    (hi : i < XARRAY_BLOCK_SIZE c) :
    occupied c { b with values := store b.values i v } + (if b.values i ≠ 0 then 1 else 0) =
      occupied c b + (if v ≠ 0 then 1 else 0) := by
  rw [occupied_eq_countP, occupied_eq_countP]
  have h := countP_range_update (XARRAY_BLOCK_SIZE c) i (fun j => b.values j != 0)
    (fun j => store b.values i v j != 0) hi (by
      intro j hj
      simp [store, hj])
  simp only [store, if_true, bne_iff_ne, ne_eq] at h ⊢
  convert h using 2

theorem occupied_congr (c : Config) (b b' : xarray_block) (h : b'.values = b.values) :
    occupied c b' = occupied c b := by
  unfold occupied; rw [h]

theorem occupied_zero (c : Config) (b : xarray_block) (h : ∀ i, b.values i = 0) :
    occupied c b = 0 := by
  rw [occupied_eq_countP]
  apply List.countP_eq_zero.2
  intro i _
  simp [h i]

theorem max_shift_facts (c : Config) (hc : c.allowed) :
    XARRAY_MAX_SHIFT c < 64 ∧ 0 < XARRAY_MAX_SHIFT c ∧ c.XARRAY_BITS ∣ XARRAY_MAX_SHIFT c ∧
      XARRAY_MAX_SHIFT c < c.XARRAY_INDEX_BITS := by
  obtain ⟨h1, h8, hw⟩ := hc
  obtain ⟨b, w, e⟩ := c
  simp only at h1 h8 hw
  unfold XARRAY_MAX_SHIFT
  simp only
  have hb : b = 1 ∨ b = 2 ∨ b = 3 ∨ b = 4 ∨ b = 5 ∨ b = 6 ∨ b = 7 ∨ b = 8 := by omega
  rcases hb with rfl | rfl | rfl | rfl | rfl | rfl | rfl | rfl <;>
    rcases hw with rfl | rfl | rfl <;> decide

theorem block_size_facts (c : Config) (hc : c.allowed) :
    XARRAY_BLOCK_SIZE c = 2 ^ c.XARRAY_BITS ∧ 2 ≤ XARRAY_BLOCK_SIZE c ∧
      XARRAY_BLOCK_SIZE c ≤ 256 ∧ XARRAY_MASK c + 1 = XARRAY_BLOCK_SIZE c := by
  obtain ⟨h1, h8, _⟩ := hc
  obtain ⟨b, w, e⟩ := c
  simp only at h1 h8
  unfold XARRAY_MASK XARRAY_BLOCK_SIZE
  simp only
  have hb : b = 1 ∨ b = 2 ∨ b = 3 ∨ b = 4 ∨ b = 5 ∨ b = 6 ∨ b = 7 ∨ b = 8 := by omega
  rcases hb with rfl | rfl | rfl | rfl | rfl | rfl | rfl | rfl <;> decide

theorem inv_init (c : Config) (hc : c.allowed) (val_size : Nat) (cb : Bool) :
    Inv c (xarray_init c val_size cb) [] [] [] ROOT := by
  obtain ⟨hlt, hpos, hdvd, _⟩ := max_shift_facts c hc
  have hsh : (xarray_init c val_size cb).array.root.shift = XARRAY_MAX_SHIFT c := by
    simp only [xarray_init, uchar]
    omega
  have hblk : ∀ P pb, TreeBlock [] P → (xarray_init c val_size cb).blk P = some pb →
      pb = (xarray_init c val_size cb).array.root := by
    intro P pb hP h
    rcases hP with rfl | hP
    · simp [State.blk] at h; exact h.symm
    · simp at hP
  constructor
  · exact hsh
  · rfl
  · rfl
  · rfl
  · rfl
  · rfl
  · intro p hp h; simp [xarray_init, State.blk, hp] at h
  · exact List.nodup_nil
  · intro p h; simp at h
  · intro p h; simp at h
  · intro p h; simp at h
  · intro p h; simp at h
  · intro p h; simp at h
  · intro P pb hP h hs i hi hv
    rw [hblk P pb hP h] at hv
    simp [xarray_init, zero_block] at hv
  · intro P pb hP h hs i hi hv
    rw [hblk P pb hP h] at hv
    simp [xarray_init, zero_block] at hv
  · intro P pb hP h
    rw [hblk P pb hP h]
    rw [occupied_zero c _ (by intro i; rfl)]
    rfl
  · intro p b h; simp at h
  · intro P pb hP h
    rw [hblk P pb hP h, hsh]
    exact ⟨le_refl _, hdvd⟩
  · rfl
  · exact List.nodup_nil
  · exact List.nodup_nil
  · simp [Chain, xarray_init]
  · simp [Chain, xarray_init]

theorem blks_eq_blk (st : State) {p : Ptr} (hp : p ≠ ROOT) : st.blks p = st.blk p := by
  simp [State.blk, hp]

theorem set_block_blks_root (st : State) (p : Ptr) (b : xarray_block) :
    (st.set_block p b).blks ROOT = st.blks ROOT := by
  rw [set_block_blks]
  by_cases hp : p = ROOT
  · simp [hp]
  · have : ¬ (ROOT = p) := fun h => hp h.symm
    simp [this]

theorem link_block_spec (c : Config) {st st' : State} {parent child : Ptr} {i : Nat}
    {pb : xarray_block} (hpb : st.blk parent = some pb) (hne : child ≠ parent)
    (h : link_block c st parent child i = .ok st') :
    (∀ q, st'.blk q = if q = parent then some (linked_parent child i pb)
        else if q = child then some (linked_child c parent i pb) else st.blk q) ∧
      st'.nods = st.nods ∧ st'.array.blocks = size_inc st.array.blocks ∧
      st'.array.blk_cache = st.array.blk_cache ∧ st'.array.nod_cache = st.array.nod_cache ∧
      st'.blks ROOT = st.blks ROOT ∧ st'.array.values = st.array.values ∧
      st'.destroyed = st.destroyed := by
  unfold link_block at h
  simp only [bind, Except.bind, pure, Except.pure] at h
  have hne' : parent ≠ child := fun e => hne e.symm
  -- first three writes to the child
  have h1 : (st.set_block child zero_block).blk child = some zero_block := by
    rw [blk_set_block]; simp
  rw [modify_block_of_blk _ h1] at h
  simp only at h
  have h2 : ((st.set_block child zero_block).set_block child
      { zero_block with parent_block := parent }).blk child =
      some { zero_block with parent_block := parent } := by
    rw [blk_set_block]; simp
  rw [modify_block_of_blk _ h2] at h
  simp only at h
  have h3 : ∀ s : State, ∀ b, (s.set_block child b).blk parent = s.blk parent := by
    intro s b; rw [blk_set_block]; simp [hne']
  have h4 : ∀ s : State, ∀ b, (s.set_block child b).blk child = some b := by
    intro s b; rw [blk_set_block]; simp
  rw [block_ok_of_blk (by rw [h3, h3, h3]; exact hpb)] at h
  simp only at h
  rw [modify_block_of_blk _ (h4 _ _)] at h
  simp only at h
  have h5 : ∀ (s : State) (n : Nat) (q : Ptr),
      ({ s with array := { s.array with blocks := n } } : State).blk q = s.blk q := by
    intro s n q; rfl
  rw [modify_block_of_blk (b := pb) _ (by rw [h5, h3, h3, h3, h3]; exact hpb)] at h
  simp only at h
  rw [modify_block_of_blk (b := { pb with used := uchar (pb.used + 1) }) _
    (by rw [blk_set_block]; simp)] at h
  injection h with h
  subst h
  refine ⟨?_, ?_, ?_, ?_, ?_, ?_, ?_, ?_⟩
  · intro q
    simp only [blk_set_block, h5]
    by_cases hq : q = parent
    · simp [hq, linked_parent]
    · by_cases hq2 : q = child
      · simp [hq2, hne, linked_child, zero_block]
      · simp [hq, hq2]
  · simp
  · simp
  · simp
  · simp
  · simp [set_block_blks_root]
  · simp
  · simp

@[simp] theorem blk_root (st : State) : st.blk ROOT = some st.array.root := by
  simp [State.blk]

theorem Chain.congr {next next' : Ptr → Option Ptr} :
    ∀ {head : Ptr} {L : List Ptr}, Chain next head L → (∀ p, p ∈ L → next' p = next p) →
      Chain next' head L
  | _, [], h, _ => h
  | _, p :: rest, h, hn => by
    obtain ⟨h1, h2, nx, h3, h4⟩ := h
    refine ⟨h1, h2, nx, ?_, Chain.congr h4 (fun q hq => hn q (List.mem_cons_of_mem _ hq))⟩
    rw [hn p (List.mem_cons_self _ _)]
    exact h3

theorem Chain.next_some {next : Ptr → Option Ptr} :
    ∀ {head : Ptr} {L : List Ptr}, Chain next head L → ∀ p, p ∈ L → (next p).isSome ∧ p ≠ 0
  | _, [], _, p, hp => by simp at hp
  | _, q :: rest, h, p, hp => by
    obtain ⟨_, h2, nx, h3, h4⟩ := h
    rcases List.mem_cons.1 hp with rfl | hp
    · exact ⟨by simp [h3], h2⟩
    · exact Chain.next_some h4 p hp

theorem nodup_length_lt {T : List Nat} {N : Nat} (hN : 0 < N) (hnd : T.Nodup)
    (h : ∀ p, p ∈ T → p ≠ 0 ∧ p < N) : T.length < N := by
  have hsub : T.toFinset ⊆ Finset.Ico 1 N := by
    intro p hp
    have := h p (List.mem_toFinset.1 hp)
    exact Finset.mem_Ico.2 ⟨by omega, this.2⟩
  have hcard := Finset.card_le_card hsub
  rw [List.toFinset_card_of_nodup hnd, Nat.card_Ico] at hcard
  omega

theorem uchar_of_lt {n : Nat} (h : n < 256) : uchar n = n := by
  unfold uchar; omega

theorem uchar_sub_of_le {a b : Nat} (hb : b ≤ a) (ha : a < 256) : uchar_sub a b = a - b := by
  unfold uchar_sub; omega

theorem Inv.weaken {c : Config} {st : State} {T Lb Ln : List Ptr} {hole : Ptr} (hole' : Ptr)
    (h : Inv c st T Lb Ln hole)
    (hne : ∀ b, hole ∈ T → st.blk hole = some b → 1 ≤ occupied c b) :
    Inv c st T Lb Ln hole' := by
  refine { h with nonempty := ?_ }
  intro p b hp _ hb
  by_cases hph : p = hole
  · subst hph; exact hne b hp hb
  · exact h.nonempty p b hp hph hb

theorem Inv.tree_ne_null {c : Config} {st : State} {T Lb Ln : List Ptr} {hole : Ptr}
    (h : Inv c st T Lb Ln hole) {P : Ptr} (hP : TreeBlock T P) : P ≠ 0 := by
  rcases hP with rfl | hP
  · decide
  · intro h0
    subst h0
    have := (h.T_live 0 hP).2
    rw [h.blks_null] at this
    simp at this

theorem Inv.tree_live {c : Config} {st : State} {T Lb Ln : List Ptr} {hole : Ptr}
    (h : Inv c st T Lb Ln hole) {P : Ptr} (hP : TreeBlock T P) : ∃ pb, st.blk P = some pb := by
  rcases hP with rfl | hP
  · exact ⟨_, blk_root st⟩
  · exact Option.isSome_iff_exists.1 (h.T_live P hP).2

theorem Inv.length_lt {c : Config} {st : State} {T Lb Ln : List Ptr} {hole : Ptr}
    (h : Inv c st T Lb Ln hole) : T.length < 2 ^ 64 := by
  apply nodup_length_lt (by norm_num) h.T_nodup
  intro p hp
  exact ⟨h.tree_ne_null (Or.inr hp), h.T_lt p hp⟩

theorem link_block_inv (c : Config) (hc : c.allowed) {st st' : State} {T Lb Ln : List Ptr}
    {parent child : Ptr} {i : Nat} {pb : xarray_block}
    (hinv : Inv c st T Lb Ln parent) (hP : TreeBlock T parent)
    (hpb : st.blk parent = some pb) (hsh : 0 < pb.shift)
    (hi : i < XARRAY_BLOCK_SIZE c) (hslot : pb.values i = 0)
    (hc0 : child ≠ 0) (hcR : child ≠ ROOT) (hcT : child ∉ T) (hcL : child ∉ Lb)
    (hclt : child < 2 ^ 64) (hcn : st.nods child = none)
    (h : link_block c st parent child i = .ok st') :
    Inv c st' (child :: T) Lb Ln child ∧
      st'.blk child = some (linked_child c parent i pb) ∧
      (linked_child c parent i pb).shift + c.XARRAY_BITS = pb.shift := by
  obtain ⟨hbs, hbs2, hbs256, _⟩ := block_size_facts c hc
  obtain ⟨hms64, _, _, _⟩ := max_shift_facts c hc
  have hne : child ≠ parent := by
    rintro rfl
    rcases hP with h1 | h1
    · exact hcR h1
    · exact hcT h1
  obtain ⟨hblk, hnods, hblocks, hbc, hnc, hbr, _, _⟩ := link_block_spec c hpb hne h
  have hpsh := hinv.shift_ok parent pb hP hpb
  have hbits : c.XARRAY_BITS ≤ pb.shift := Nat.le_of_dvd hsh hpsh.2
  have hLCshift : (linked_child c parent i pb).shift + c.XARRAY_BITS = pb.shift := by
    simp only [linked_child]
    rw [uchar_sub_of_le hbits (by omega)]
    omega
  have hui : uchar i = i := uchar_of_lt (by omega)
  have hoccP : occupied c (linked_parent child i pb) = occupied c pb + 1 := by
    have := occupied_store c pb i child hi
    simp only [hslot, hc0, ne_eq, not_true_eq_false, not_false_eq_true, if_true, if_false] at this
    simpa [linked_parent] using this
  have hoccC : occupied c (linked_child c parent i pb) = 0 :=
    occupied_zero c _ (by intro j; rfl)
  -- the new block of an old tree block keeps its header
  have hold : ∀ q b, q ≠ child → st.blk q = some b →
      ∃ b', st'.blk q = some b' ∧ b'.parent_block = b.parent_block ∧
        b'.parent_pos = b.parent_pos ∧ b'.shift = b.shift ∧
        (q ≠ parent → b' = b) := by
    intro q b hqc hqb
    by_cases hqp : q = parent
    · subst hqp
      rw [hpb] at hqb
      injection hqb with hqb
      subst hqb
      exact ⟨linked_parent child i pb, by rw [hblk]; simp, rfl, rfl, rfl, fun h => absurd rfl h⟩
    · exact ⟨b, by rw [hblk]; simp [hqp, hqc, hqb], rfl, rfl, rfl, fun _ => rfl⟩
  have hTne : ∀ q, TreeBlock T q → q ≠ child := by
    rintro q (rfl | hq) rfl
    · exact hcR rfl
    · exact hcT hq
  have hroot : st'.array.root.shift = st.array.root.shift ∧
      st'.array.root.parent_block = st.array.root.parent_block ∧
      st'.array.root.parent_pos = st.array.root.parent_pos := by
    obtain ⟨b', hb', h1, h2, h3, _⟩ := hold ROOT _ (fun e => hcR e.symm) (blk_root st)
    rw [blk_root] at hb'
    injection hb' with hb'
    subst hb'
    exact ⟨h3, h1, h2⟩
  refine ⟨?_, by rw [hblk]; simp [hne], hLCshift⟩
  refine
    { root_shift := by rw [hroot.1]; exact hinv.root_shift
      root_parent := by rw [hroot.2.1]; exact hinv.root_parent
      root_pos := by rw [hroot.2.2]; exact hinv.root_pos
      blks_root := by rw [hbr]; exact hinv.blks_root
      blks_null := ?_
      nods_null := by rw [hnods]; exact hinv.nods_null
      sep := ?_
      T_nodup := List.nodup_cons.2 ⟨hcT, hinv.T_nodup⟩
      T_live := ?_
      T_lt := ?_
      T_Lb := ?_
      Lb_lt := hinv.Lb_lt
      up := ?_
      down_blk := ?_
      down_nod := ?_
      used := ?_
      nonempty := ?_
      shift_ok := ?_
      count := ?_
      Lb_nodup := hinv.Lb_nodup
      Ln_nodup := hinv.Ln_nodup
      chain_b := ?_
      chain_n := by rw [hnods, hnc]; exact hinv.chain_n }
  · -- blks_null
    rw [hblk]
    have h0p : (0 : Ptr) ≠ parent := fun e => hinv.tree_ne_null hP e.symm
    simp [h0p, hc0.symm, hinv.blks_null]
  · -- sep
    intro p hpR hp
    rw [hnods]
    by_cases hpc : p = child
    · subst hpc; exact hcn
    · by_cases hpp : p = parent
      · subst hpp
        exact hinv.sep _ hpR (by simp [hpb])
      · rw [hblk] at hp
        simp only [hpp, hpc, if_false] at hp
        exact hinv.sep _ hpR hp
  · -- T_live
    intro p hp
    rcases List.mem_cons.1 hp with rfl | hp
    · exact ⟨hcR, by rw [hblk]; simp [hne]⟩
    · obtain ⟨h1, h2⟩ := hinv.T_live p hp
      obtain ⟨b, hb⟩ := Option.isSome_iff_exists.1 h2
      obtain ⟨b', hb', _⟩ := hold p b (hTne p (Or.inr hp)) hb
      exact ⟨h1, by simp [hb']⟩
  · -- T_lt
    intro p hp
    rcases List.mem_cons.1 hp with rfl | hp
    · exact hclt
    · exact hinv.T_lt p hp
  · -- T_Lb
    intro p hp
    rcases List.mem_cons.1 hp with rfl | hp
    · exact hcL
    · exact hinv.T_Lb p hp
  · -- up
    intro p hp
    rcases List.mem_cons.1 hp with rfl | hp
    · refine ⟨linked_child c parent i pb, linked_parent p i pb, by rw [hblk]; simp [hne], ?_,
        by show st'.blk parent = _; rw [hblk]; simp, ?_, ?_, ?_⟩
      · rcases hP with h1 | h1
        · exact Or.inl h1
        · exact Or.inr (List.mem_cons_of_mem _ h1)
      · simp only [linked_parent]; exact hLCshift.symm
      · simp only [linked_child, hui]; exact hi
      · simp [linked_child, linked_parent, hui, store]
    · obtain ⟨b, pb0, hb, hTB, hpb0, hs, hpos, hval⟩ := hinv.up p hp
      obtain ⟨b', hb', e1, e2, e3, _⟩ := hold p b (hTne p (Or.inr hp)) hb
      obtain ⟨pb0', hpb0', _, _, f3, f4⟩ := hold _ pb0 (hTne _ hTB) hpb0
      refine ⟨b', pb0', hb', ?_, by rw [e1]; exact hpb0', by rw [f3, e3]; exact hs,
        by rw [e2]; exact hpos, ?_⟩
      · rw [e1]
        rcases hTB with h1 | h1
        · exact Or.inl h1
        · exact Or.inr (List.mem_cons_of_mem _ h1)
      · rw [e2]
        by_cases hq : b.parent_block = parent
        · rw [hq, hblk] at hpb0'
          simp only [if_true] at hpb0'
          injection hpb0' with hpb0'
          subst hpb0'
          rw [hq, hpb] at hpb0
          injection hpb0 with hpb0
          subst hpb0
          have hpi : b.parent_pos ≠ i := by
            intro e
            rw [e, hslot] at hval
            exact hinv.tree_ne_null (Or.inr hp) hval.symm
          simp [linked_parent, store, hpi, hval]
        · rw [f4 hq]; exact hval
  · -- down_blk
    intro P pb' hTB hpb' hs j hj hv
    by_cases hPc : P = child
    · subst hPc
      rw [hblk] at hpb'
      simp only [hne, if_false, if_true] at hpb'
      injection hpb' with hpb'
      subst hpb'
      simp [linked_child] at hv
    · have hTBold : TreeBlock T P := by
        rcases hTB with h1 | h1
        · exact Or.inl h1
        · rcases List.mem_cons.1 h1 with h2 | h2
          · exact absurd h2 hPc
          · exact Or.inr h2
      by_cases hPp : P = parent
      · subst hPp
        rw [hblk] at hpb'
        simp only [if_true] at hpb'
        injection hpb' with hpb'
        subst hpb'
        by_cases hji : j = i
        · subst hji
          refine ⟨by simp [linked_parent, store], linked_child c P j pb, ?_, rfl, ?_⟩
          · simp only [linked_parent, store, if_true]
            rw [hblk]; simp [hne]
          · simp [linked_child, hui]
        · have hv' : pb.values j ≠ 0 := by
            simpa [linked_parent, store, hji] using hv
          obtain ⟨hm, b, hb, e1, e2⟩ := hinv.down_blk P pb hTBold hpb hsh j hj hv'
          have hvj : (linked_parent child i pb).values j = pb.values j := by
            simp [linked_parent, store, hji]
          rw [hvj]
          obtain ⟨b', hb', g1, g2, _, _⟩ := hold _ b (hTne _ (Or.inr hm)) hb
          exact ⟨List.mem_cons_of_mem _ hm, b', hb', by rw [g1]; exact e1, by rw [g2]; exact e2⟩
      · rw [hblk] at hpb'
        simp only [hPp, hPc, if_false] at hpb'
        obtain ⟨hm, b, hb, e1, e2⟩ := hinv.down_blk P pb' hTBold hpb' hs j hj hv
        obtain ⟨b', hb', g1, g2, _, _⟩ := hold _ b (hTne _ (Or.inr hm)) hb
        exact ⟨List.mem_cons_of_mem _ hm, b', hb', by rw [g1]; exact e1, by rw [g2]; exact e2⟩
  · -- down_nod
    intro P pb' hTB hpb' hs j hj hv
    rw [hnods]
    by_cases hPc : P = child
    · subst hPc
      rw [hblk] at hpb'
      simp only [hne, if_false, if_true] at hpb'
      injection hpb' with hpb'
      subst hpb'
      simp [linked_child] at hv
    · have hTBold : TreeBlock T P := by
        rcases hTB with h1 | h1
        · exact Or.inl h1
        · rcases List.mem_cons.1 h1 with h2 | h2
          · exact absurd h2 hPc
          · exact Or.inr h2
      by_cases hPp : P = parent
      · subst hPp
        rw [hblk] at hpb'
        simp only [if_true] at hpb'
        injection hpb' with hpb'
        subst hpb'
        simp only [linked_parent] at hs
        omega
      · rw [hblk] at hpb'
        simp only [hPp, hPc, if_false] at hpb'
        exact hinv.down_nod P pb' hTBold hpb' hs j hj hv
  · -- used
    intro P pb' hTB hpb'
    by_cases hPc : P = child
    · subst hPc
      rw [hblk] at hpb'
      simp only [hne, if_false, if_true] at hpb'
      injection hpb' with hpb'
      subst hpb'
      rw [hoccC]; rfl
    · have hTBold : TreeBlock T P := by
        rcases hTB with h1 | h1
        · exact Or.inl h1
        · rcases List.mem_cons.1 h1 with h2 | h2
          · exact absurd h2 hPc
          · exact Or.inr h2
      by_cases hPp : P = parent
      · subst hPp
        rw [hblk] at hpb'
        simp only [if_true] at hpb'
        injection hpb' with hpb'
        subst hpb'
        rw [hoccP]
        have := hinv.used P pb hTBold hpb
        simp only [linked_parent, uchar]
        omega
      · rw [hblk] at hpb'
        simp only [hPp, hPc, if_false] at hpb'
        exact hinv.used P pb' hTBold hpb'
  · -- nonempty
    intro p b hp hph hb
    rcases List.mem_cons.1 hp with h1 | h1
    · exact absurd h1 hph
    · by_cases hpp : p = parent
      · subst hpp
        rw [hblk] at hb
        simp only [if_true] at hb
        injection hb with hb
        subst hb
        rw [hoccP]; omega
      · rw [hblk] at hb
        simp only [hpp, hph, if_false] at hb
        exact hinv.nonempty p b h1 hpp hb
  · -- shift_ok
    intro P pb' hTB hpb'
    by_cases hPc : P = child
    · subst hPc
      rw [hblk] at hpb'
      simp only [hne, if_false, if_true] at hpb'
      injection hpb' with hpb'
      subst hpb'
      refine ⟨by omega, ?_⟩
      have : (linked_child c parent i pb).shift = pb.shift - c.XARRAY_BITS := by omega
      rw [this]
      exact Nat.dvd_sub' hpsh.2 (dvd_refl _)
    · have hTBold : TreeBlock T P := by
        rcases hTB with h1 | h1
        · exact Or.inl h1
        · rcases List.mem_cons.1 h1 with h2 | h2
          · exact absurd h2 hPc
          · exact Or.inr h2
      obtain ⟨b0, hb0⟩ := hinv.tree_live hTBold
      obtain ⟨b', hb', _, _, g3, _⟩ := hold P b0 hPc hb0
      rw [hb'] at hpb'
      injection hpb' with hpb'
      subst hpb'
      rw [g3]
      exact hinv.shift_ok P b0 hTBold hb0
  · -- count
    rw [hblocks, hinv.count]
    have : (child :: T).length < 2 ^ 64 := by
      apply nodup_length_lt (by norm_num) (List.nodup_cons.2 ⟨hcT, hinv.T_nodup⟩)
      intro p hp
      rcases List.mem_cons.1 hp with rfl | hp
      · exact ⟨hc0, hclt⟩
      · exact ⟨hinv.tree_ne_null (Or.inr hp), hinv.T_lt p hp⟩
    simp only [List.length_cons] at this ⊢
    unfold size_inc
    omega
  · -- chain_b
    rw [hbc]
    apply Chain.congr hinv.chain_b
    intro p hp
    by_cases hpR : p = ROOT
    · simp [hpR]
    · have hpc : p ≠ child := fun e => hcL (e ▸ hp)
      have hpp : p ≠ parent := by
        rintro rfl
        rcases hP with h1 | h1
        · exact hpR h1
        · exact hinv.T_Lb _ h1 hp
      simp only [hpR, if_false]
      rw [hblk]
      simp [hpp, hpc]

theorem slot_index_lt (c : Config) (hc : c.allowed) {index shift i : Nat}
    (h : slot_index c index shift = .ok i) : i < XARRAY_BLOCK_SIZE c := by
  obtain ⟨_, _, _, hm⟩ := block_size_facts c hc
  unfold slot_index at h
  split at h
  · injection h with h
    subst h
    have : (index >>> shift) &&& XARRAY_MASK c ≤ XARRAY_MASK c := Nat.and_le_right
    omega
  · cases h

theorem mask_lt (c : Config) (hc : c.allowed) (index : Nat) :
    index &&& XARRAY_MASK c < XARRAY_BLOCK_SIZE c := by
  obtain ⟨_, _, _, hm⟩ := block_size_facts c hc
  have : index &&& XARRAY_MASK c ≤ XARRAY_MASK c := Nat.and_le_right
  omega

/-- The invariant reads a state only through its blocks, the headers of its
nodes, the block count and the two free lists. -/
theorem Inv.transfer {c : Config} {st st1 : State} {T Lb Ln Lb' Ln' : List Ptr} {hole : Ptr}
    (h : Inv c st T Lb Ln hole) (hblk : ∀ q, st1.blk q = st.blk q)
    (hnods : ∀ p n, st.nods p = some n →
      ∃ n1, st1.nods p = some n1 ∧ n1.block = n.block ∧ n1.index = n.index)
    (hnull : st1.nods 0 = none)
    (hsep : ∀ p, p ≠ ROOT → (st.blk p).isSome → st1.nods p = none)
    (hblocks : st1.array.blocks = st.array.blocks) (hbr : st1.blks ROOT = st.blks ROOT)
    (hLb : ∀ p, p ∈ Lb' → p ∈ Lb) (hLn : ∀ p, p ∈ Ln' → p ∈ Ln)
    (hnd : Lb'.Nodup) (hnd' : Ln'.Nodup)
    (hchb : Chain (fun p => if p = ROOT then none else (st1.blk p).map (fun b => b.parent_block))
      st1.array.blk_cache Lb')
    (hchn : Chain (fun p => (st1.nods p).map (fun n => n.block)) st1.array.nod_cache Ln') :
    Inv c st1 T Lb' Ln' hole := by
  have hroot : st1.array.root = st.array.root := by
    have := hblk ROOT
    simp only [blk_root] at this
    injection this
  refine
    { root_shift := by rw [hroot]; exact h.root_shift
      root_parent := by rw [hroot]; exact h.root_parent
      root_pos := by rw [hroot]; exact h.root_pos
      blks_root := by rw [hbr]; exact h.blks_root
      blks_null := by rw [hblk]; exact h.blks_null
      nods_null := hnull
      sep := fun p hp hs => hsep p hp (by rw [← hblk]; exact hs)
      T_nodup := h.T_nodup
      T_live := fun p hp => by rw [hblk]; exact h.T_live p hp
      T_lt := h.T_lt
      T_Lb := fun p hp hq => h.T_Lb p hp (hLb p hq)
      Lb_lt := fun p hp => h.Lb_lt p (hLb p hp)
      up := ?_
      down_blk := ?_
      down_nod := ?_
      used := fun P pb hP hpb => h.used P pb hP (by rw [← hblk]; exact hpb)
      nonempty := fun p b hp hph hb => h.nonempty p b hp hph (by rw [← hblk]; exact hb)
      shift_ok := fun P pb hP hpb => h.shift_ok P pb hP (by rw [← hblk]; exact hpb)
      count := by rw [hblocks]; exact h.count
      Lb_nodup := hnd
      Ln_nodup := hnd'
      chain_b := hchb
      chain_n := hchn }
  · intro p hp
    obtain ⟨b, pb, h1, h2, h3, h4⟩ := h.up p hp
    exact ⟨b, pb, by rw [hblk]; exact h1, h2, by rw [hblk]; exact h3, h4⟩
  · intro P pb hP hpb hs i hi hv
    obtain ⟨h1, b, h2, h3⟩ := h.down_blk P pb hP (by rw [← hblk]; exact hpb) hs i hi hv
    exact ⟨h1, b, by rw [hblk]; exact h2, h3⟩
  · intro P pb hP hpb hs i hi hv
    obtain ⟨h1, n, h2, h3, h4⟩ := h.down_nod P pb hP (by rw [← hblk]; exact hpb) hs i hi hv
    obtain ⟨n1, hn1, e1, e2⟩ := hnods _ n h2
    exact ⟨fun hq => h1 (hLn _ hq), n1, hn1, by rw [e1]; exact h3, by rw [e2]; exact h4⟩

theorem malloc_ok {st : State} {alloc rest : List Ptr} {p : Ptr}
    (h : malloc st alloc = .ok (rest, p)) (hp : p ≠ 0) :
    p < 2 ^ 64 ∧ p ≠ ROOT ∧ st.blks p = none ∧ st.nods p = none := by
  unfold malloc at h
  cases alloc with
  | nil =>
    simp only at h
    injection h with h
    injection h with _ h
    exact absurd h.symm hp
  | cons q rest1 =>
    simp only at h
    by_cases hq0 : q = 0
    · simp only [hq0, if_true] at h
      injection h with h
      injection h with _ h
      exact absurd h.symm hp
    · simp only [hq0, if_false] at h
      by_cases hf : st.fresh q = true
      · simp only [hf, if_true] at h
        injection h with h
        injection h with _ h
        subst h
        unfold State.fresh at hf
        simp only [Bool.and_eq_true, decide_eq_true_eq, bne_iff_ne, ne_eq,
          Option.isNone_iff_eq_none] at hf
        obtain ⟨⟨⟨⟨hlt, _⟩, hR⟩, hb⟩, hn⟩ := hf
        exact ⟨hlt, hR, hb, hn⟩
      · simp [hf] at h

theorem alloc_block_inv (c : Config) {st st1 : State} {T Lb Ln : List Ptr} {hole : Ptr}
    {alloc alloc1 : List Ptr} {child : Ptr}
    (hinv : Inv c st T Lb Ln hole)
    (h : alloc_block c st alloc = .ok (st1, alloc1, child)) (hc0 : child ≠ 0) :
    ∃ Lb', Inv c st1 T Lb' Ln hole ∧ child ≠ ROOT ∧ child ∉ T ∧ child ∉ Lb' ∧
      child < 2 ^ 64 ∧ st1.nods child = none ∧ (∀ q, st1.blk q = st.blk q) := by
  unfold alloc_block at h
  split at h
  · -- pop from the cache
    rename_i hcache
    cases hcb : st.block st.array.blk_cache with
    | error e => simp [hcb] at h
    | ok cb =>
      simp only [hcb] at h
      injection h with h
      injection h with h1 h2
      injection h2 with h2 h3
      subst h1 h3
      have hcb' := block_eq_ok.1 hcb
      have hch := hinv.chain_b
      have hnd := hinv.Lb_nodup
      cases hLb : Lb with
      | nil =>
        rw [hLb] at hch
        exact absurd hch hcache.2
      | cons p rest =>
        rw [hLb] at hch hnd
        obtain ⟨e1, e2, nx, e3, e4⟩ := hch
        have hpR : p ≠ ROOT := by
          rintro rfl
          simp at e3
        rw [e1] at hcb' ⊢
        simp only [hpR, if_false, hcb', Option.map_some'] at e3
        injection e3 with e3
        have hpT : p ∉ T := fun hp => hinv.T_Lb p hp (by rw [hLb]; exact List.mem_cons_self _ _)
        refine ⟨rest, ?_, hpR, hpT, (List.nodup_cons.1 hnd).1,
          hinv.Lb_lt p (by rw [hLb]; exact List.mem_cons_self _ _),
          hinv.sep p hpR (by simp [hcb']), fun q => rfl⟩
        refine Inv.transfer hinv ?_ ?_ hinv.nods_null hinv.sep ?_ ?_
          (fun q hq => by rw [hLb]; exact List.mem_cons_of_mem _ hq) (fun q hq => hq)
          (List.nodup_cons.1 hnd).2 hinv.Ln_nodup ?_ ?_
        · intro q; rfl
        · intro q n hn; exact ⟨n, hn, rfl, rfl⟩
        · rfl
        · rfl
        · show Chain _ cb.parent_block rest
          rw [e3]
          exact e4
        · exact hinv.chain_n
  · -- malloc
    cases hm : malloc st alloc with
    | error e => simp [hm] at h
    | ok r =>
      obtain ⟨rest, p⟩ := r
      simp only [hm] at h
      injection h with h
      injection h with h1 h2
      injection h2 with h2 h3
      subst h1 h3
      obtain ⟨hlt, hR, hb, hn⟩ := malloc_ok hm hc0
      have hblk : st.blk p = none := by rw [← blks_eq_blk st hR]; exact hb
      refine ⟨Lb, hinv, hR, ?_, ?_, hlt, hn, fun q => rfl⟩
      · intro hT
        have := (hinv.T_live p hT).2
        rw [hblk] at this
        simp at this
      · intro hL
        have := (Chain.next_some hinv.chain_b p hL).1
        simp [hR, hblk] at this

theorem tree_cons {T : List Ptr} {p q : Ptr} (h : TreeBlock T p) : TreeBlock (q :: T) p := by
  rcases h with h | h
  · exact Or.inl h
  · exact Or.inr (List.mem_cons_of_mem _ h)

theorem set_descend_inv (c : Config) (hc : c.allowed) (index : Nat) :
    ∀ (fuel : Nat) (st : State) (parent : Ptr) (alloc : List Ptr) (st' : State)
      (alloc' : List Ptr) (leaf : Ptr) (T Lb Ln : List Ptr) (pb : xarray_block),
      Inv c st T Lb Ln parent → TreeBlock T parent → st.blk parent = some pb → 0 < pb.shift →
      set_descend c fuel st parent index alloc = .ok (st', alloc', leaf) → leaf ≠ 0 →
      ∃ T' Lb' lb, Inv c st' T' Lb' Ln leaf ∧ TreeBlock T' leaf ∧ st'.blk leaf = some lb ∧
        lb.shift = 0 := by
  intro fuel
  induction fuel with
  | zero =>
    intro st parent alloc st' alloc' leaf T Lb Ln pb _ _ _ _ h _
    simp [set_descend] at h
  | succ fuel ih =>
    intro st parent alloc st' alloc' leaf T Lb Ln pb hinv hP hpb hsh h hleaf
    rw [set_descend] at h
    rw [block_ok_of_blk hpb] at h
    simp only at h
    cases hsl : slot_index c index pb.shift with
    | error e => simp [hsl] at h
    | ok i =>
      simp only [hsl] at h
      have hi := slot_index_lt c hc hsl
      by_cases hv : pb.values i = 0
      · -- a new block is created
        simp only [hv, if_true] at h
        cases ha : alloc_block c st alloc with
        | error e => simp [ha] at h
        | ok r =>
          obtain ⟨st1, alloc1, child⟩ := r
          simp only [ha] at h
          by_cases hc0 : child = 0
          · simp only [hc0, if_true] at h
            injection h with h
            injection h with _ h
            injection h with _ h
            exact absurd h.symm hleaf
          · simp only [hc0, if_false] at h
            obtain ⟨Lb', hinv1, hcR, hcT, hcL, hclt, hcn, hsame⟩ := alloc_block_inv c hinv ha hc0
            have hpb1 : st1.blk parent = some pb := by rw [hsame]; exact hpb
            cases hl : link_block c st1 parent child i with
            | error e => simp [hl] at h
            | ok st2 =>
              simp only [hl] at h
              obtain ⟨hinv2, hcb, hcsh⟩ :=
                link_block_inv c hc hinv1 hP hpb1 hsh hi hv hc0 hcR hcT hcL hclt hcn hl
              rw [block_ok_of_blk hcb] at h
              simp only at h
              by_cases hs : (linked_child c parent i pb).shift > 0
              · simp only [hs, if_true] at h
                exact ih st2 child alloc1 st' alloc' leaf (child :: T) Lb' Ln _ hinv2
                  (Or.inr (List.mem_cons_self _ _)) hcb hs h hleaf
              · simp only [hs, if_false] at h
                injection h with h
                injection h with h1 h2
                injection h2 with h2 h3
                subst h1 h3
                exact ⟨child :: T, Lb', _, hinv2, Or.inr (List.mem_cons_self _ _), hcb, by omega⟩
      · -- the slot is occupied
        simp only [hv, if_false] at h
        obtain ⟨hm, cb, hcb, _, _⟩ := hinv.down_blk parent pb hP hpb hsh i hi hv
        rw [block_ok_of_blk hcb] at h
        simp only at h
        have hinv' : Inv c st T Lb Ln (pb.values i) := by
          apply hinv.weaken
          intro b _ hb
          rw [hpb] at hb
          injection hb with hb
          subst hb
          exact (occupied_pos_iff c pb).2 ⟨i, hi, hv⟩
        by_cases hs : cb.shift > 0
        · simp only [hs, if_true] at h
          exact ih st (pb.values i) alloc st' alloc' leaf T Lb Ln cb hinv' (Or.inr hm) hcb hs h
            hleaf
        · simp only [hs, if_false] at h
          injection h with h
          injection h with h1 h2
          injection h2 with h2 h3
          subst h1 h3
          exact ⟨T, Lb, cb, hinv', Or.inr hm, hcb, by omega⟩

@[simp] theorem set_node_blk (st : State) (p : Ptr) (n : xarray_node) (q : Ptr) :
    (st.set_node p n).blk q = st.blk q := rfl

theorem set_node_nods (st : State) (p : Ptr) (n : xarray_node) (q : Ptr) :
    (st.set_node p n).nods q = if q = p then some n else st.nods q := rfl

@[simp] theorem set_node_array (st : State) (p : Ptr) (n : xarray_node) :
    (st.set_node p n).array = st.array := rfl

@[simp] theorem set_node_blks (st : State) (p : Ptr) (n : xarray_node) :
    (st.set_node p n).blks = st.blks := rfl

theorem modify_node_of {st : State} {p : Ptr} {n : xarray_node}
    (f : xarray_node → xarray_node) (h : st.nods p = some n) :
    st.modify_node p f = .ok (st.set_node p (f n)) := by
  unfold State.modify_node State.node
  rw [h]

theorem alloc_node_inv (c : Config) {st st1 : State} {T Lb Ln : List Ptr} {hole : Ptr}
    {alloc alloc1 : List Ptr} {v : Ptr}
    (hinv : Inv c st T Lb Ln hole)
    (h : alloc_node c st alloc = .ok (st1, alloc1, v)) (hv0 : v ≠ 0) :
    ∃ Ln', Inv c st1 T Lb Ln' hole ∧ v ∉ Ln' ∧ (∃ n, st1.nods v = some n) ∧
      (∀ q, st1.blk q = st.blk q) ∧ (v ≠ ROOT → st1.blk v = none) ∧
      (∀ P pb, TreeBlock T P → st.blk P = some pb → pb.shift = 0 →
        ∀ i, i < XARRAY_BLOCK_SIZE c → pb.values i ≠ v) := by
  unfold alloc_node at h
  split at h
  · -- pop from the cache
    rename_i hcache
    cases hcn : st.node st.array.nod_cache with
    | error e => simp [hcn] at h
    | ok n =>
      simp only [hcn] at h
      injection h with h
      injection h with h1 h2
      injection h2 with h2 h3
      subst h1 h3
      have hn : st.nods st.array.nod_cache = some n := by
        unfold State.node at hcn
        cases hx : st.nods st.array.nod_cache with
        | none => simp [hx] at hcn
        | some m => simp only [hx] at hcn; injection hcn with hcn; rw [hcn]
      have hch := hinv.chain_n
      have hnd := hinv.Ln_nodup
      cases hLn : Ln with
      | nil =>
        rw [hLn] at hch
        exact absurd hch hcache.2
      | cons p rest =>
        rw [hLn] at hch hnd
        obtain ⟨e1, e2, nx, e3, e4⟩ := hch
        rw [e1] at hn ⊢
        simp only [hn, Option.map_some'] at e3
        injection e3 with e3
        have hpLn : p ∈ Ln := by rw [hLn]; exact List.mem_cons_self _ _
        refine ⟨rest, ?_, (List.nodup_cons.1 hnd).1, ⟨n, hn⟩, fun q => rfl, ?_, ?_⟩
        · refine Inv.transfer hinv ?_ ?_ hinv.nods_null hinv.sep ?_ ?_
            (fun q hq => hq) (fun q hq => by rw [hLn]; exact List.mem_cons_of_mem _ hq)
            hinv.Lb_nodup (List.nodup_cons.1 hnd).2 ?_ ?_
          · intro q; rfl
          · intro q m hm; exact ⟨m, hm, rfl, rfl⟩
          · rfl
          · rfl
          · exact hinv.chain_b
          · show Chain _ n.block rest
            rw [e3]
            exact e4
        · intro hpR
          show st.blk p = none
          cases hb : st.blk p with
          | none => rfl
          | some b =>
            have := hinv.sep p hpR (by simp [hb])
            rw [hn] at this
            cases this
        · intro P pb hP hpb hs i hi hvi
          by_cases h0 : pb.values i = 0
          · rw [h0] at hvi; exact e2 hvi.symm
          · have := (hinv.down_nod P pb hP hpb hs i hi h0).1
            rw [hvi] at this
            exact this hpLn
  · -- malloc
    cases hm : malloc st alloc with
    | error e => simp [hm] at h
    | ok r =>
      obtain ⟨rest, p⟩ := r
      simp only [hm] at h
      by_cases hp0 : p = 0
      · simp only [hp0, if_true] at h
        injection h with h
        injection h with _ h
        injection h with _ h
        exact absurd h.symm hv0
      · simp only [hp0, if_false] at h
        injection h with h
        injection h with h1 h2
        injection h2 with h2 h3
        subst h1 h3
        obtain ⟨hlt, hR, hb, hn⟩ := malloc_ok hm hp0
        have hblk : st.blk p = none := by rw [← blks_eq_blk st hR]; exact hb
        have hpLn : p ∉ Ln := by
          intro hL
          have := (Chain.next_some hinv.chain_n p hL).1
          simp [hn] at this
        refine ⟨Ln, ?_, hpLn, ⟨{ block := 0, index := 0, data := none },
          by rw [set_node_nods]; simp⟩, fun q => rfl,
          fun _ => hblk, ?_⟩
        · refine Inv.transfer hinv ?_ ?_ ?_ ?_ ?_ ?_
            (fun q hq => hq) (fun q hq => hq) hinv.Lb_nodup hinv.Ln_nodup ?_ ?_
          · intro q; rfl
          · intro q m hm1
            have hqp : q ≠ p := by rintro rfl; rw [hn] at hm1; cases hm1
            exact ⟨m, by rw [set_node_nods]; simp [hqp, hm1], rfl, rfl⟩
          · rw [set_node_nods]; simp [Ne.symm hp0, hinv.nods_null]
          · intro q hqR hq
            have hqp : q ≠ p := by rintro rfl; rw [hblk] at hq; simp at hq
            rw [set_node_nods]; simp [hqp, hinv.sep q hqR hq]
          · rfl
          · rfl
          · exact hinv.chain_b
          · apply Chain.congr hinv.chain_n
            intro q hq
            have hqp : q ≠ p := fun e => hpLn (e ▸ hq)
            simp [set_node_nods, hqp]
        · intro P pb hP hpb hs i hi hvi
          by_cases h0 : pb.values i = 0
          · rw [h0] at hvi; exact hp0 hvi.symm
          · obtain ⟨_, m, hm1, _⟩ := hinv.down_nod P pb hP hpb hs i hi h0
            rw [hvi, hn] at hm1
            cases hm1

theorem copy_value_spec {st st' : State} {v : Ptr} {pvalue : Option (List Nat)} {n : xarray_node}
    (hn : st.nods v = some n) (h : copy_value st v pvalue = .ok st') :
    (∀ q, st'.blk q = st.blk q) ∧ st'.array = st.array ∧ st'.blks = st.blks ∧
      (∀ q, q ≠ v → st'.nods q = st.nods q) ∧
      ∃ n', st'.nods v = some n' ∧ n'.block = n.block ∧ n'.index = n.index := by
  unfold copy_value at h
  cases pvalue with
  | none =>
    simp only at h
    injection h with h
    subst h
    exact ⟨fun q => rfl, rfl, rfl, fun q _ => rfl, n, hn, rfl, rfl⟩
  | some d =>
    simp only at h
    rw [modify_node_of _ hn] at h
    injection h with h
    subst h
    refine ⟨fun q => rfl, rfl, rfl, fun q hq => by rw [set_node_nods]; simp [hq],
      { n with data := some (d.take st.array.val_size) },
      by rw [set_node_nods]; simp, rfl, rfl⟩

theorem insert_node_spec (c : Config) {st st' : State} {parent v : Ptr} {index : Nat}
    {pvalue : Option (List Nat)} {pb : xarray_block} {n0 : xarray_node} {hd : Ptr}
    (hpb : st.blk parent = some pb) (hn0 : st.nods v = some n0)
    (h : (do
      let st2 ← st.modify_node v (fun n => { n with block := parent })
      let st3 ← st2.modify_node v (fun n => { n with index := index })
      let st4 ← st3.modify_block parent
        (fun b => { b with values := store b.values (index &&& XARRAY_MASK c) v })
      let st5 := { st4 with array := { st4.array with values := size_inc st4.array.values } }
      let st6 ← st5.modify_block parent (fun b => { b with used := uchar (b.used + 1) })
      let st7 ← copy_value st6 v pvalue
      pure (st7, v) : Except Fault (State × Ptr)) = .ok (st', hd)) :
    hd = v ∧ (∀ q, st'.blk q = if q = parent then some (leaf_with v (index &&& XARRAY_MASK c) pb)
        else st.blk q) ∧
      st'.array.blocks = st.array.blocks ∧ st'.array.blk_cache = st.array.blk_cache ∧
      st'.array.nod_cache = st.array.nod_cache ∧ st'.blks ROOT = st.blks ROOT ∧
      (∀ q, q ≠ v → st'.nods q = st.nods q) ∧
      ∃ n', st'.nods v = some n' ∧ n'.block = parent ∧ n'.index = index := by
  simp only [bind, Except.bind, pure, Except.pure] at h
  rw [modify_node_of _ hn0] at h
  simp only at h
  rw [modify_node_of (n := { n0 with block := parent }) _
    (by rw [set_node_nods]; simp)] at h
  simp only at h
  rw [modify_block_of_blk (b := pb) _ (by simpa using hpb)] at h
  simp only at h
  have h5 : ∀ (s : State) (n : Nat) (q : Ptr),
      ({ s with array := { s.array with values := n } } : State).blk q = s.blk q := by
    intro s n q; rfl
  rw [modify_block_of_blk
    (b := { pb with values := store pb.values (index &&& XARRAY_MASK c) v }) _
    (by rw [h5, blk_set_block]; simp)] at h
  simp only at h
  generalize hst6 : State.set_block _ parent _ = st6 at h
  have hn6 : st6.nods v = some { block := parent, index := index, data := n0.data } := by
    rw [← hst6]
    simp [set_node_nods]
  cases hcv : copy_value st6 v pvalue with
  | error e => simp [hcv] at h
  | ok st7 =>
    simp only [hcv] at h
    injection h with h
    injection h with h hhd
    subst h
    obtain ⟨g1, g2, g3, g4, n', g5, g6, g7⟩ := copy_value_spec hn6 hcv
    refine ⟨hhd.symm, ?_, ?_, ?_, ?_, ?_, ?_, n', g5, g6, g7⟩
    · intro q
      rw [g1, ← hst6]
      simp only [blk_set_block, h5, set_node_blk]
      by_cases hq : q = parent
      · simp [hq, leaf_with]
      · simp [hq]
    · rw [g2, ← hst6]; simp
    · rw [g2, ← hst6]; simp
    · rw [g2, ← hst6]; simp
    · rw [g3, ← hst6]; simp [set_block_blks_root]
    · intro q hq
      rw [g4 q hq, ← hst6]
      simp [set_node_nods, hq]

theorem insert_node_inv (c : Config) (hc : c.allowed) {st st' : State} {T Lb Ln : List Ptr}
    {parent v : Ptr} {index : Nat} {pb : xarray_block}
    (hinv : Inv c st T Lb Ln parent) (hP : TreeBlock T parent)
    (hpb : st.blk parent = some pb) (hsh : pb.shift = 0)
    (hslot : pb.values (index &&& XARRAY_MASK c) = 0)
    (hv0 : v ≠ 0) (hvL : v ∉ Ln) (hvb : v ≠ ROOT → st.blk v = none)
    (hvs : ∀ P pb, TreeBlock T P → st.blk P = some pb → pb.shift = 0 →
        ∀ i, i < XARRAY_BLOCK_SIZE c → pb.values i ≠ v)
    (hblk : ∀ q, st'.blk q = if q = parent then some (leaf_with v (index &&& XARRAY_MASK c) pb)
        else st.blk q)
    (hblocks : st'.array.blocks = st.array.blocks)
    (hbc : st'.array.blk_cache = st.array.blk_cache)
    (hnc : st'.array.nod_cache = st.array.nod_cache) (hbr : st'.blks ROOT = st.blks ROOT)
    (hnods : ∀ q, q ≠ v → st'.nods q = st.nods q)
    (hnv : ∃ n', st'.nods v = some n' ∧ n'.block = parent ∧ n'.index = index) :
    Inv c st' T Lb Ln ROOT := by
  obtain ⟨hbs, hbs2, hbs256, _⟩ := block_size_facts c hc
  have hi := mask_lt c hc index
  have hocc : occupied c (leaf_with v (index &&& XARRAY_MASK c) pb) = occupied c pb + 1 := by
    have := occupied_store c pb (index &&& XARRAY_MASK c) v hi
    simp only [hslot, hv0, ne_eq, not_true_eq_false, not_false_eq_true, if_true, if_false] at this
    rw [← this]
    exact occupied_congr c _ _ rfl
  have hbits : 0 < c.XARRAY_BITS := hc.1
  have hold : ∀ q b, st.blk q = some b →
      ∃ b', st'.blk q = some b' ∧ b'.parent_block = b.parent_block ∧
        b'.parent_pos = b.parent_pos ∧ b'.shift = b.shift ∧ (q ≠ parent → b' = b) := by
    intro q b hqb
    by_cases hqp : q = parent
    · subst hqp
      rw [hpb] at hqb
      injection hqb with hqb
      subst hqb
      exact ⟨leaf_with v (index &&& XARRAY_MASK c) pb, by rw [hblk]; simp, rfl, rfl, rfl,
        fun h => absurd rfl h⟩
    · exact ⟨b, by rw [hblk]; simp [hqp, hqb], rfl, rfl, rfl, fun _ => rfl⟩
  have hroot : st'.array.root.shift = st.array.root.shift ∧
      st'.array.root.parent_block = st.array.root.parent_block ∧
      st'.array.root.parent_pos = st.array.root.parent_pos := by
    obtain ⟨b', hb', h1, h2, h3, _⟩ := hold ROOT _ (blk_root st)
    rw [blk_root] at hb'
    injection hb' with hb'
    subst hb'
    exact ⟨h3, h1, h2⟩
  have hvp : v ≠ parent ∨ v = ROOT := by
    by_cases hvR : v = ROOT
    · exact Or.inr hvR
    · left
      rintro rfl
      rw [hvb hvR] at hpb
      cases hpb
  refine
    { root_shift := by rw [hroot.1]; exact hinv.root_shift
      root_parent := by rw [hroot.2.1]; exact hinv.root_parent
      root_pos := by rw [hroot.2.2]; exact hinv.root_pos
      blks_root := by rw [hbr]; exact hinv.blks_root
      blks_null := ?_
      nods_null := by rw [hnods 0 (Ne.symm hv0)]; exact hinv.nods_null
      sep := ?_
      T_nodup := hinv.T_nodup
      T_live := ?_
      T_lt := hinv.T_lt
      T_Lb := hinv.T_Lb
      Lb_lt := hinv.Lb_lt
      up := ?_
      down_blk := ?_
      down_nod := ?_
      used := ?_
      nonempty := ?_
      shift_ok := ?_
      count := by rw [hblocks]; exact hinv.count
      Lb_nodup := hinv.Lb_nodup
      Ln_nodup := hinv.Ln_nodup
      chain_b := ?_
      chain_n := ?_ }
  · -- blks_null
    rw [hblk]
    have h0p : (0 : Ptr) ≠ parent := fun e => hinv.tree_ne_null hP e.symm
    simp [h0p, hinv.blks_null]
  · -- sep
    intro p hpR hp
    have hpv : p ≠ v := by
      rintro rfl
      rw [hblk] at hp
      rcases hvp with h1 | h1
      · simp [h1, hvb hpR] at hp
      · exact hpR h1
    rw [hnods p hpv]
    by_cases hpp : p = parent
    · subst hpp
      exact hinv.sep _ hpR (by simp [hpb])
    · rw [hblk] at hp
      simp only [hpp, if_false] at hp
      exact hinv.sep _ hpR hp
  · -- T_live
    intro p hp
    obtain ⟨h1, h2⟩ := hinv.T_live p hp
    obtain ⟨b, hb⟩ := Option.isSome_iff_exists.1 h2
    obtain ⟨b', hb', _⟩ := hold p b hb
    exact ⟨h1, by simp [hb']⟩
  · -- up
    intro p hp
    obtain ⟨b, pb0, hb, hTB, hpb0, hs, hpos, hval⟩ := hinv.up p hp
    obtain ⟨b', hb', e1, e2, e3, _⟩ := hold p b hb
    obtain ⟨pb0', hpb0', _, _, f3, f4⟩ := hold _ pb0 hpb0
    have hq : b.parent_block ≠ parent := by
      intro e
      rw [e, hpb] at hpb0
      injection hpb0 with hpb0
      subst hpb0
      omega
    refine ⟨b', pb0', hb', by rw [e1]; exact hTB, by rw [e1]; exact hpb0',
      by rw [f3, e3]; exact hs, by rw [e2]; exact hpos, ?_⟩
    rw [e2, f4 hq]; exact hval
  · -- down_blk
    intro P pb' hTB hpb' hs j hj hv
    have hPp : P ≠ parent := by
      rintro rfl
      rw [hblk] at hpb'
      simp only [if_true] at hpb'
      injection hpb' with hpb'
      subst hpb'
      simp only [leaf_with] at hs
      omega
    rw [hblk] at hpb'
    simp only [hPp, if_false] at hpb'
    obtain ⟨hm, b, hb, e1, e2⟩ := hinv.down_blk P pb' hTB hpb' hs j hj hv
    obtain ⟨b', hb', g1, g2, _, _⟩ := hold _ b hb
    exact ⟨hm, b', hb', by rw [g1]; exact e1, by rw [g2]; exact e2⟩
  · -- down_nod
    intro P pb' hTB hpb' hs j hj hv
    by_cases hPp : P = parent
    · subst hPp
      rw [hblk] at hpb'
      simp only [if_true] at hpb'
      injection hpb' with hpb'
      subst hpb'
      by_cases hji : j = index &&& XARRAY_MASK c
      · subst hji
        obtain ⟨n', hn', g1, g2⟩ := hnv
        have hvv : (leaf_with v (index &&& XARRAY_MASK c) pb).values (index &&& XARRAY_MASK c) = v := by
          simp [leaf_with, store]
        rw [hvv]
        exact ⟨hvL, n', hn', g1, by rw [g2]⟩
      · have hvj : (leaf_with v (index &&& XARRAY_MASK c) pb).values j = pb.values j := by
          simp [leaf_with, store, hji]
        rw [hvj] at hv ⊢
        obtain ⟨h1, n, h2, h3, h4⟩ := hinv.down_nod P pb hP hpb hsh j hj hv
        have hwv : pb.values j ≠ v := hvs P pb hP hpb hsh j hj
        exact ⟨h1, n, by rw [hnods _ hwv]; exact h2, h3, h4⟩
    · rw [hblk] at hpb'
      simp only [hPp, if_false] at hpb'
      obtain ⟨h1, n, h2, h3, h4⟩ := hinv.down_nod P pb' hTB hpb' hs j hj hv
      have hwv : pb'.values j ≠ v := hvs P pb' hTB hpb' hs j hj
      exact ⟨h1, n, by rw [hnods _ hwv]; exact h2, h3, h4⟩
  · -- used
    intro P pb' hTB hpb'
    by_cases hPp : P = parent
    · subst hPp
      rw [hblk] at hpb'
      simp only [if_true] at hpb'
      injection hpb' with hpb'
      subst hpb'
      rw [hocc]
      have := hinv.used P pb hP hpb
      simp only [leaf_with, uchar]
      omega
    · rw [hblk] at hpb'
      simp only [hPp, if_false] at hpb'
      exact hinv.used P pb' hTB hpb'
  · -- nonempty
    intro p b hp _ hb
    by_cases hpp : p = parent
    · subst hpp
      rw [hblk] at hb
      simp only [if_true] at hb
      injection hb with hb
      subst hb
      rw [hocc]; omega
    · rw [hblk] at hb
      simp only [hpp, if_false] at hb
      exact hinv.nonempty p b hp hpp hb
  · -- shift_ok
    intro P pb' hTB hpb'
    obtain ⟨b0, hb0⟩ := hinv.tree_live hTB
    obtain ⟨b', hb', _, _, g3, _⟩ := hold P b0 hb0
    rw [hb'] at hpb'
    injection hpb' with hpb'
    subst hpb'
    rw [g3]
    exact hinv.shift_ok P b0 hTB hb0
  · -- chain_b
    rw [hbc]
    apply Chain.congr hinv.chain_b
    intro p hp
    by_cases hpR : p = ROOT
    · simp [hpR]
    · have hpp : p ≠ parent := by
        rintro rfl
        rcases hP with h1 | h1
        · exact hpR h1
        · exact hinv.T_Lb _ h1 hp
      simp only [hpR, if_false]
      rw [hblk]
      simp [hpp]
  · -- chain_n
    rw [hnc]
    apply Chain.congr hinv.chain_n
    intro p hp
    have hpv : p ≠ v := fun e => hvL (e ▸ hp)
    show Option.map _ (st'.nods p) = Option.map _ (st.nods p)
    rw [hnods p hpv]

theorem call_destroy_spec {st st' : State} {v : Ptr} (h : call_destroy st v = .ok st') :
    (∀ q, st'.blk q = st.blk q) ∧ st'.array = st.array ∧ st'.blks = st.blks ∧
      st'.nods = st.nods := by
  unfold call_destroy at h
  cases hn : st.node v with
  | error e => simp [hn] at h
  | ok n =>
    simp only [hn] at h
    injection h with h
    subst h
    exact ⟨fun q => rfl, rfl, rfl, rfl⟩

theorem set_leaf_inv (c : Config) (hc : c.allowed) {st st' : State} {T Lb Ln : List Ptr}
    {parent hd : Ptr} {index : Nat} {pvalue : Option (List Nat)} {alloc : List Ptr}
    {pb : xarray_block}
    (hinv : Inv c st T Lb Ln parent) (hP : TreeBlock T parent)
    (hpb : st.blk parent = some pb) (hsh : pb.shift = 0)
    (h : set_leaf c st parent index pvalue alloc = .ok (st', hd)) (hhd : hd ≠ 0) :
    ∃ Ln', Inv c st' T Lb Ln' ROOT := by
  unfold set_leaf at h
  rw [block_ok_of_blk hpb] at h
  simp only at h
  by_cases hv : pb.values (index &&& XARRAY_MASK c) = 0
  · -- a new node
    simp only [hv, if_true] at h
    cases ha : alloc_node c st alloc with
    | error e => simp [ha] at h
    | ok r =>
      obtain ⟨st1, alloc1, v⟩ := r
      simp only [ha] at h
      by_cases hv0 : v = 0
      · simp only [hv0, if_true] at h
        injection h with h
        injection h with _ h
        exact absurd h.symm hhd
      · simp only [hv0, if_false] at h
        obtain ⟨Ln', hinv1, hvL, ⟨n0, hn0⟩, hsame, hvb, hvs⟩ := alloc_node_inv c hinv ha hv0
        have hpb1 : st1.blk parent = some pb := by rw [hsame]; exact hpb
        obtain ⟨_, g1, g2, g3, g4, g5, g6, g7⟩ := insert_node_spec c hpb1 hn0 h
        refine ⟨Ln', insert_node_inv c hc hinv1 hP hpb1 hsh hv hv0 hvL hvb ?_ g1 g2 g3 g4 g5 g6 g7⟩
        intro P pb' hTB hpb' hs i hi
        exact hvs P pb' hTB (by rw [← hsame]; exact hpb') hs i hi
  · -- the index is already set
    simp only [hv, if_false, bind, Except.bind, pure, Except.pure] at h
    have hi := mask_lt c hc index
    obtain ⟨_, n, hn, _, _⟩ := hinv.down_nod parent pb hP hpb hsh _ hi hv
    have hinv0 : Inv c st T Lb Ln ROOT := by
      apply hinv.weaken
      intro b _ hb
      rw [hpb] at hb
      injection hb with hb
      subst hb
      exact (occupied_pos_iff c pb).2 ⟨_, hi, hv⟩
    have key : ∀ st1 : State, (∀ q, st1.blk q = st.blk q) → st1.array = st.array →
        st1.blks = st.blks → st1.nods = st.nods →
        ∀ st2, copy_value st1 (pb.values (index &&& XARRAY_MASK c)) pvalue = .ok st2 →
        Inv c st2 T Lb Ln ROOT := by
      intro st1 k1 k2 k3 k4 st2 hcv
      have hn1 : st1.nods (pb.values (index &&& XARRAY_MASK c)) = some n := by rw [k4]; exact hn
      obtain ⟨g1, g2, g3, g4, n', g5, g6, g7⟩ := copy_value_spec hn1 hcv
      have hnodes : ∀ p m, st.nods p = some m →
          ∃ n1, st2.nods p = some n1 ∧ n1.block = m.block ∧ n1.index = m.index := by
        intro p m hm
        by_cases hpv : p = pb.values (index &&& XARRAY_MASK c)
        · subst hpv
          rw [hn] at hm
          injection hm with hm
          subst hm
          exact ⟨n', g5, g6, g7⟩
        · exact ⟨m, by rw [g4 p hpv, k4]; exact hm, rfl, rfl⟩
      have hnone : ∀ p, st.nods p = none → st2.nods p = none := by
        intro p hp
        have hpv : p ≠ pb.values (index &&& XARRAY_MASK c) := by
          rintro rfl
          rw [hn] at hp
          cases hp
        rw [g4 p hpv, k4]; exact hp
      refine Inv.transfer hinv0 (fun q => by rw [g1, k1]) hnodes (hnone 0 hinv0.nods_null)
        (fun p hp hs => hnone p (hinv0.sep p hp hs)) (by rw [g2, k2]) (by rw [g3, k3])
        (fun q hq => hq) (fun q hq => hq) hinv0.Lb_nodup hinv0.Ln_nodup ?_ ?_
      · rw [g2, k2]
        apply Chain.congr hinv0.chain_b
        intro p _
        show (if p = ROOT then none else Option.map _ (st2.blk p)) = _
        rw [g1, k1]
      · rw [g2, k2]
        apply Chain.congr hinv0.chain_n
        intro p hp
        show Option.map _ (st2.nods p) = Option.map _ (st.nods p)
        by_cases hpv : p = pb.values (index &&& XARRAY_MASK c)
        · subst hpv
          rw [g5, hn]
          simp [g6]
        · rw [g4 p hpv, k4]
    by_cases hcb : st.array.destroy_cb = true
    · simp only [hcb, if_true] at h
      cases hd1 : call_destroy st (pb.values (index &&& XARRAY_MASK c)) with
      | error e => simp [hd1] at h
      | ok st1 =>
        simp only [hd1] at h
        obtain ⟨k1, k2, k3, k4⟩ := call_destroy_spec hd1
        cases hcv : copy_value st1 (pb.values (index &&& XARRAY_MASK c)) pvalue with
        | error e => simp [hcv] at h
        | ok st2 =>
          simp only [hcv] at h
          injection h with h
          injection h with h _
          subst h
          exact ⟨Ln, key st1 k1 k2 k3 k4 st2 hcv⟩
    · simp only [hcb] at h
      cases hcv : copy_value st (pb.values (index &&& XARRAY_MASK c)) pvalue with
      | error e => simp [hcv] at h
      | ok st2 =>
        simp only [hcv] at h
        simp at h
        obtain ⟨h, _⟩ := h
        subst h
        exact ⟨Ln, key st (fun q => rfl) rfl rfl rfl st2 hcv⟩

theorem xarray_set_inv (c : Config) (hc : c.allowed) {st st' : State} {T Lb Ln : List Ptr}
    {fuel index hd : Nat} {pvalue : Option (List Nat)} {alloc : List Ptr}
    (hinv : Inv c st T Lb Ln ROOT)
    (h : xarray_set c fuel st index pvalue alloc = .ok (st', hd)) (hhd : hd ≠ 0) :
    ∃ T' Lb' Ln', Inv c st' T' Lb' Ln' ROOT := by
  unfold xarray_set at h
  cases hsd : set_descend c fuel st ROOT (xuint c index) alloc with
  | error e => simp [hsd] at h
  | ok r =>
    obtain ⟨st1, alloc1, leaf⟩ := r
    simp only [hsd] at h
    by_cases hl0 : leaf = 0
    · simp only [hl0, if_true] at h
      injection h with h
      injection h with _ h
      exact absurd h.symm hhd
    · simp only [hl0, if_false] at h
      have hroot : 0 < st.array.root.shift := by
        rw [hinv.root_shift]; exact (max_shift_facts c hc).2.1
      obtain ⟨T', Lb', lb, hinv1, hTB, hlb, hls⟩ :=
        set_descend_inv c hc (xuint c index) fuel st ROOT alloc st1 alloc1 leaf T Lb Ln _
          hinv (Or.inl rfl) (blk_root st) hroot hsd hl0
      obtain ⟨Ln', hinv2⟩ := set_leaf_inv c hc hinv1 hTB hlb hls h hhd
      exact ⟨T', Lb', Ln', hinv2⟩

theorem find_leaf_block_inv (c : Config) (hc : c.allowed) (index : Nat) {T Lb Ln : List Ptr}
    {hole : Ptr} {st : State} (hinv : Inv c st T Lb Ln hole) :
    ∀ (fuel : Nat) (P : Ptr) (pb : xarray_block) (L : Ptr),
      TreeBlock T P → st.blk P = some pb → 0 < pb.shift →
      find_leaf_block c fuel st P index = .ok (some L) →
      L ∈ T ∧ ∃ lb, st.blk L = some lb ∧ lb.shift = 0 := by
  intro fuel
  induction fuel with
  | zero =>
    intro P pb L _ _ _ h
    simp [find_leaf_block] at h
  | succ fuel ih =>
    intro P pb L hP hpb hsh h
    rw [find_leaf_block] at h
    rw [block_ok_of_blk hpb] at h
    simp only at h
    cases hsl : slot_index c index pb.shift with
    | error e => simp [hsl] at h
    | ok i =>
      simp only [hsl] at h
      have hi := slot_index_lt c hc hsl
      by_cases hv : pb.values i = 0
      · simp [hv] at h
      · simp only [hv, if_false] at h
        obtain ⟨hm, cb, hcb, _, _⟩ := hinv.down_blk P pb hP hpb hsh i hi hv
        rw [block_ok_of_blk hcb] at h
        simp only at h
        by_cases hs : cb.shift > 0
        · simp only [hs, if_true] at h
          exact ih (pb.values i) cb L (Or.inr hm) hcb hs h
        · simp only [hs, if_false] at h
          injection h with h
          injection h with h
          subst h
          exact ⟨hm, cb, hcb, by omega⟩

theorem modify_store_eq {st : State} {block : Ptr} {b : xarray_block} (i : Nat)
    (hb : st.blk block = some b) :
    st.modify_block block (fun b => { b with values := store b.values i 0 }) =
      .ok (clear_pending st block i) := by
  rw [modify_block_of_blk _ hb]
  unfold clear_pending
  rw [hb]

theorem clear_pending_blk {st : State} {block : Ptr} {b : xarray_block} (i : Nat)
    (hb : st.blk block = some b) (q : Ptr) :
    (clear_pending st block i).blk q =
      if q = block then some { b with values := store b.values i 0 } else st.blk q := by
  unfold clear_pending
  rw [hb]
  exact blk_set_block _ _ _ _

theorem clear_pending_fields (st : State) (block : Ptr) (i : Nat) :
    (clear_pending st block i).nods = st.nods ∧
    (clear_pending st block i).array.blocks = st.array.blocks ∧
    (clear_pending st block i).array.blk_cache = st.array.blk_cache ∧
    (clear_pending st block i).array.nod_cache = st.array.nod_cache ∧
    (clear_pending st block i).blks ROOT = st.blks ROOT := by
  unfold clear_pending
  cases st.blk block with
  | none => exact ⟨rfl, rfl, rfl, rfl, rfl⟩
  | some b => simp [set_block_blks_root]

theorem size_dec_of_pos {n : Nat} (h : 0 < n) (hlt : n < 2 ^ 64) : size_dec n = n - 1 := by
  unfold size_dec; omega

theorem uchar_sub_one_mod {n : Nat} (h : 0 < n) : uchar_sub (n % 256) 1 = (n - 1) % 256 := by
  unfold uchar_sub; omega

theorem occupied_without (c : Config) (pb : xarray_block) (j : Nat)
    (hj : j < XARRAY_BLOCK_SIZE c) (hv : pb.values j ≠ 0) :
    occupied c (without_child j pb) + 1 = occupied c pb := by
  have := occupied_store c pb j 0 hj
  simp only [hv, ne_eq, not_true_eq_false, not_false_eq_true, if_true, if_false,
    Nat.add_zero] at this
  rw [← this]
  congr 1

theorem release_step_inv (c : Config) (hc : c.allowed) {s0 : State} (s2 : State)
    {T Lb Ln : List Ptr} (Lb' : List Ptr)
    {block : Ptr} {b0 pbP : xarray_block} (rb : Option xarray_block)
    (hinv : Inv c s0 T Lb Ln block) (hbT : block ∈ T) (hb0 : s0.blk block = some b0)
    (hempty : occupied c b0 = 0) (hpP : s0.blk b0.parent_block = some pbP)
    (hblk : ∀ q, s2.blk q = if q = b0.parent_block then some (without_child b0.parent_pos pbP)
        else if q = block then rb else s0.blk q)
    (hnods : s2.nods = s0.nods) (hblocks : s2.array.blocks = size_dec s0.array.blocks)
    (hbr : s2.blks ROOT = s0.blks ROOT) (hnc : s2.array.nod_cache = s0.array.nod_cache)
    (hcache : (Lb' = Lb ∧ rb = none ∧ s2.array.blk_cache = s0.array.blk_cache) ∨
      (Lb' = block :: Lb ∧ s2.array.blk_cache = block ∧
        ∃ rbk, rb = some rbk ∧ rbk.parent_block = s0.array.blk_cache)) :
    Inv c s2 (T.erase block) Lb' Ln b0.parent_block ∧ TreeBlock (T.erase block) b0.parent_block := by
  obtain ⟨hbs, hbs2, hbs256, _⟩ := block_size_facts c hc
  have hbits : 0 < c.XARRAY_BITS := hc.1
  obtain ⟨b1, pb1, hb1, hTBP, hpb1, hshift, hpos, hval⟩ := hinv.up block hbT
  rw [hb0] at hb1
  injection hb1 with hb1
  subst hb1
  rw [hpP] at hpb1
  injection hpb1 with hpb1
  subst hpb1
  have hbR : block ≠ ROOT := (hinv.T_live block hbT).1
  have hb0' : block ≠ 0 := hinv.tree_ne_null (Or.inr hbT)
  have hPb : b0.parent_block ≠ block := by
    intro e
    rw [e, hb0] at hpP
    injection hpP with hpP
    subst hpP
    omega
  have hmem : ∀ p, p ∈ T.erase block ↔ p ∈ T ∧ p ≠ block := by
    intro p
    rw [hinv.T_nodup.mem_erase_iff]
    exact and_comm
  have hPT' : TreeBlock (T.erase block) b0.parent_block := by
    rcases hTBP with h1 | h1
    · exact Or.inl h1
    · exact Or.inr ((hmem _).2 ⟨h1, hPb⟩)
  have hTB' : ∀ q, TreeBlock (T.erase block) q → TreeBlock T q ∧ q ≠ block := by
    rintro q (rfl | hq)
    · exact ⟨Or.inl rfl, fun e => hbR e.symm⟩
    · exact ⟨Or.inr ((hmem q).1 hq).1, ((hmem q).1 hq).2⟩
  have hoccP : occupied c (without_child b0.parent_pos pbP) + 1 = occupied c pbP :=
    occupied_without c pbP _ hpos (by rw [hval]; exact hb0')
  have hold : ∀ q b, q ≠ block → s0.blk q = some b →
      ∃ b', s2.blk q = some b' ∧ b'.parent_block = b.parent_block ∧
        b'.parent_pos = b.parent_pos ∧ b'.shift = b.shift ∧ (q ≠ b0.parent_block → b' = b) := by
    intro q b hqb hq
    by_cases hqp : q = b0.parent_block
    · subst hqp
      rw [hpP] at hq
      injection hq with hq
      subst hq
      exact ⟨without_child b0.parent_pos pbP, by rw [hblk]; simp, rfl, rfl, rfl,
        fun h => absurd rfl h⟩
    · exact ⟨b, by rw [hblk]; simp [hqp, hqb, hq], rfl, rfl, rfl, fun _ => rfl⟩
  have hroot : s2.array.root.shift = s0.array.root.shift ∧
      s2.array.root.parent_block = s0.array.root.parent_block ∧
      s2.array.root.parent_pos = s0.array.root.parent_pos := by
    obtain ⟨b', hb', h1, h2, h3, _⟩ := hold ROOT _ (fun e => hbR e.symm) (blk_root s0)
    rw [blk_root] at hb'
    injection hb' with hb'
    subst hb'
    exact ⟨h3, h1, h2⟩
  have hnochild : ∀ j, j < XARRAY_BLOCK_SIZE c → b0.values j = 0 := by
    intro j hj
    by_contra hne
    have := (occupied_pos_iff c b0).2 ⟨j, hj, hne⟩
    omega
  refine ⟨?_, hPT'⟩
  refine
    { root_shift := by rw [hroot.1]; exact hinv.root_shift
      root_parent := by rw [hroot.2.1]; exact hinv.root_parent
      root_pos := by rw [hroot.2.2]; exact hinv.root_pos
      blks_root := by rw [hbr]; exact hinv.blks_root
      blks_null := ?_
      nods_null := by rw [hnods]; exact hinv.nods_null
      sep := ?_
      T_nodup := hinv.T_nodup.erase _
      T_live := ?_
      T_lt := fun p hp => hinv.T_lt p ((hmem p).1 hp).1
      T_Lb := ?_
      Lb_lt := ?_
      up := ?_
      down_blk := ?_
      down_nod := ?_
      used := ?_
      nonempty := ?_
      shift_ok := ?_
      count := ?_
      Lb_nodup := ?_
      Ln_nodup := hinv.Ln_nodup
      chain_b := ?_
      chain_n := by rw [hnods, hnc]; exact hinv.chain_n }
  · -- blks_null
    rw [hblk]
    have h0p : (0 : Ptr) ≠ b0.parent_block := fun e => hinv.tree_ne_null hTBP e.symm
    simp [h0p, hb0'.symm, hinv.blks_null]
  · -- sep
    intro p hpR hp
    rw [hnods]
    by_cases hpb : p = block
    · subst hpb
      exact hinv.sep _ hpR (by simp [hb0])
    · by_cases hpp : p = b0.parent_block
      · subst hpp
        exact hinv.sep _ hpR (by simp [hpP])
      · rw [hblk] at hp
        simp only [hpp, hpb, if_false] at hp
        exact hinv.sep _ hpR hp
  · -- T_live
    intro p hp
    obtain ⟨hpT, hpb⟩ := (hmem p).1 hp
    obtain ⟨h1, h2⟩ := hinv.T_live p hpT
    obtain ⟨b, hb⟩ := Option.isSome_iff_exists.1 h2
    obtain ⟨b', hb', _⟩ := hold p b hpb hb
    exact ⟨h1, by simp [hb']⟩
  · -- T_Lb
    intro p hp
    obtain ⟨hpT, hpb⟩ := (hmem p).1 hp
    rcases hcache with ⟨e, _, _⟩ | ⟨e, _, _⟩
    · rw [e]; exact hinv.T_Lb p hpT
    · rw [e]
      intro hq
      rcases List.mem_cons.1 hq with h1 | h1
      · exact hpb h1
      · exact hinv.T_Lb p hpT h1
  · -- Lb_lt
    intro p hp
    rcases hcache with ⟨e, _, _⟩ | ⟨e, _, _⟩
    · rw [e] at hp; exact hinv.Lb_lt p hp
    · rw [e] at hp
      rcases List.mem_cons.1 hp with h1 | h1
      · rw [h1]; exact hinv.T_lt block hbT
      · exact hinv.Lb_lt p h1
  · -- up
    intro p hp
    obtain ⟨hpT, hpb⟩ := (hmem p).1 hp
    obtain ⟨b, pbq, hb, hTB, hpbq, hs, hps, hvl⟩ := hinv.up p hpT
    have hqb : b.parent_block ≠ block := by
      intro e
      rw [e, hb0] at hpbq
      injection hpbq with hpbq
      subst hpbq
      rw [hnochild _ hps] at hvl
      exact hinv.tree_ne_null (Or.inr hpT) hvl.symm
    obtain ⟨b', hb', e1, e2, e3, _⟩ := hold p b hpb hb
    obtain ⟨pbq', hpbq', _, _, f3, f4⟩ := hold _ pbq hqb hpbq
    refine ⟨b', pbq', hb', ?_, by rw [e1]; exact hpbq', by rw [f3, e3]; exact hs,
      by rw [e2]; exact hps, ?_⟩
    · rw [e1]
      rcases hTB with h1 | h1
      · exact Or.inl h1
      · exact Or.inr ((hmem _).2 ⟨h1, hqb⟩)
    · rw [e2]
      by_cases hq : b.parent_block = b0.parent_block
      · rw [hq, hblk] at hpbq'
        simp only [if_true] at hpbq'
        injection hpbq' with hpbq'
        subst hpbq'
        rw [hq, hpP] at hpbq
        injection hpbq with hpbq
        subst hpbq
        have hpi : b.parent_pos ≠ b0.parent_pos := by
          intro e
          rw [e, hval] at hvl
          exact hpb hvl.symm
        simp [without_child, store, hpi, hvl]
      · rw [f4 hq]; exact hvl
  · -- down_blk
    intro Q pb' hTBQ hpb' hs j hj hv
    obtain ⟨hTBold, hQb⟩ := hTB' Q hTBQ
    have key : ∀ pbq, s0.blk Q = some pbq → 0 < pbq.shift → pbq.values j ≠ 0 →
        (Q = b0.parent_block → j ≠ b0.parent_pos) →
        pbq.values j ∈ T.erase block ∧ ∃ b, s2.blk (pbq.values j) = some b ∧
          b.parent_block = Q ∧ b.parent_pos = j := by
      intro pbq hpbq hsq hvq hne
      obtain ⟨hm, b, hb, e1, e2⟩ := hinv.down_blk Q pbq hTBold hpbq hsq j hj hvq
      have hwb : pbq.values j ≠ block := by
        intro e
        rw [e, hb0] at hb
        injection hb with hb
        subst hb
        exact hne e1.symm e2.symm
      obtain ⟨b', hb', g1, g2, _, _⟩ := hold _ b hwb hb
      exact ⟨(hmem _).2 ⟨hm, hwb⟩, b', hb', by rw [g1]; exact e1, by rw [g2]; exact e2⟩
    by_cases hQp : Q = b0.parent_block
    · subst hQp
      rw [hblk] at hpb'
      simp only [if_true] at hpb'
      injection hpb' with hpb'
      subst hpb'
      have hji : j ≠ b0.parent_pos := by
        intro e
        subst e
        simp [without_child, store] at hv
      have hvj : (without_child b0.parent_pos pbP).values j = pbP.values j := by
        simp [without_child, store, hji]
      rw [hvj] at hv ⊢
      exact key pbP hpP hs hv (fun _ => hji)
    · rw [hblk] at hpb'
      simp only [hQp, hQb, if_false] at hpb'
      exact key pb' hpb' hs hv (fun e => absurd e hQp)
  · -- down_nod
    intro Q pb' hTBQ hpb' hs j hj hv
    obtain ⟨hTBold, hQb⟩ := hTB' Q hTBQ
    rw [hnods]
    by_cases hQp : Q = b0.parent_block
    · subst hQp
      rw [hblk] at hpb'
      simp only [if_true] at hpb'
      injection hpb' with hpb'
      subst hpb'
      simp only [without_child] at hs
      omega
    · rw [hblk] at hpb'
      simp only [hQp, hQb, if_false] at hpb'
      exact hinv.down_nod Q pb' hTBold hpb' hs j hj hv
  · -- used
    intro Q pb' hTBQ hpb'
    obtain ⟨hTBold, hQb⟩ := hTB' Q hTBQ
    by_cases hQp : Q = b0.parent_block
    · subst hQp
      rw [hblk] at hpb'
      simp only [if_true] at hpb'
      injection hpb' with hpb'
      subst hpb'
      have hu := hinv.used _ pbP hTBold hpP
      have hpos' : 0 < occupied c pbP := by omega
      show uchar_sub pbP.used 1 = _
      rw [hu, uchar_sub_one_mod hpos']
      congr 1
      omega
    · rw [hblk] at hpb'
      simp only [hQp, hQb, if_false] at hpb'
      exact hinv.used Q pb' hTBold hpb'
  · -- nonempty
    intro p b hp hph hb
    obtain ⟨hpT, hpb⟩ := (hmem p).1 hp
    rw [hblk] at hb
    simp only [hph, hpb, if_false] at hb
    exact hinv.nonempty p b hpT hpb hb
  · -- shift_ok
    intro Q pb' hTBQ hpb'
    obtain ⟨hTBold, hQb⟩ := hTB' Q hTBQ
    obtain ⟨bq, hbq⟩ := hinv.tree_live hTBold
    obtain ⟨b', hb', _, _, g3, _⟩ := hold Q bq hQb hbq
    rw [hb'] at hpb'
    injection hpb' with hpb'
    subst hpb'
    rw [g3]
    exact hinv.shift_ok Q bq hTBold hbq
  · -- count
    rw [hblocks, hinv.count, List.length_erase_of_mem hbT]
    have hpos : 0 < T.length := List.length_pos_of_mem hbT
    exact size_dec_of_pos hpos hinv.length_lt
  · -- Lb_nodup
    rcases hcache with ⟨e, _, _⟩ | ⟨e, _, _⟩
    · rw [e]; exact hinv.Lb_nodup
    · rw [e]; exact List.nodup_cons.2 ⟨hinv.T_Lb block hbT, hinv.Lb_nodup⟩
  · -- chain_b
    have hframe : ∀ p, p ∈ Lb →
        (if p = ROOT then none else (s2.blk p).map (fun b => b.parent_block)) =
        (if p = ROOT then none else (s0.blk p).map (fun b => b.parent_block)) := by
      intro p hp
      by_cases hpR : p = ROOT
      · simp [hpR]
      · have hpb : p ≠ block := fun e => hinv.T_Lb block hbT (e ▸ hp)
        have hpp : p ≠ b0.parent_block := by
          rintro rfl
          rcases hTBP with h1 | h1
          · exact hpR h1
          · exact hinv.T_Lb _ h1 hp
        simp only [hpR, if_false]
        rw [hblk]
        simp [hpp, hpb]
    rcases hcache with ⟨e, _, e3⟩ | ⟨e, e2, rbk, e3, e4⟩
    · rw [e, e3]
      exact Chain.congr hinv.chain_b hframe
    · rw [e, e2]
      refine ⟨rfl, hb0', s0.array.blk_cache, ?_, Chain.congr hinv.chain_b hframe⟩
      simp only [hbR, if_false]
      rw [hblk]
      simp [hPb.symm, e3, e4]

theorem remove_node_inv (c : Config) (hc : c.allowed) {s0 : State} (s2 : State)
    {T Lb Ln : List Ptr} (Ln' : List Ptr)
    {hole L : Ptr} {lb : xarray_block} {i : Nat}
    (hinv : Inv c s0 T Lb Ln hole) (hLT : TreeBlock T L) (hlb : s0.blk L = some lb)
    (hsh : lb.shift = 0) (hi : i < XARRAY_BLOCK_SIZE c) (hv : lb.values i ≠ 0)
    (hholeL : ∀ b, hole ∈ T → s0.blk hole = some b → 1 ≤ occupied c b)
    (hblk : ∀ q, s2.blk q = if q = L then some (without_child i lb) else s0.blk q)
    (hnods : ∀ q, q ≠ lb.values i → s2.nods q = s0.nods q)
    (hblocks : s2.array.blocks = s0.array.blocks) (hbr : s2.blks ROOT = s0.blks ROOT)
    (hbc : s2.array.blk_cache = s0.array.blk_cache)
    (hcache : (Ln' = Ln ∧ s2.nods (lb.values i) = none ∧
        s2.array.nod_cache = s0.array.nod_cache) ∨
      (Ln' = lb.values i :: Ln ∧ s2.array.nod_cache = lb.values i ∧
        ∃ n', s2.nods (lb.values i) = some n' ∧ n'.block = s0.array.nod_cache)) :
    Inv c s2 T Lb Ln' L := by
  obtain ⟨hbs, hbs2, hbs256, _⟩ := block_size_facts c hc
  have hbits : 0 < c.XARRAY_BITS := hc.1
  obtain ⟨hvL, nv, hnv, hnvb, hnvi⟩ := hinv.down_nod L lb hLT hlb hsh i hi hv
  have hocc : occupied c (without_child i lb) + 1 = occupied c lb :=
    occupied_without c lb i hi hv
  have hold : ∀ q b, s0.blk q = some b →
      ∃ b', s2.blk q = some b' ∧ b'.parent_block = b.parent_block ∧
        b'.parent_pos = b.parent_pos ∧ b'.shift = b.shift ∧ (q ≠ L → b' = b) := by
    intro q b hq
    by_cases hqp : q = L
    · subst hqp
      rw [hlb] at hq
      injection hq with hq
      subst hq
      exact ⟨without_child i lb, by rw [hblk]; simp, rfl, rfl, rfl, fun h => absurd rfl h⟩
    · exact ⟨b, by rw [hblk]; simp [hqp, hq], rfl, rfl, rfl, fun _ => rfl⟩
  have hroot : s2.array.root.shift = s0.array.root.shift ∧
      s2.array.root.parent_block = s0.array.root.parent_block ∧
      s2.array.root.parent_pos = s0.array.root.parent_pos := by
    obtain ⟨b', hb', h1, h2, h3, _⟩ := hold ROOT _ (blk_root s0)
    rw [blk_root] at hb'
    injection hb' with hb'
    subst hb'
    exact ⟨h3, h1, h2⟩
  have hv0 : lb.values i ≠ 0 := hv
  -- nodes held by other slots are different from the removed node
  have hother : ∀ Q pbq, TreeBlock T Q → s0.blk Q = some pbq → pbq.shift = 0 →
      ∀ k, k < XARRAY_BLOCK_SIZE c → pbq.values k ≠ 0 → (Q = L → k ≠ i) →
      pbq.values k ∉ Ln' ∧ ∃ n, s2.nods (pbq.values k) = some n ∧ n.block = Q ∧
        n.index &&& XARRAY_MASK c = k := by
    intro Q pbq hQ hpbq hs k hk hvk hne
    obtain ⟨h1, n, h2, h3, h4⟩ := hinv.down_nod Q pbq hQ hpbq hs k hk hvk
    have hwv : pbq.values k ≠ lb.values i := by
      intro e
      rw [e, hnv] at h2
      injection h2 with h2
      subst h2
      exact hne (h3.symm.trans hnvb) (h4.symm.trans hnvi)
    refine ⟨?_, n, by rw [hnods _ hwv]; exact h2, h3, h4⟩
    rcases hcache with ⟨e, _, _⟩ | ⟨e, _, _⟩
    · rw [e]; exact h1
    · rw [e]
      intro hq
      rcases List.mem_cons.1 hq with h5 | h5
      · exact hwv h5
      · exact h1 h5
  refine
    { root_shift := by rw [hroot.1]; exact hinv.root_shift
      root_parent := by rw [hroot.2.1]; exact hinv.root_parent
      root_pos := by rw [hroot.2.2]; exact hinv.root_pos
      blks_root := by rw [hbr]; exact hinv.blks_root
      blks_null := ?_
      nods_null := by rw [hnods 0 (Ne.symm hv0)]; exact hinv.nods_null
      sep := ?_
      T_nodup := hinv.T_nodup
      T_live := ?_
      T_lt := hinv.T_lt
      T_Lb := hinv.T_Lb
      Lb_lt := hinv.Lb_lt
      up := ?_
      down_blk := ?_
      down_nod := ?_
      used := ?_
      nonempty := ?_
      shift_ok := ?_
      count := by rw [hblocks]; exact hinv.count
      Lb_nodup := hinv.Lb_nodup
      Ln_nodup := ?_
      chain_b := ?_
      chain_n := ?_ }
  · -- blks_null
    rw [hblk]
    have h0p : (0 : Ptr) ≠ L := fun e => hinv.tree_ne_null hLT e.symm
    simp [h0p, hinv.blks_null]
  · -- sep
    intro p hpR hp
    have hp0 : (s0.blk p).isSome := by
      by_cases hpL : p = L
      · subst hpL; simp [hlb]
      · rw [hblk] at hp; simpa [hpL] using hp
    have hpv : p ≠ lb.values i := by
      rintro rfl
      have := hinv.sep _ hpR hp0
      rw [hnv] at this
      cases this
    rw [hnods p hpv]
    exact hinv.sep _ hpR hp0
  · -- T_live
    intro p hp
    obtain ⟨h1, h2⟩ := hinv.T_live p hp
    obtain ⟨b, hb⟩ := Option.isSome_iff_exists.1 h2
    obtain ⟨b', hb', _⟩ := hold p b hb
    exact ⟨h1, by simp [hb']⟩
  · -- up
    intro p hp
    obtain ⟨b, pb0, hb, hTB, hpb0, hs, hpos, hval⟩ := hinv.up p hp
    obtain ⟨b', hb', e1, e2, e3, _⟩ := hold p b hb
    obtain ⟨pb0', hpb0', _, _, f3, f4⟩ := hold _ pb0 hpb0
    have hq : b.parent_block ≠ L := by
      intro e
      rw [e, hlb] at hpb0
      injection hpb0 with hpb0
      subst hpb0
      omega
    refine ⟨b', pb0', hb', by rw [e1]; exact hTB, by rw [e1]; exact hpb0',
      by rw [f3, e3]; exact hs, by rw [e2]; exact hpos, ?_⟩
    rw [e2, f4 hq]; exact hval
  · -- down_blk
    intro P pb' hTB hpb' hs j hj hvj
    have hPp : P ≠ L := by
      rintro rfl
      rw [hblk] at hpb'
      simp only [if_true] at hpb'
      injection hpb' with hpb'
      subst hpb'
      simp only [without_child] at hs
      omega
    rw [hblk] at hpb'
    simp only [hPp, if_false] at hpb'
    obtain ⟨hm, b, hb, e1, e2⟩ := hinv.down_blk P pb' hTB hpb' hs j hj hvj
    obtain ⟨b', hb', g1, g2, _, _⟩ := hold _ b hb
    exact ⟨hm, b', hb', by rw [g1]; exact e1, by rw [g2]; exact e2⟩
  · -- down_nod
    intro P pb' hTB hpb' hs j hj hvj
    by_cases hPp : P = L
    · subst hPp
      rw [hblk] at hpb'
      simp only [if_true] at hpb'
      injection hpb' with hpb'
      subst hpb'
      have hji : j ≠ i := by
        intro e
        subst e
        simp [without_child, store] at hvj
      have hvj' : (without_child i lb).values j = lb.values j := by
        simp [without_child, store, hji]
      rw [hvj'] at hvj ⊢
      exact hother P lb hLT hlb hsh j hj hvj (fun _ => hji)
    · rw [hblk] at hpb'
      simp only [hPp, if_false] at hpb'
      exact hother P pb' hTB hpb' hs j hj hvj (fun e => absurd e hPp)
  · -- used
    intro P pb' hTB hpb'
    by_cases hPp : P = L
    · subst hPp
      rw [hblk] at hpb'
      simp only [if_true] at hpb'
      injection hpb' with hpb'
      subst hpb'
      have hu := hinv.used _ lb hLT hlb
      have hpos' : 0 < occupied c lb := by omega
      show uchar_sub lb.used 1 = _
      rw [hu, uchar_sub_one_mod hpos']
      congr 1
      omega
    · rw [hblk] at hpb'
      simp only [hPp, if_false] at hpb'
      exact hinv.used P pb' hTB hpb'
  · -- nonempty
    intro p b hp hph hb
    rw [hblk] at hb
    simp only [hph, if_false] at hb
    by_cases hpo : p = hole
    · subst hpo; exact hholeL b hp hb
    · exact hinv.nonempty p b hp hpo hb
  · -- shift_ok
    intro P pb' hTB hpb'
    obtain ⟨b0, hb0⟩ := hinv.tree_live hTB
    obtain ⟨b', hb', _, _, g3, _⟩ := hold P b0 hb0
    rw [hb'] at hpb'
    injection hpb' with hpb'
    subst hpb'
    rw [g3]
    exact hinv.shift_ok P b0 hTB hb0
  · -- Ln_nodup
    rcases hcache with ⟨e, _, _⟩ | ⟨e, _, _⟩
    · rw [e]; exact hinv.Ln_nodup
    · rw [e]; exact List.nodup_cons.2 ⟨hvL, hinv.Ln_nodup⟩
  · -- chain_b
    rw [hbc]
    apply Chain.congr hinv.chain_b
    intro p hp
    by_cases hpR : p = ROOT
    · simp [hpR]
    · have hpp : p ≠ L := by
        rintro rfl
        rcases hLT with h1 | h1
        · exact hpR h1
        · exact hinv.T_Lb _ h1 hp
      simp only [hpR, if_false]
      rw [hblk]
      simp [hpp]
  · -- chain_n
    have hframe : ∀ p, p ∈ Ln →
        (s2.nods p).map (fun n => n.block) = (s0.nods p).map (fun n => n.block) := by
      intro p hp
      have hpv : p ≠ lb.values i := fun e => hvL (e ▸ hp)
      rw [hnods p hpv]
    rcases hcache with ⟨e, _, e3⟩ | ⟨e, e2, n', e3, e4⟩
    · rw [e, e3]
      exact Chain.congr hinv.chain_n hframe
    · rw [e, e2]
      refine ⟨rfl, hv0, s0.array.nod_cache, ?_, Chain.congr hinv.chain_n hframe⟩
      simp [e3, e4]

theorem release_block_spec (c : Config) {st st1 : State} {blk : Ptr} {b : xarray_block}
    (hR : blk ≠ ROOT) (h0 : blk ≠ 0) (hb : st.blk blk = some b)
    (h : release_block c st blk = .ok st1) :
    ∃ rb : Option xarray_block,
      (∀ q, st1.blk q = if q = blk then rb else st.blk q) ∧ st1.nods = st.nods ∧
      st1.array.blocks = st.array.blocks ∧ st1.blks ROOT = st.blks ROOT ∧
      st1.array.nod_cache = st.array.nod_cache ∧ st1.array.values = st.array.values ∧
      st1.array.root = st.array.root ∧
      ((c.XARRAY_ENABLE_CACHE = false ∧ rb = none ∧ st1.array.blk_cache = st.array.blk_cache) ∨
       (c.XARRAY_ENABLE_CACHE = true ∧ st1.array.blk_cache = blk ∧
          ∃ rbk, rb = some rbk ∧ rbk.parent_block = st.array.blk_cache)) := by
  unfold release_block at h
  by_cases hc : c.XARRAY_ENABLE_CACHE = true
  · simp only [hc, if_true] at h
    rw [modify_block_of_blk _ hb] at h
    simp only at h
    injection h with h
    subst h
    refine ⟨some { b with parent_block := st.array.blk_cache }, ?_, by simp, by simp, ?_, by simp,
      by simp, ?_, Or.inr ⟨hc, rfl, _, rfl, rfl⟩⟩
    · intro q
      show (st.set_block blk _).blk q = _
      rw [blk_set_block]
    · show (st.set_block blk _).blks ROOT = _
      rw [set_block_blks_root]
    · show (st.set_block blk _).array.root = _
      rw [set_block_root]
      simp [hR]
  · simp only [hc] at h
    have hbs : (st.blks blk).isSome := by
      rw [blks_eq_blk st hR, hb]; rfl
    unfold free at h
    simp only [h0, if_false, hbs, if_true] at h
    injection h with h
    subst h
    refine ⟨none, ?_, rfl, rfl, ?_, rfl, rfl, rfl, Or.inl ⟨by simpa using hc, rfl, rfl⟩⟩
    · intro q
      unfold State.blk
      by_cases hq : q = ROOT
      · subst hq
        have : ROOT ≠ blk := fun e => hR e.symm
        simp [this]
      · by_cases hqb : q = blk
        · simp [hq, hqb]
          intro e; exact absurd e hR
        · simp [hq, hqb]
    · show (if ROOT = blk then none else st.blks ROOT) = _
      have : ROOT ≠ blk := fun e => hR e.symm
      simp [this]

theorem release_node_spec (c : Config) {st st1 : State} {v : Ptr} {n : xarray_node}
    (h0 : v ≠ 0) (hn : st.nods v = some n) (hb : st.blks v = none)
    (h : release_node c st v = .ok st1) :
    (∀ q, st1.blk q = st.blk q) ∧ (∀ q, q ≠ v → st1.nods q = st.nods q) ∧
      st1.array.blocks = st.array.blocks ∧ st1.blks ROOT = st.blks ROOT ∧
      st1.array.blk_cache = st.array.blk_cache ∧ st1.array.values = st.array.values ∧
      ((c.XARRAY_ENABLE_CACHE = false ∧ st1.nods v = none ∧
          st1.array.nod_cache = st.array.nod_cache) ∨
       (c.XARRAY_ENABLE_CACHE = true ∧ st1.array.nod_cache = v ∧
          ∃ n', st1.nods v = some n' ∧ n'.block = st.array.nod_cache)) := by
  unfold release_node at h
  by_cases hc : c.XARRAY_ENABLE_CACHE = true
  · simp only [hc, if_true] at h
    rw [modify_node_of _ hn] at h
    simp only at h
    injection h with h
    subst h
    refine ⟨fun q => rfl, ?_, rfl, rfl, rfl, rfl,
      Or.inr ⟨hc, rfl, { n with block := st.array.nod_cache }, ?_, rfl⟩⟩
    · intro q hq
      show (st.set_node v _).nods q = _
      rw [set_node_nods]; simp [hq]
    · show (st.set_node v _).nods v = _
      rw [set_node_nods]; simp
  · simp only [hc] at h
    unfold free at h
    simp only [h0, if_false, hb, hn] at h
    simp at h
    subst h
    refine ⟨fun q => rfl, ?_, rfl, rfl, rfl, rfl, Or.inl ⟨by simpa using hc, by simp, rfl⟩⟩
    intro q hq
    simp [hq]

theorem clear_pending_root_values (st : State) (block : Ptr) (i : Nat) (hb : block ≠ ROOT) :
    (clear_pending st block i).array.root = st.array.root := by
  unfold clear_pending
  cases st.blk block with
  | none => rfl
  | some b => rw [set_block_root]; simp [hb]

theorem with_blocks_facts (s : State) (n : Nat) :
    (∀ q, ({ s with array := { s.array with blocks := n } } : State).blk q = s.blk q) ∧
    ({ s with array := { s.array with blocks := n } } : State).nods = s.nods ∧
    ({ s with array := { s.array with blocks := n } } : State).blks = s.blks ∧
    ({ s with array := { s.array with blocks := n } } : State).array.blocks = n ∧
    ({ s with array := { s.array with blocks := n } } : State).array.nod_cache =
      s.array.nod_cache ∧
    ({ s with array := { s.array with blocks := n } } : State).array.blk_cache =
      s.array.blk_cache :=
  ⟨fun _ => rfl, rfl, rfl, rfl, rfl, rfl⟩

theorem release_chain_inv (c : Config) (hc : c.allowed) {Ln : List Ptr} :
    ∀ (fuel : Nat) (st : State) (block : Ptr) (i : Nat) (T Lb : List Ptr) (b : xarray_block)
      (st' : State),
      Inv c (clear_pending st block i) T Lb Ln block → TreeBlock T block →
      i < XARRAY_BLOCK_SIZE c → st.blk block = some b → b.values i ≠ 0 →
      release_chain c fuel st block i = .ok st' →
      (st'.array.root.used ≠ 0 ∨ st.array.root.values 0 ≠ 0) →
      ∃ T' Lb', Inv c st' T' Lb' Ln ROOT := by
  obtain ⟨hbs, hbs2, hbs256, _⟩ := block_size_facts c hc
  have hbits : 0 < c.XARRAY_BITS := hc.1
  intro fuel
  induction fuel with
  | zero =>
    intro st block i T Lb b st' _ _ _ _ _ h _
    simp [release_chain] at h
  | succ fuel ih =>
    intro st block i T Lb b st' hinv hTB hi hb hvi h hcond
    rw [release_chain] at h
    rw [block_ok_of_blk hb] at h
    simp only at h
    have hcb : (clear_pending st block i).blk block =
        some { b with values := store b.values i 0 } := by
      rw [clear_pending_blk i hb]; simp
    have hoccb : occupied c ({ b with values := store b.values i 0 } : xarray_block) + 1 =
        occupied c b := by
      have := occupied_without c b i hi hvi
      rw [← this]
      congr 1
    have hoccle := occupied_le c b
    have hused := hinv.used block _ hTB hcb
    simp only at hused
    by_cases hu : b.used = 0
    · -- the block has become empty
      have hempty : occupied c ({ b with values := store b.values i 0 } : xarray_block) = 0 := by
        omega
      simp only [hu, ne_eq, not_true_eq_false, if_false] at h
      by_cases hpar : b.parent_block = 0
      · -- the root: `i = block->parent_pos; break;`
        simp only [hpar, if_true] at h
        have hroot : block = ROOT := by
          rcases hTB with h1 | h1
          · exact h1
          · obtain ⟨b1, pb1, hb1, hTBP, hpb1, _⟩ := hinv.up block h1
            rw [hcb] at hb1
            injection hb1 with hb1
            subst hb1
            simp only [hpar] at hpb1
            rw [hinv.blks_null] at hpb1
            cases hpb1
        subst hroot
        rw [blk_root] at hb
        injection hb with hb
        have hpos : b.parent_pos = 0 := by
          have := hinv.root_pos
          have h2 := hcb
          rw [blk_root] at h2
          injection h2 with h2
          rw [h2] at this
          exact this
        rw [modify_block_of_blk _ (blk_root st)] at h
        injection h with h
        have hused' : st'.array.root.used = 0 := by
          rw [← h, set_block_root]
          simp only [if_true]
          rw [hb]; exact hu
        have hv0 : b.values 0 ≠ 0 := by
          rcases hcond with h1 | h1
          · exact absurd hused' h1
          · rw [hb] at h1; exact h1
        have hi0 : i = 0 := by
          by_contra hne
          have hz : ({ b with values := store b.values i 0 } : xarray_block).values 0 ≠ 0 := by
            simp only [store]
            have : (0 : Nat) ≠ i := fun e => hne e.symm
            simp [this, hv0]
          have := (occupied_pos_iff c _).2 ⟨0, by omega, hz⟩
          omega
        have hst' : st' = clear_pending st ROOT i := by
          rw [← h]
          unfold clear_pending
          rw [blk_root]
          simp only
          rw [hb, hpos, hi0]
        rw [hst']
        exact ⟨T, Lb, hinv⟩
      · -- release the block and go to the parent
        simp only [hpar, if_false] at h
        have hbR : block ≠ ROOT := by
          rintro rfl
          have := hinv.root_parent
          have h2 := hcb
          rw [blk_root] at h2
          injection h2 with h2
          rw [h2] at this
          exact hpar this
        have hbT : block ∈ T := by
          rcases hTB with h1 | h1
          · exact absurd h1 hbR
          · exact h1
        obtain ⟨b1, pbP, hb1, hTBP, hpbP, hshift, hpos, hval⟩ := hinv.up block hbT
        rw [hcb] at hb1
        injection hb1 with hb1
        subst hb1
        simp only at hTBP hpbP hshift hpos hval
        have hPb : b.parent_block ≠ block := by
          intro e
          rw [e, hcb] at hpbP
          injection hpbP with hpbP
          subst hpbP
          simp only at hshift
          omega
        have hpbP' : st.blk b.parent_block = some pbP := by
          rw [clear_pending_blk i hb] at hpbP
          simpa [hPb] using hpbP
        rw [block_ok_of_blk hpbP'] at h
        simp only at h
        rw [hval] at h
        cases hrel : release_block c st block with
        | error e => simp [hrel] at h
        | ok st1 =>
          simp only [hrel] at h
          have hb0 : block ≠ 0 := hinv.tree_ne_null hTB
          obtain ⟨rb, r1, r2, r3, r4, r5, _, r7, r8⟩ := release_block_spec c hbR hb0 hb hrel
          obtain ⟨w1, w2, w3, w4, w5, w6⟩ := with_blocks_facts st1 (size_dec st1.array.blocks)
          have hP1 : st1.blk b.parent_block = some pbP := by
            rw [r1]; simp [hPb, hpbP']
          rw [modify_block_of_blk _ ((w1 _).trans hP1)] at h
          simp only at h
          generalize hst2 : State.set_block _ b.parent_block _ = st2 at h
          have hblk2 : ∀ q, st2.blk q =
              if q = b.parent_block then some { pbP with used := uchar_sub pbP.used 1 }
              else if q = block then rb else st.blk q := by
            intro q
            rw [← hst2, blk_set_block]
            by_cases hq : q = b.parent_block
            · simp [hq]
            · simp only [hq, if_false]
              rw [w1, r1]
          have hP2 : st2.blk b.parent_block = some { pbP with used := uchar_sub pbP.used 1 } := by
            rw [hblk2]; simp
          have hroot2 : st2.array.root.values = st.array.root.values := by
            have h1 := hblk2 ROOT
            rw [blk_root] at h1
            by_cases hq : ROOT = b.parent_block
            · rw [if_pos hq] at h1
              have h2 := Option.some.inj h1
              rw [← hq, blk_root] at hpbP'
              have h3 := Option.some.inj hpbP'
              rw [h2, ← h3]
            · have hRb : ROOT ≠ block := fun e => hbR e.symm
              rw [if_neg hq, if_neg hRb, blk_root] at h1
              have h2 := Option.some.inj h1
              rw [h2]
          obtain ⟨f1, f2, f3, f4, f5⟩ := clear_pending_fields st block i
          obtain ⟨k1, k2, k3, k4, k5⟩ :=
            clear_pending_fields st2 b.parent_block b.parent_pos
          have hfields2 : st2.nods = st.nods ∧ st2.array.blocks = size_dec st.array.blocks ∧
              st2.blks ROOT = st.blks ROOT ∧ st2.array.nod_cache = st.array.nod_cache ∧
              st2.array.blk_cache = st1.array.blk_cache := by
            rw [← hst2]
            refine ⟨?_, ?_, ?_, ?_, ?_⟩
            · rw [set_block_nods, w2, r2]
            · rw [set_block_blocks, w4, r3]
            · rw [set_block_blks_root, w3, r4]
            · rw [set_block_nod_cache, w5, r5]
            · rw [set_block_blk_cache, w6]
          obtain ⟨hinv2, hTB2⟩ := release_step_inv c hc
            (clear_pending st2 b.parent_block b.parent_pos)
            (if c.XARRAY_ENABLE_CACHE = true then block :: Lb else Lb) rb
            hinv hbT hcb hempty hpbP
            (by
              intro q
              rw [clear_pending_blk _ hP2, clear_pending_blk i hb]
              by_cases hq : q = b.parent_block
              · simp [hq, without_child]
              · simp only [hq, if_false]
                rw [hblk2]
                simp only [hq, if_false]
                by_cases hqb : q = block
                · simp [hqb]
                · simp [hqb])
            (by rw [k1, hfields2.1, f1])
            (by rw [k2, hfields2.2.1, f2])
            (by rw [k5, hfields2.2.2.1, f5])
            (by rw [k4, hfields2.2.2.2.1, f4])
            (by
              rcases r8 with ⟨e1, e2, e3⟩ | ⟨e1, e2, e3⟩
              · left
                refine ⟨by simp [e1], e2, ?_⟩
                rw [k3, hfields2.2.2.2.2, e3, f3]
              · right
                refine ⟨by simp [e1], ?_, ?_⟩
                · rw [k3, hfields2.2.2.2.2, e2]
                · obtain ⟨rbk, g1, g2⟩ := e3
                  exact ⟨rbk, g1, by rw [g2, f3]⟩)
          exact ih st2 b.parent_block b.parent_pos _ _ _ st' hinv2 hTB2 hpos hP2
            (by simp only [hval]; exact hb0) h
            (by rw [hroot2]; exact hcond)
    · -- the block still has values: `block->values[i] = NULL`
      simp only [hu, ne_eq, not_false_eq_true, if_true] at h
      rw [modify_store_eq i hb] at h
      injection h with h
      subst h
      refine ⟨T, Lb, hinv.weaken ROOT ?_⟩
      intro b' _ hb'
      rw [hcb] at hb'
      injection hb' with hb'
      subst hb'
      omega

theorem with_values_facts (s : State) (n : Nat) :
    (∀ q, ({ s with array := { s.array with values := n } } : State).blk q = s.blk q) ∧
    ({ s with array := { s.array with values := n } } : State).nods = s.nods ∧
    ({ s with array := { s.array with values := n } } : State).blks = s.blks ∧
    ({ s with array := { s.array with values := n } } : State).array.blocks = s.array.blocks ∧
    ({ s with array := { s.array with values := n } } : State).array.nod_cache =
      s.array.nod_cache ∧
    ({ s with array := { s.array with values := n } } : State).array.blk_cache =
      s.array.blk_cache :=
  ⟨fun _ => rfl, rfl, rfl, rfl, rfl, rfl⟩

theorem xarray_unset_inv (c : Config) (hc : c.allowed) {st st' : State} {T Lb Ln : List Ptr}
    {fuel index : Nat} (hinv : Inv c st T Lb Ln ROOT)
    (h : xarray_unset c fuel st index = .ok st')
    (hcond : st'.array.root.used ≠ 0 ∨ st.array.root.values 0 ≠ 0 ∨ st' = st) :
    ∃ T' Lb' Ln', Inv c st' T' Lb' Ln' ROOT := by
  by_cases hsame : st' = st
  · rw [hsame]; exact ⟨T, Lb, Ln, hinv⟩
  have hcond' : st'.array.root.used ≠ 0 ∨ st.array.root.values 0 ≠ 0 := by
    rcases hcond with h1 | h1 | h1
    · exact Or.inl h1
    · exact Or.inr h1
    · exact absurd h1 hsame
  unfold xarray_unset at h
  cases hf : find_leaf_block c fuel st ROOT (xuint c index) with
  | error e => simp [hf] at h
  | ok r =>
    cases r with
    | none =>
      simp only [hf] at h
      injection h with h
      exact absurd h.symm hsame
    | some L =>
      simp only [hf] at h
      have hroot : 0 < st.array.root.shift := by
        rw [hinv.root_shift]; exact (max_shift_facts c hc).2.1
      obtain ⟨hLT, lb, hlb, hls⟩ :=
        find_leaf_block_inv c hc (xuint c index) hinv fuel ROOT _ L (Or.inl rfl) (blk_root st)
          hroot hf
      rw [block_ok_of_blk hlb] at h
      simp only at h
      have hi := mask_lt c hc (xuint c index)
      by_cases hv : lb.values (xuint c index &&& XARRAY_MASK c) = 0
      · simp only [hv, if_true] at h
        injection h with h
        exact absurd h.symm hsame
      · simp only [hv, if_false, bind, Except.bind] at h
        obtain ⟨hvL, nv, hnv, _, _⟩ := hinv.down_nod L lb (Or.inr hLT) hlb hls _ hi hv
        have hLR : L ≠ ROOT := (hinv.T_live L hLT).1
        have hvb : st.blks (lb.values (xuint c index &&& XARRAY_MASK c)) = none := by
          cases hx : st.blks (lb.values (xuint c index &&& XARRAY_MASK c)) with
          | none => rfl
          | some bx =>
            have hvR : lb.values (xuint c index &&& XARRAY_MASK c) ≠ ROOT := by
              intro e
              rw [e, hinv.blks_root] at hx
              cases hx
            have := hinv.sep _ hvR (by rw [← blks_eq_blk st hvR, hx]; rfl)
            rw [hnv] at this
            cases this
        -- after the destructor call
        have key : ∀ st1 st2 st4x : State, (∀ q, st1.blk q = st.blk q) → st1.array = st.array →
            st1.blks = st.blks → st1.nods = st.nods →
            release_node c st1 (lb.values (xuint c index &&& XARRAY_MASK c)) = .ok st2 →
            ({ st2 with array := { st2.array with values := size_dec st2.array.values } }
                    : State).modify_block L (fun b => { b with used := uchar_sub b.used 1 }) =
              .ok st4x →
            release_chain c fuel st4x L (xuint c index &&& XARRAY_MASK c) = .ok st' →
            ∃ T' Lb' Ln', Inv c st' T' Lb' Ln' ROOT := by
          intro st1 st2 st4x k1 k2 k3 k4 hrel hmod h
          · 
            obtain ⟨r1, r2, r3, r4, r5, _, r7⟩ :=
              release_node_spec c hv (by rw [k4]; exact hnv) (by rw [k3]; exact hvb) hrel
            obtain ⟨w1, w2, w3, w4, w5, w6⟩ := with_values_facts st2 (size_dec st2.array.values)
            have hL2 : st2.blk L = some lb := by rw [r1, k1]; exact hlb
            rw [modify_block_of_blk _ ((w1 _).trans hL2)] at hmod
            have hst4 := Except.ok.inj hmod
            generalize st4x = st4 at hst4 h
            have hblk4 : ∀ q, st4.blk q =
                if q = L then some { lb with used := uchar_sub lb.used 1 } else st.blk q := by
              intro q
              rw [← hst4, blk_set_block]
              by_cases hq : q = L
              · simp [hq]
              · simp only [hq, if_false]
                rw [w1, r1, k1]
            have hL4 : st4.blk L = some { lb with used := uchar_sub lb.used 1 } := by
              rw [hblk4]; simp
            have hroot4 : st4.array.root = st.array.root := by
              have h1 := hblk4 ROOT
              have hRL : ROOT ≠ L := fun e => hLR e.symm
              rw [blk_root, if_neg hRL, blk_root] at h1
              exact Option.some.inj h1
            obtain ⟨f1, f2, f3, f4, f5⟩ :=
              clear_pending_fields st4 L (xuint c index &&& XARRAY_MASK c)
            have hfields4 : st4.nods = st2.nods ∧ st4.array.blocks = st2.array.blocks ∧
                st4.blks ROOT = st2.blks ROOT ∧ st4.array.nod_cache = st2.array.nod_cache ∧
                st4.array.blk_cache = st2.array.blk_cache := by
              rw [← hst4]
              refine ⟨?_, ?_, ?_, ?_, ?_⟩
              · rw [set_block_nods, w2]
              · rw [set_block_blocks, w4]
              · rw [set_block_blks_root, w3]
              · rw [set_block_nod_cache, w5]
              · rw [set_block_blk_cache, w6]
            have hinv4 := remove_node_inv c hc
              (clear_pending st4 L (xuint c index &&& XARRAY_MASK c))
              (if c.XARRAY_ENABLE_CACHE = true
                then lb.values (xuint c index &&& XARRAY_MASK c) :: Ln else Ln)
              hinv (Or.inr hLT) hlb hls hi hv
              (by intro b hR; exact absurd hR (fun hm => (hinv.T_live ROOT hm).1 rfl))
              (by
                intro q
                rw [clear_pending_blk _ hL4]
                by_cases hq : q = L
                · simp [hq, without_child]
                · simp only [hq, if_false]
                  rw [hblk4]
                  simp [hq])
              (by
                intro q hq
                rw [f1, hfields4.1, r2 q hq, k4])
              (by rw [f2, hfields4.2.1, r3, k2])
              (by rw [f5, hfields4.2.2.1, r4, k3])
              (by rw [f3, hfields4.2.2.2.2, r5, k2])
              (by
                rcases r7 with ⟨e1, e2, e3⟩ | ⟨e1, e2, e3⟩
                · left
                  refine ⟨by simp [e1], ?_, ?_⟩
                  · rw [f1, hfields4.1]; exact e2
                  · rw [f4, hfields4.2.2.2.1, e3, k2]
                · right
                  refine ⟨by simp [e1], ?_, ?_⟩
                  · rw [f4, hfields4.2.2.2.1, e2]
                  · obtain ⟨n', g1, g2⟩ := e3
                    exact ⟨n', by rw [f1, hfields4.1]; exact g1, by rw [g2, k2]⟩)
            obtain ⟨T', Lb', hinv'⟩ := release_chain_inv c hc fuel st4 L _ T Lb _ st' hinv4
              (Or.inr hLT) hi hL4 hv h (by rw [hroot4]; exact hcond')
            exact ⟨T', Lb', _, hinv'⟩
        by_cases hcb : st.array.destroy_cb = true
        · simp only [hcb, if_true] at h
          cases hd1 : call_destroy st (lb.values (xuint c index &&& XARRAY_MASK c)) with
          | error e => simp [hd1] at h
          | ok st1 =>
            simp only [hd1] at h
            obtain ⟨k1, k2, k3, k4⟩ := call_destroy_spec hd1
            cases hrel : release_node c st1 (lb.values (xuint c index &&& XARRAY_MASK c)) with
            | error e => simp [hrel] at h
            | ok st2 =>
              simp only [hrel] at h
              cases hmod : ({ st2 with array := { st2.array with
                  values := size_dec st2.array.values } } : State).modify_block L
                  (fun b => { b with used := uchar_sub b.used 1 }) with
              | error e => simp [hmod] at h
              | ok st4 =>
                simp only [hmod] at h
                exact key st1 st2 st4 k1 k2 k3 k4 hrel hmod h
        · simp only [hcb, Bool.false_eq_true, if_false, pure, Except.pure] at h
          cases hrel : release_node c st (lb.values (xuint c index &&& XARRAY_MASK c)) with
          | error e => simp [hrel] at h
          | ok st2 =>
            simp only [hrel] at h
            cases hmod : ({ st2 with array := { st2.array with
                values := size_dec st2.array.values } } : State).modify_block L
                (fun b => { b with used := uchar_sub b.used 1 }) with
            | error e => simp [hmod] at h
            | ok st4 =>
              simp only [hmod] at h
              exact key st st2 st4 (fun q => rfl) rfl rfl rfl hrel hmod h

theorem reachable_tree {c : Config} {st : State} {T Lb Ln : List Ptr} {hole : Ptr}
    (hinv : Inv c st T Lb Ln hole) {p : Ptr} (h : Reachable c st p) : TreeBlock T p := by
  induction h with
  | root => exact Or.inl rfl
  | child _ hpb hs hi hv ih => exact Or.inr (hinv.down_blk _ _ ih hpb hs _ hi hv).1

theorem tree_reachable {c : Config} (hc : c.allowed) {st : State} {T Lb Ln : List Ptr}
    {hole : Ptr} (hinv : Inv c st T Lb Ln hole) :
    ∀ (n : Nat) (p : Ptr) (b : xarray_block), p ∈ T → st.blk p = some b →
      XARRAY_MAX_SHIFT c - b.shift ≤ n → Reachable c st p := by
  have hbits : 0 < c.XARRAY_BITS := hc.1
  intro n
  induction n with
  | zero =>
    intro p b hp hb hn
    obtain ⟨b1, pb, hb1, hTB, hpb, hs, _, _⟩ := hinv.up p hp
    rw [hb] at hb1
    injection hb1 with hb1
    subst hb1
    have := (hinv.shift_ok _ pb hTB hpb).1
    omega
  | succ n ih =>
    intro p b hp hb hn
    obtain ⟨b1, pb, hb1, hTB, hpb, hs, hpos, hval⟩ := hinv.up p hp
    rw [hb] at hb1
    injection hb1 with hb1
    subst hb1
    have hle := (hinv.shift_ok _ pb hTB hpb).1
    have hP : Reachable c st b.parent_block := by
      rcases hTB with h1 | h1
      · rw [h1]; exact Reachable.root
      · exact ih _ pb h1 hpb (by omega)
    have := Reachable.child hP hpb (by omega) hpos (by rw [hval]; exact hinv.tree_ne_null (Or.inr hp))
    rw [hval] at this
    exact this

theorem find_leaf_block_root {c : Config} {fuel : Nat} {st : State} {index : Nat} {L : Ptr}
    (h : find_leaf_block c fuel st ROOT index = .ok (some L)) :
    ∃ i, slot_index c index st.array.root.shift = .ok i ∧ st.array.root.values i ≠ 0 := by
  cases fuel with
  | zero => simp [find_leaf_block] at h
  | succ fuel =>
    rw [find_leaf_block] at h
    rw [block_ok_of_blk (blk_root st)] at h
    simp only at h
    cases hsl : slot_index c index st.array.root.shift with
    | error e => simp [hsl] at h
    | ok i =>
      simp only [hsl] at h
      refine ⟨i, rfl, ?_⟩
      intro hv
      simp [hv] at h

theorem reached_inv (c : Config) (hc : c.allowed) {st : State} (h : Reached c st) :
    ∃ T Lb Ln, Inv c st T Lb Ln ROOT := by
  induction h with
  | init val_size cb => exact ⟨[], [], [], inv_init c hc val_size cb⟩
  | set fuel index pvalue alloc hd _ hset hhd ih =>
    obtain ⟨T, Lb, Ln, hinv⟩ := ih
    exact xarray_set_inv c hc hinv hset hhd
  | @unset fuel index st st' _ hun hcond ih =>
    obtain ⟨T, Lb, Ln, hinv⟩ := ih
    apply xarray_unset_inv c hc hinv hun
    rcases hcond with h1 | h1 | h1
    · exact Or.inl h1
    · by_cases hsame : st' = st
      · exact Or.inr (Or.inr hsame)
      · right; left
        -- the walk passed through root slot 0
        have hun' := hun
        unfold xarray_unset at hun'
        cases hf : find_leaf_block c fuel st ROOT (xuint c index) with
        | error e => simp [hf] at hun'
        | ok r =>
          cases r with
          | none =>
            simp only [hf] at hun'
            injection hun' with hun'
            exact absurd hun'.symm hsame
          | some L =>
            obtain ⟨i, hi, hv⟩ := find_leaf_block_root hf
            rw [hinv.root_shift] at hi
            unfold slot_index at hi
            split at hi
            · injection hi with hi
              unfold top_slice at h1
              rw [h1] at hi
              rw [← hi] at hv
              exact hv
            · cases hi
    · exact Or.inr (Or.inr h1)

/-- The scenario of the specification, followed by `Unset(0)`, is among the
states `Reached` describes. -/
theorem reached_scenario :
    Reached default_config (state_after
      [Op.set 5 (some [42, 0, 0, 0]) fresh_chain, Op.set 0 (some [7, 0, 0, 0]) [21],
       Op.unset 0]) := by
  have h1 : Reached default_config (state_after [Op.set 5 (some [42, 0, 0, 0]) fresh_chain]) :=
    Reached.set 1000 5 (some [42, 0, 0, 0]) fresh_chain 20
      (Reached.init 4 true) rfl (by decide)
  have h2 : Reached default_config (state_after
      [Op.set 5 (some [42, 0, 0, 0]) fresh_chain, Op.set 0 (some [7, 0, 0, 0]) [21]]) :=
    Reached.set 1000 0 (some [7, 0, 0, 0]) [21] 21 h1 rfl (by decide)
  exact Reached.unset 1000 0 h2 rfl (Or.inl (by decide))

/-! ## The shifts along a descent -/

theorem max_shift_cover (c : Config) (hc : c.allowed) :
    c.XARRAY_INDEX_BITS ≤ XARRAY_MAX_SHIFT c + c.XARRAY_BITS ∧
      XARRAY_MAX_SHIFT c / c.XARRAY_BITS + 1 =
        (c.XARRAY_INDEX_BITS + c.XARRAY_BITS - 1) / c.XARRAY_BITS := by
  obtain ⟨h1, h8, hw⟩ := hc
  obtain ⟨b, w, e⟩ := c
  simp only at h1 h8 hw
  unfold XARRAY_MAX_SHIFT
  simp only
  have hb : b = 1 ∨ b = 2 ∨ b = 3 ∨ b = 4 ∨ b = 5 ∨ b = 6 ∨ b = 7 ∨ b = 8 := by omega
  rcases hb with rfl | rfl | rfl | rfl | rfl | rfl | rfl | rfl <;>
    rcases hw with rfl | rfl | rfl <;> decide

theorem descend_shift_eq (c : Config) (hc : c.allowed) :
    ∀ k, k * c.XARRAY_BITS ≤ XARRAY_MAX_SHIFT c →
      descend_shift c k = XARRAY_MAX_SHIFT c - k * c.XARRAY_BITS := by
  obtain ⟨hlt, _, _, _⟩ := max_shift_facts c hc
  intro k
  induction k with
  | zero =>
    intro _
    simp only [descend_shift, Nat.zero_mul, Nat.sub_zero]
    exact uchar_of_lt (by omega)
  | succ k ih =>
    intro hk
    have hk2 : (k + 1) * c.XARRAY_BITS = k * c.XARRAY_BITS + c.XARRAY_BITS := by ring
    rw [descend_shift, ih (by omega), uchar_sub_of_le (by omega) (by omega)]
    omega

theorem descends_shift {c : Config} {st : State} {T Lb Ln : List Ptr}
    {hole : Ptr} (hinv : Inv c st T Lb Ln hole) {k : Nat} {p : Ptr} (h : Descends c st k p) :
    TreeBlock T p ∧ ∃ b, st.blk p = some b ∧ b.shift + k * c.XARRAY_BITS = XARRAY_MAX_SHIFT c := by
  induction h with
  | root =>
    refine ⟨Or.inl rfl, st.array.root, blk_root st, ?_⟩
    rw [hinv.root_shift]; omega
  | @child k P pb i _ hpb hs hi hv ih =>
    obtain ⟨hP, pb1, hpb1, hsh⟩ := ih
    rw [hpb] at hpb1
    have hpb1 := Option.some.inj hpb1
    subst hpb1
    obtain ⟨hm, b, hb, hbp, _⟩ := hinv.down_blk P pb hP hpb hs i hi hv
    obtain ⟨b1, pb2, hb1, _, hpb2, hrel, _, _⟩ := hinv.up _ hm
    rw [hb] at hb1
    have hb1 := Option.some.inj hb1
    subst hb1
    rw [hbp, hpb] at hpb2
    have hpb2 := Option.some.inj hpb2
    subst hpb2
    refine ⟨Or.inr hm, b, hb, ?_⟩
    have : (k + 1) * c.XARRAY_BITS = k * c.XARRAY_BITS + c.XARRAY_BITS := by ring
    omega

theorem slot_index_shifted (c : Config) (hc : c.allowed) {s v : Nat}
    (hs : s < c.XARRAY_INDEX_BITS) (hv : v < 2 ^ c.XARRAY_BITS) :
    slot_index c (v <<< s) s = .ok v := by
  obtain ⟨hbs, _, _, hm⟩ := block_size_facts c hc
  have hmask : XARRAY_MASK c = 2 ^ c.XARRAY_BITS - 1 := by omega
  unfold slot_index
  rw [if_pos (lt_of_lt_of_le hs (le_max_right _ _))]
  rw [Nat.shiftLeft_shiftRight, hmask, Nat.and_pow_two_sub_one_eq_mod, Nat.mod_eq_of_lt hv]

/-! ## The defect in `xarray_unset`

`release_chain` embeds lines 177-200.  When the last value is removed, the
loop reaches the root with `used == 0`, overwrites `i` with the root's
`parent_pos` (always `0`) and only then breaks, so the final store clears
`root.values[0]` instead of the slot that held the released chain.  For an
index whose top-level slice is not `0` the root keeps a pointer to the
released block.  The theorems named after the claims `C1`-`C5` and `C7`-`C9`
evaluate the code on states reached through this path. -/

/-- Claim C1 (Set then Get yields the same handle, whose index is `i` and whose
payload is `p`), evaluated where the code departs from it.  With the cache
compiled in, after `Set(2^30, a)`, `Unset(2^30)`, `Set(0, b)` the call
`Set(2^30, [3,0,0,0])` returns the handle `20`, `Get(2^30)` returns the same
handle, and the index stored in that handle is `0`, not `2^30`.  The default
configuration does the same when `malloc` hands the released addresses out
again. -/
theorem C1_set_returns_handle_of_other_index :
    (do
      let s ← set_unset_then_set_zero cache_config (2 ^ 30)
      let (s1, h) ← xarray_set cache_config 1000 s (2 ^ 30) (some [3, 0, 0, 0]) []
      let g ← xarray_get cache_config 1000 s1 (2 ^ 30)
      let n ← s1.node h
      pure (h, g, n.index, n.data)) = Except.ok (20, 20, 0, some [3, 0, 0, 0]) ∧
    (do
      let s ← set_unset_then_set_zero default_config (2 ^ 30)
      let (s1, h) ← xarray_set default_config 1000 s (2 ^ 30) (some [3, 0, 0, 0]) []
      let g ← xarray_get default_config 1000 s1 (2 ^ 30)
      let n ← s1.node h
      pure (h, g, n.index, n.data)) = Except.ok (20, 20, 0, some [3, 0, 0, 0]) := by
  refine ⟨rfl, rfl⟩

/-- Claim C2 (after `Unset(i)`, `Get(i)` is absent, also when `i` is the only
populated index and its top-level slice is not zero), evaluated where the code
departs from it.  After `Set(2^30, a)` and `Unset(2^30)` on a new container,
`Get(2^30)` returns the released node `20` when the cache is compiled in, and
reads the freed block in the default configuration. -/
theorem C2_get_after_unset_not_absent :
    (do
      let s ← set_then_unset cache_config (2 ^ 30)
      xarray_get cache_config 1000 s (2 ^ 30)) = Except.ok 20 ∧
    (do
      let s ← set_then_unset default_config (2 ^ 30)
      xarray_get default_config 1000 s (2 ^ 30)) = Except.error Fault.invalid_pointer := by
  refine ⟨rfl, rfl⟩

set_option maxRecDepth 100000 in
/-- Claim C3 (iteration from Begin through Next is finite, strictly ascending
and visits exactly the present indices), evaluated where the code departs from
it.  With the cache compiled in, after `Set(2^30, a)`, `Unset(2^30)`,
`Set(0, b)`, Begin returns the handle `20` of index `0` and Next of that handle
is the same handle again, so the iteration never ends.  In the default
configuration, after `Set(2^30, a)` and `Unset(2^30)`, Begin reads the freed
block. -/
theorem C3_iteration_repeats_forever :
    (do
      let s ← set_unset_then_set_zero cache_config (2 ^ 30)
      let b ← xarray_begin cache_config 1000 s
      let n ← xarray_iter_next cache_config 1000 s b
      let nb ← s.node b
      pure (b, nb.index, n)) = Except.ok (20, 0, 20) ∧
    (do
      let s ← set_then_unset default_config (2 ^ 30)
      xarray_begin default_config 1000 s) = Except.error Fault.invalid_pointer := by
  refine ⟨rfl, rfl⟩

/-- Claim C4 (Set on a populated index destroys the old payload exactly once;
Set on an index that is not populated invokes the destructor zero times),
evaluated where the code departs from it.  With the cache compiled in, after
`Set(2^30, [1,0,0,0])` and `Unset(2^30)` the destructor has run once, on node
`20`; index `2^30` is no longer populated, yet `Set(2^30, [3,0,0,0])` invokes
the destructor again, on the payload `[1,0,0,0]` that `Unset` had already
destroyed. -/
theorem C4_set_destroys_unset_payload_again :
    (do
      let s ← set_then_unset cache_config (2 ^ 30)
      let (s1, h) ← xarray_set cache_config 1000 s (2 ^ 30) (some [3, 0, 0, 0]) []
      pure (s.destroyed, h, s1.destroyed)) =
      Except.ok ([(20, some [1, 0, 0, 0])], 20,
        [(20, some [1, 0, 0, 0]), (20, some [1, 0, 0, 0])]) := by
  rfl

/-- Claim C5 (the leaf count `values` equals the number of indices for which
Get is present), evaluated where the code departs from it.  With the cache
compiled in, after `Set(2^30, a)`, `Unset(2^30)`, `Set(2^30, b)` the last Set
returned the handle `20` and `Get(2^30)` returns it, while the leaf count is
`0`.  In the default configuration with reused addresses, after
`Set(2^30, a)`, `Unset(2^30)`, `Set(0, b)` Get is present for the two indices
`0` and `2^30` while the leaf count is `1`. -/
theorem C5_leaf_count_misses_present_index :
    (do
      let s ← set_then_unset cache_config (2 ^ 30)
      let (s1, h) ← xarray_set cache_config 1000 s (2 ^ 30) (some [3, 0, 0, 0]) []
      let g ← xarray_get cache_config 1000 s1 (2 ^ 30)
      pure (h, g, s1.array.values)) = Except.ok (20, 20, 0) ∧
    (do
      let s ← set_unset_then_set_zero default_config (2 ^ 30)
      let g0 ← xarray_get default_config 1000 s 0
      let g1 ← xarray_get default_config 1000 s (2 ^ 30)
      pure (g0, g1, s.array.values)) = Except.ok (20, 20, 1) := by
  refine ⟨rfl, rfl⟩

/-- Claim C6: Unset of an absent index is a no-op.  In every container state
(reachable or not) and for every index for which Get returns `NULL`, Unset
returns with the very same state: the destructor trace, the leaf and block
counts, every block and node, and the free lists are unchanged. -/
theorem C6_unset_absent_is_noop (c : Config) (fuel : Nat) (st : State) (index : Nat)
    (h : xarray_get c fuel st index = .ok 0) :
    xarray_unset c fuel st index = .ok st := by
  unfold xarray_get at h
  unfold xarray_unset
  cases hf : find_leaf_block c fuel st ROOT (xuint c index) with
  | error e => simp [hf] at h
  | ok r =>
    cases r with
    | none => rfl
    | some block =>
      simp only [hf] at h ⊢
      cases hb : st.block block with
      | error e => simp [hb] at h
      | ok b =>
        simp only [hb] at h ⊢
        have h0 : b.values (xuint c index &&& XARRAY_MASK c) = 0 := by
          injection h
        simp [h0]

/-- Claim C6 at work: in the container holding the indices `0` and `5`, index
`3` is absent (its slot in the shared leaf block is empty) and `Unset(3)`
returns the same state. -/
theorem C6_unset_absent_is_noop_witness :
    xarray_get default_config 100 two_entries 3 = .ok 0 ∧
    xarray_unset default_config 100 two_entries 3 = .ok two_entries :=
  ⟨rfl, C6_unset_absent_is_noop default_config 100 two_entries 3 rfl⟩

/-- Claim C7 (Clear destroys each populated payload once and leaves leaf count
and block count at zero), evaluated where the code departs from it.  With the
cache compiled in, after `Set(2^30, a)` and `Unset(2^30)` nothing is populated
and the leaf count is `0`; Clear follows the root slot that Unset left behind,
invokes the destructor once more on node `20` and decrements the leaf count to
`2^64 - 1`.  In the default configuration Clear reads the freed block. -/
theorem C7_clear_leaves_leaf_count_nonzero :
    (do
      let s ← set_then_unset cache_config (2 ^ 30)
      let s1 ← xarray_clear cache_config 1000 s
      pure (s.array.values, s1.array.values, s1.destroyed)) =
      Except.ok (0, 2 ^ 64 - 1, [(20, some [1, 0, 0, 0]), (20, some [1, 0, 0, 0])]) ∧
    (do
      let s ← set_then_unset default_config (2 ^ 30)
      let s1 ← xarray_clear default_config 1000 s
      pure s1.array.values) = Except.error Fault.invalid_pointer := by
  refine ⟨rfl, rfl⟩

/-- Claim C8 (Set at the maximum index creates the full chain and the following
Unset restores the pre-insert state), evaluated where the code departs from
it.  In the default configuration on a new container, `Set(2^32 - 1, p)`
returns a handle and raises the block count from `0` to `5`; `Unset(2^32 - 1)`
brings the block count and the root's `used` back to `0`, but root slot `3`,
empty before, still holds the address `10` of the freed block. -/
theorem C8_max_index_unset_leaves_root_slot :
    (do
      let s0 := xarray_init default_config 4 true
      let (s1, h) ← xarray_set default_config 1000 s0 (2 ^ 32 - 1) (some [1, 0, 0, 0]) fresh_chain
      let s2 ← xarray_unset default_config 1000 s1 (2 ^ 32 - 1)
      pure (h, s0.array.blocks, s1.array.blocks, s2.array.blocks, s0.array.root.used,
        s2.array.root.used, s0.array.root.values 3, s2.array.root.values 3)) =
      Except.ok (20, 0, 5, 0, 0, 0, 0, 10) := by
  rfl

/-- Claim C9 (every block's `used` equals the number of its non-empty slots),
evaluated where the code departs from it.  In the default configuration, after
`Set(2^30, a)` and `Unset(2^30)` the root has `used = 0` and one non-empty
slot, slot `1`. -/
theorem C9_root_used_zero_with_occupied_slot :
    (do
      let s ← set_then_unset default_config (2 ^ 30)
      pure (s.array.root.used, occupied default_config s.array.root, s.array.root.values 1)) =
      Except.ok (0, 1, 10) := by
  rfl

/-- Claim C10 as stated (after any sequence of Set and Unset operations no
block other than the root is empty), refuted by a Set that fails.  On a new
default container, `Set(0, p)` whose third `malloc` fails returns `NULL` and
leaves block `10` in root slot `0` and block `11` in slot `0` of block `10`;
block `11` has `used = 0` and no occupied slot, and the block count is `2`. -/
theorem C10_failed_set_leaves_empty_block :
    (do
      let (s, h) ← xarray_set default_config 1000 (xarray_init default_config 4 true) 0
        (some [7, 0, 0, 0]) [10, 11]
      let b10 ← s.block (s.array.root.values 0)
      let b11 ← s.block (b10.values 0)
      pure (h, s.array.root.values 0, b10.values 0, b11.used, occupied default_config b11,
        s.array.blocks)) = Except.ok (0, 10, 11, 0, 0, 2) := by
  rfl

/-- Claim C10, amended.  In every allowed configuration, after any sequence of
`Set` calls that returned a handle and `Unset` calls on a new container
(`Reached`, which leaves out the `Unset` calls that bring the root's `used`
count to zero for an index whose top-level slice is not zero), every block
reachable from the root other than the root has at least one occupied slot,
its `used` field is the number of its occupied slots modulo 256 (hence
`used > 0` whenever `XARRAY_BITS < 8`), and the block count `blocks` is the
number of blocks other than the root that are reachable from the root. -/
theorem C10_no_empty_block_after_successful_ops (c : Config) (hc : c.allowed) (st : State)
    (h : Reached c st) :
    (∀ p, Reachable c st p → p ≠ ROOT →
        ∃ b, st.blk p = some b ∧ 1 ≤ occupied c b ∧ b.used = occupied c b % 256 ∧
          (c.XARRAY_BITS < 8 → 0 < b.used)) ∧
      ∃ T : List Ptr, T.Nodup ∧ (∀ p, p ∈ T ↔ (Reachable c st p ∧ p ≠ ROOT)) ∧
        st.array.blocks = T.length := by
  obtain ⟨T, Lb, Ln, hinv⟩ := reached_inv c hc h
  have hTR : ∀ p, p ∈ T → p ≠ ROOT := fun p hp => (hinv.T_live p hp).1
  constructor
  · intro p hp hpR
    have hT : p ∈ T := by
      rcases reachable_tree hinv hp with h1 | h1
      · exact absurd h1 hpR
      · exact h1
    obtain ⟨b, hb⟩ := Option.isSome_iff_exists.1 (hinv.T_live p hT).2
    have hne := hinv.nonempty p b hT hpR hb
    have hu := hinv.used p b (Or.inr hT) hb
    refine ⟨b, hb, hne, hu, ?_⟩
    intro h8
    have hle := occupied_le c b
    have hbs : XARRAY_BLOCK_SIZE c ≤ 128 := by
      obtain ⟨h1, _, _⟩ := hc
      obtain ⟨bits, w, e⟩ := c
      simp only at h1 h8
      unfold XARRAY_BLOCK_SIZE
      simp only
      have hb : bits = 1 ∨ bits = 2 ∨ bits = 3 ∨ bits = 4 ∨ bits = 5 ∨ bits = 6 ∨ bits = 7 := by
        omega
      rcases hb with rfl | rfl | rfl | rfl | rfl | rfl | rfl <;> decide
    omega
  · refine ⟨T, hinv.T_nodup, ?_, hinv.count⟩
    intro p
    constructor
    · intro hp
      obtain ⟨b, hb⟩ := Option.isSome_iff_exists.1 (hinv.T_live p hp).2
      exact ⟨tree_reachable hc hinv _ p b hp hb (le_refl _), hTR p hp⟩
    · rintro ⟨hp, hpR⟩
      rcases reachable_tree hinv hp with h1 | h1
      · exact absurd h1 hpR
      · exact h1

/-- Claim C10, amended, at work: the state after `Set(5, 42)`, `Set(0, 7)`,
`Unset(0)` on a new default container is reached by such a sequence, and the
conclusion holds there. -/
theorem C10_no_empty_block_after_successful_ops_witness :
    default_config.allowed ∧
    Reached default_config (state_after
      [Op.set 5 (some [42, 0, 0, 0]) fresh_chain, Op.set 0 (some [7, 0, 0, 0]) [21],
       Op.unset 0]) ∧
    ((∀ p, Reachable default_config (state_after
          [Op.set 5 (some [42, 0, 0, 0]) fresh_chain, Op.set 0 (some [7, 0, 0, 0]) [21],
           Op.unset 0]) p → p ≠ ROOT →
        ∃ b, (state_after
          [Op.set 5 (some [42, 0, 0, 0]) fresh_chain, Op.set 0 (some [7, 0, 0, 0]) [21],
           Op.unset 0]).blk p = some b ∧ 1 ≤ occupied default_config b ∧
          b.used = occupied default_config b % 256 ∧
          (default_config.XARRAY_BITS < 8 → 0 < b.used)) ∧
      ∃ T : List Ptr, T.Nodup ∧ (∀ p, p ∈ T ↔ (Reachable default_config (state_after
          [Op.set 5 (some [42, 0, 0, 0]) fresh_chain, Op.set 0 (some [7, 0, 0, 0]) [21],
           Op.unset 0]) p ∧ p ≠ ROOT)) ∧
        (state_after
          [Op.set 5 (some [42, 0, 0, 0]) fresh_chain, Op.set 0 (some [7, 0, 0, 0]) [21],
           Op.unset 0]).array.blocks = T.length) :=
  ⟨by decide, reached_scenario,
    C10_no_empty_block_after_successful_ops default_config (by decide) _ reached_scenario⟩

/-- The defect of `xarray_unset` seen from the block count: with the cache
compiled in, after `Set(2^30, a)` and `Unset(2^30)` root slot `1` leads to
block `10`, which has `used = 0` and one occupied slot, while the block count
is `0`. -/
theorem unset_leaves_released_block_reachable :
    (do
      let s ← set_then_unset cache_config (2 ^ 30)
      let b ← s.block (s.array.root.values 1)
      pure (s.array.root.values 1, b.used, occupied cache_config b, s.array.blocks)) =
      Except.ok (10, 0, 1, 0) := by
  rfl

/-! ## Claims C11 to C20

The theorems named after the claims `C11`, `C14`-`C19` evaluate the code on
states reached through the defect of `xarray_unset` described above; `C12`
also evaluates `xarray_begin` after a `Set` that failed, and `C20` the `used`
field of a full block. -/

/-- Claim C11 (a Set that fails by allocation failure leaves every Get result
as it was), evaluated where the code departs from it.  With the cache compiled
in, after `Set(2^30, a)` and `Unset(2^30)` the call `Set(2^30 + 1, [2,0,0,0])`
returns the handle `20` and `Get(2^30 + 1)` returns it, with that index and
payload.  `Set(2^31, c)` then takes the five blocks of the free list, which
the root still reaches through slot `1`, clears them, and returns `NULL` when
`malloc` fails for the node; afterwards `Get(2^30 + 1)` is `NULL`, while the
leaf count is still `1` and no destructor has run. -/
theorem C11_failed_set_makes_present_index_absent :
    (do
      let s0 ← set_then_unset cache_config (2 ^ 30)
      let (s, h1) ← xarray_set cache_config 1000 s0 (2 ^ 30 + 1) (some [2, 0, 0, 0]) []
      let g0 ← xarray_get cache_config 1000 s (2 ^ 30 + 1)
      let n0 ← s.node g0
      let (s1, h) ← xarray_set cache_config 1000 s (2 ^ 31) (some [3, 0, 0, 0]) []
      let g1 ← xarray_get cache_config 1000 s1 (2 ^ 30 + 1)
      pure (h1, g0, n0.index, n0.data, h, g1, s.array.values, s1.array.values,
        s1.destroyed.length - s.destroyed.length)) =
      Except.ok (20, 20, 2 ^ 30 + 1, some [2, 0, 0, 0], 0, 0, 1, 1, 0) := by
  rfl

/-- Claim C12 (Begin returns `NULL` exactly when no index is populated),
evaluated where the code departs from it.  In the default configuration,
after `Set(2^30, a)` returned the handle `20`, the call `Set(0, b)` whose
second `malloc` fails returns `NULL` and leaves the empty block `30` in root
slot `0`; Begin descends into that block, finds no slot and returns `NULL`,
while `Get(2^30)` still returns `20`.  In the other direction, with the cache
compiled in, after `Set(2^30, a)` and `Unset(2^30)` the leaf count is `0` and
Begin returns the released node `20`. -/
theorem C12_begin_null_while_index_populated :
    (do
      let (s1, h1) ← xarray_set default_config 1000 (xarray_init default_config 4 true)
        (2 ^ 30) (some [1, 0, 0, 0]) fresh_chain
      let (s2, h2) ← xarray_set default_config 1000 s1 0 (some [2, 0, 0, 0]) [30]
      let b ← xarray_begin default_config 1000 s2
      let g ← xarray_get default_config 1000 s2 (2 ^ 30)
      pure (h1, h2, s2.array.root.values 0, b, g)) = Except.ok (20, 0, 30, 0, 20) ∧
    (do
      let s ← set_then_unset cache_config (2 ^ 30)
      let b ← xarray_begin cache_config 1000 s
      pure (s.array.values, b)) = Except.ok (0, 20) := by
  refine ⟨rfl, rfl⟩

/-- Claim C13: fixed depth and bit coverage.  In every allowed configuration
`XARRAY_MAX_SHIFT` is a positive multiple of `XARRAY_BITS` below the index
width, and adding `XARRAY_BITS` reaches the index width; the number of levels
`XARRAY_MAX_SHIFT / XARRAY_BITS + 1` is the index width divided by
`XARRAY_BITS`, rounded up.  The shift stored `k` levels below the root
(`descend_shift`, lines 21 and 90) is `XARRAY_MAX_SHIFT - k * XARRAY_BITS`
without wrap-around, it is `0` exactly at level `XARRAY_MAX_SHIFT / XARRAY_BITS`,
and at every level below the root the slice lies inside the index width and
takes each of the `2 ^ XARRAY_BITS` slot values.  In every state reached by
`Set` calls that returned a handle and by `Unset` calls (`Reached`), a block
reached by `k` descents from the root has exactly that shift. -/
theorem C13_fixed_depth_and_bit_coverage (c : Config) (hc : c.allowed) :
    (0 < XARRAY_MAX_SHIFT c ∧ c.XARRAY_BITS ∣ XARRAY_MAX_SHIFT c ∧
      XARRAY_MAX_SHIFT c < c.XARRAY_INDEX_BITS ∧
      c.XARRAY_INDEX_BITS ≤ XARRAY_MAX_SHIFT c + c.XARRAY_BITS) ∧
    XARRAY_MAX_SHIFT c / c.XARRAY_BITS + 1 =
      (c.XARRAY_INDEX_BITS + c.XARRAY_BITS - 1) / c.XARRAY_BITS ∧
    (∀ k, k ≤ XARRAY_MAX_SHIFT c / c.XARRAY_BITS →
      descend_shift c k = XARRAY_MAX_SHIFT c - k * c.XARRAY_BITS ∧
      (descend_shift c k = 0 ↔ k = XARRAY_MAX_SHIFT c / c.XARRAY_BITS) ∧
      (1 ≤ k → descend_shift c k + c.XARRAY_BITS ≤ c.XARRAY_INDEX_BITS ∧
        ∀ v, v < 2 ^ c.XARRAY_BITS →
          v <<< descend_shift c k < 2 ^ c.XARRAY_INDEX_BITS ∧
          slot_index c (v <<< descend_shift c k) (descend_shift c k) = .ok v)) ∧
    (∀ st, Reached c st → ∀ k p, Descends c st k p →
      k ≤ XARRAY_MAX_SHIFT c / c.XARRAY_BITS ∧
        ∃ b, st.blk p = some b ∧ b.shift = descend_shift c k) := by
  obtain ⟨hlt, hpos, hdvd, hw⟩ := max_shift_facts c hc
  obtain ⟨hcov, hlev⟩ := max_shift_cover c hc
  have hbits : 0 < c.XARRAY_BITS := hc.1
  have hmul : XARRAY_MAX_SHIFT c / c.XARRAY_BITS * c.XARRAY_BITS = XARRAY_MAX_SHIFT c :=
    Nat.div_mul_cancel hdvd
  have hle : ∀ k, k ≤ XARRAY_MAX_SHIFT c / c.XARRAY_BITS →
      k * c.XARRAY_BITS ≤ XARRAY_MAX_SHIFT c := by
    intro k hk
    calc k * c.XARRAY_BITS ≤ XARRAY_MAX_SHIFT c / c.XARRAY_BITS * c.XARRAY_BITS :=
          Nat.mul_le_mul_right _ hk
      _ = XARRAY_MAX_SHIFT c := hmul
  refine ⟨⟨hpos, hdvd, hw, hcov⟩, hlev, ?_, ?_⟩
  · intro k hk
    have hkm := hle k hk
    have heq := descend_shift_eq c hc k hkm
    refine ⟨heq, ?_, ?_⟩
    · rw [heq]
      constructor
      · intro h0
        have h1 : k * c.XARRAY_BITS = XARRAY_MAX_SHIFT c / c.XARRAY_BITS * c.XARRAY_BITS := by
          omega
        exact Nat.eq_of_mul_eq_mul_right hbits h1
      · intro h0
        rw [h0, hmul]
        omega
    · intro h1
      have hkb : c.XARRAY_BITS ≤ k * c.XARRAY_BITS := Nat.le_mul_of_pos_left _ h1
      have hsb : descend_shift c k + c.XARRAY_BITS ≤ XARRAY_MAX_SHIFT c := by
        rw [heq]; omega
      refine ⟨by omega, ?_⟩
      intro v hv
      constructor
      · rw [Nat.shiftLeft_eq]
        calc v * 2 ^ descend_shift c k < 2 ^ c.XARRAY_BITS * 2 ^ descend_shift c k :=
              Nat.mul_lt_mul_of_pos_right hv (Nat.two_pow_pos _)
          _ = 2 ^ (c.XARRAY_BITS + descend_shift c k) := (Nat.pow_add _ _ _).symm
          _ ≤ 2 ^ c.XARRAY_INDEX_BITS := Nat.pow_le_pow_right (by decide) (by omega)
      · exact slot_index_shifted c hc (by omega) hv
  · intro st hst k p hd
    obtain ⟨T, Lb, Ln, hinv⟩ := reached_inv c hc hst
    obtain ⟨_, b, hb, hsh⟩ := descends_shift hinv hd
    have hkm : k * c.XARRAY_BITS ≤ XARRAY_MAX_SHIFT c := by omega
    have hk : k ≤ XARRAY_MAX_SHIFT c / c.XARRAY_BITS :=
      (Nat.le_div_iff_mul_le hbits).2 hkm
    refine ⟨hk, b, hb, ?_⟩
    rw [descend_shift_eq c hc k hkm]
    omega

/-- Claim C13 at work in the default configuration (6 branching bits, 32-bit
indices): `XARRAY_MAX_SHIFT` is `30`, there are six levels, and the shifts
along a descent are `30, 24, 18, 12, 6, 0`. -/
theorem C13_fixed_depth_and_bit_coverage_witness :
    default_config.allowed ∧
    ((0 < XARRAY_MAX_SHIFT default_config ∧
        default_config.XARRAY_BITS ∣ XARRAY_MAX_SHIFT default_config ∧
        XARRAY_MAX_SHIFT default_config < default_config.XARRAY_INDEX_BITS ∧
        default_config.XARRAY_INDEX_BITS ≤
          XARRAY_MAX_SHIFT default_config + default_config.XARRAY_BITS) ∧
      XARRAY_MAX_SHIFT default_config / default_config.XARRAY_BITS + 1 =
        (default_config.XARRAY_INDEX_BITS + default_config.XARRAY_BITS - 1) /
          default_config.XARRAY_BITS ∧
      (∀ k, k ≤ XARRAY_MAX_SHIFT default_config / default_config.XARRAY_BITS →
        descend_shift default_config k =
          XARRAY_MAX_SHIFT default_config - k * default_config.XARRAY_BITS ∧
        (descend_shift default_config k = 0 ↔
          k = XARRAY_MAX_SHIFT default_config / default_config.XARRAY_BITS) ∧
        (1 ≤ k →
          descend_shift default_config k + default_config.XARRAY_BITS ≤
            default_config.XARRAY_INDEX_BITS ∧
          ∀ v, v < 2 ^ default_config.XARRAY_BITS →
            v <<< descend_shift default_config k < 2 ^ default_config.XARRAY_INDEX_BITS ∧
            slot_index default_config (v <<< descend_shift default_config k)
              (descend_shift default_config k) = .ok v)) ∧
      (∀ st, Reached default_config st → ∀ k p, Descends default_config st k p →
        k ≤ XARRAY_MAX_SHIFT default_config / default_config.XARRAY_BITS ∧
          ∃ b, st.blk p = some b ∧ b.shift = descend_shift default_config k)) ∧
    XARRAY_MAX_SHIFT default_config = 30 ∧
    (List.range 6).map (descend_shift default_config) = [30, 24, 18, 12, 6, 0] :=
  ⟨by decide, C13_fixed_depth_and_bit_coverage default_config (by decide), by decide,
    by decide⟩

theorem descends_step {c : Config} {st : State} {k : Nat} {P q : Ptr} (pb : xarray_block)
    (i : Nat) (h : Descends c st k P) (hpb : st.blk P = some pb) (hs : 0 < pb.shift)
    (hi : i < XARRAY_BLOCK_SIZE c) (hv : pb.values i ≠ 0) (hq : pb.values i = q) :
    Descends c st (k + 1) q := by
  subst hq
  exact Descends.child h hpb hs hi hv

/-- In the state after `Set(5, 42)`, `Set(0, 7)`, `Unset(0)` the leaf block
`14` is reached by five descents from the root, each through slot `0`. -/
theorem descends_scenario :
    Descends default_config (state_after
      [Op.set 5 (some [42, 0, 0, 0]) fresh_chain, Op.set 0 (some [7, 0, 0, 0]) [21],
       Op.unset 0]) 5 14 := by
  have h0 : Descends default_config (state_after
      [Op.set 5 (some [42, 0, 0, 0]) fresh_chain, Op.set 0 (some [7, 0, 0, 0]) [21],
       Op.unset 0]) 0 ROOT := Descends.root
  have h1 := descends_step (q := 10) _ 0 h0 rfl (by decide) (by decide) (by decide) rfl
  have h2 := descends_step (q := 11) _ 0 h1 rfl (by decide) (by decide) (by decide) rfl
  have h3 := descends_step (q := 12) _ 0 h2 rfl (by decide) (by decide) (by decide) rfl
  have h4 := descends_step (q := 13) _ 0 h3 rfl (by decide) (by decide) (by decide) rfl
  exact descends_step (q := 14) _ 0 h4 rfl (by decide) (by decide) (by decide) rfl

/-- Claim C14 (a successful `Set(i, NULL)` returns a handle with index `i`),
evaluated where the code departs from it.  After `Set(2^30, a)`,
`Unset(2^30)`, `Set(0, [2,0,0,0])`, with the cache compiled in or with
`malloc` handing the released addresses out again, `Set(2^30, NULL)` returns
the handle `20`, which `Get(2^30)` and `Get(0)` both return; the index stored
in it is `0`, the leaf count stays `1`, and the destructor has been invoked on
the payload of index `0`. -/
theorem C14_null_set_returns_handle_of_other_index :
    (do
      let s ← set_unset_then_set_zero cache_config (2 ^ 30)
      let (s1, h) ← xarray_set cache_config 1000 s (2 ^ 30) none []
      let g ← xarray_get cache_config 1000 s1 (2 ^ 30)
      let g0 ← xarray_get cache_config 1000 s1 0
      let n ← s1.node h
      pure (h, g, g0, n.index, s.array.values, s1.array.values, s1.destroyed)) =
      Except.ok (20, 20, 20, 0, 1, 1, [(20, some [1, 0, 0, 0]), (20, some [2, 0, 0, 0])]) ∧
    (do
      let s ← set_unset_then_set_zero default_config (2 ^ 30)
      let (s1, h) ← xarray_set default_config 1000 s (2 ^ 30) none []
      let g ← xarray_get default_config 1000 s1 (2 ^ 30)
      let g0 ← xarray_get default_config 1000 s1 0
      let n ← s1.node h
      pure (h, g, g0, n.index, s.array.values, s1.array.values, s1.destroyed)) =
      Except.ok (20, 20, 20, 0, 1, 1, [(20, some [1, 0, 0, 0]), (20, some [2, 0, 0, 0])]) := by
  refine ⟨rfl, rfl⟩

set_option maxRecDepth 100000 in
/-- Claim C15 (Next returns the handle of the next larger populated index, or
`NULL` after the largest), evaluated where the code departs from it.  After
`Set(2^30, a)`, `Unset(2^30)`, `Set(0, b)`, with the cache compiled in or with
`malloc` handing the released addresses out again, index `0` is the only
index set and not removed, `Get(0)` returns the handle `20` of index `0`, and
Next of that handle is the handle `20` again instead of `NULL`. -/
theorem C15_next_returns_same_handle :
    (do
      let s ← set_unset_then_set_zero cache_config (2 ^ 30)
      let h ← xarray_get cache_config 1000 s 0
      let n ← s.node h
      let nx ← xarray_iter_next cache_config 1000 s h
      pure (h, n.index, s.array.values, nx)) = Except.ok (20, 0, 1, 20) ∧
    (do
      let s ← set_unset_then_set_zero default_config (2 ^ 30)
      let h ← xarray_get default_config 1000 s 0
      let n ← s.node h
      let nx ← xarray_iter_next default_config 1000 s h
      pure (h, n.index, s.array.values, nx)) = Except.ok (20, 0, 1, 20) := by
  refine ⟨rfl, rfl⟩

/-- Claim C16 (every reachable leaf stores the index its slot path decodes to,
and every block's `parent_pos` is the slot that holds it), evaluated where the
code departs from it.  After the successful calls `Set(2^30, a)`,
`Unset(2^30)`, `Set(0, b)`, with `malloc` handing the released addresses out
again or with the cache compiled in, root slot `1` holds block `10`, whose
`parent_pos` is `0`; following slot `0` four more times from there leads to
the leaf block `14` and to node `20` in its slot `0`.  The index stored in
that node is `0`, whose slice at the root is `0`, not `1`. -/
theorem C16_leaf_index_disagrees_with_path :
    (do
      let s ← set_unset_then_set_zero default_config (2 ^ 30)
      let b10 ← s.block (s.array.root.values 1)
      let b11 ← s.block (b10.values 0)
      let b12 ← s.block (b11.values 0)
      let b13 ← s.block (b12.values 0)
      let b14 ← s.block (b13.values 0)
      let n ← s.node (b14.values 0)
      let i ← slot_index default_config n.index s.array.root.shift
      pure (s.array.root.values 1, b10.parent_block, b10.parent_pos, b13.values 0, b14.shift,
        b14.values 0, n.index, n.block, i)) =
      Except.ok (10, ROOT, 0, 14, 0, 20, 0, 14, 0) ∧
    (do
      let s ← set_unset_then_set_zero cache_config (2 ^ 30)
      let b10 ← s.block (s.array.root.values 1)
      let b11 ← s.block (b10.values 0)
      let b12 ← s.block (b11.values 0)
      let b13 ← s.block (b12.values 0)
      let b14 ← s.block (b13.values 0)
      let n ← s.node (b14.values 0)
      let i ← slot_index cache_config n.index s.array.root.shift
      pure (s.array.root.values 1, b10.parent_block, b10.parent_pos, b13.values 0, b14.shift,
        b14.values 0, n.index, n.block, i)) =
      Except.ok (10, ROOT, 0, 14, 0, 20, 0, 14, 0) := by
  refine ⟨rfl, rfl⟩

/-- Claim C17 (no node or block is on a free list and reachable from the root
at the same time), evaluated where the code departs from it.  With the cache
compiled in, after `Set(2^30, a)` and `Unset(2^30)` block `10` is the head of
the block free list and is held in root slot `1`, and node `20` is the head of
the node free list and is the handle `Get(2^30)` returns. -/
theorem C17_released_block_on_free_list_and_reachable :
    (do
      let s ← set_then_unset cache_config (2 ^ 30)
      let g ← xarray_get cache_config 1000 s (2 ^ 30)
      pure (s.array.blk_cache, s.array.root.values 1, s.array.nod_cache, g)) =
      Except.ok (10, 10, 20, 20) := by
  rfl

/-- Claim C18 (Unset empties the slot that led to the removed leaf, also when
the surviving ancestor is the root and its `used` count has dropped to zero),
evaluated where the code departs from it.  On a new container,
`Set(2^31, p)` puts block `10` into root slot `2`; `Unset(2^31)` releases
block `10` and brings the root's `used` to `0`, and root slot `2` still holds
the address `10`: of a freed block in the default configuration, of the head
of the block free list with the cache compiled in. -/
theorem C18_unset_leaves_vacated_root_slot :
    (do
      let s0 := xarray_init default_config 4 true
      let (s1, h) ← xarray_set default_config 1000 s0 (2 ^ 31) (some [1, 0, 0, 0]) fresh_chain
      let s2 ← xarray_unset default_config 1000 s1 (2 ^ 31)
      pure (h, s1.array.root.values 2, s1.array.root.used, s2.array.root.used,
        (s2.blks 10).isSome, s2.array.root.values 2)) =
      Except.ok (20, 10, 1, 0, false, 10) ∧
    (do
      let s0 := xarray_init cache_config 4 true
      let (s1, h) ← xarray_set cache_config 1000 s0 (2 ^ 31) (some [1, 0, 0, 0]) fresh_chain
      let s2 ← xarray_unset cache_config 1000 s1 (2 ^ 31)
      pure (h, s1.array.root.values 2, s1.array.root.used, s2.array.root.used,
        s2.array.blk_cache, s2.array.root.values 2)) =
      Except.ok (20, 10, 1, 0, 10, 10) := by
  refine ⟨rfl, rfl⟩

/-- Claim C19 (Set and Unset of an index leave Get of every other index as it
was), evaluated where the code departs from it.  After `Set(2^30, a)`,
`Unset(2^30)`, `Set(0, [2,0,0,0])`, with the cache compiled in or with
`malloc` handing the released addresses out again, `Get(0)` returns the handle
`20` with payload `[2,0,0,0]`; `Unset(2^30)` then invokes the destructor on
that payload and removes the node, and `Get(0)` returns `NULL`. -/
theorem C19_unset_removes_other_index :
    (do
      let s ← set_unset_then_set_zero cache_config (2 ^ 30)
      let g ← xarray_get cache_config 1000 s 0
      let n ← s.node g
      let s1 ← xarray_unset cache_config 1000 s (2 ^ 30)
      let g1 ← xarray_get cache_config 1000 s1 0
      pure (g, n.index, n.data, g1, s1.destroyed)) =
      Except.ok (20, 0, some [2, 0, 0, 0], 0,
        [(20, some [1, 0, 0, 0]), (20, some [2, 0, 0, 0])]) ∧
    (do
      let s ← set_unset_then_set_zero default_config (2 ^ 30)
      let g ← xarray_get default_config 1000 s 0
      let n ← s.node g
      let s1 ← xarray_unset default_config 1000 s (2 ^ 30)
      let g1 ← xarray_get default_config 1000 s1 0
      pure (g, n.index, n.data, g1, s1.destroyed)) =
      Except.ok (20, 0, some [2, 0, 0, 0], 0,
        [(20, some [1, 0, 0, 0]), (20, some [2, 0, 0, 0])]) := by
  refine ⟨rfl, rfl⟩

set_option maxRecDepth 1000000 in
/-- Claim C20 (the 8-bit `used` field equals the number of occupied slots for
every occupancy up to the block capacity), evaluated where the code departs
from it.  With `XARRAY_BITS = 8` and 16-bit indices, after `Set(0, NULL)`,
..., `Set(255, NULL)` on a new container the leaf block `10` in root slot `0`
has all `256` slots occupied and the leaf count is `256`, while its `used`
field is `0`; one Set earlier the field is `255`. -/
theorem C20_used_wraps_at_full_block :
    (do
      let s ← run wide_config 10 (xarray_init wide_config 1 false) (fill_ops 256)
      let b ← s.block (s.array.root.values 0)
      pure (s.array.root.values 0, b.used, occupied wide_config b, s.array.values)) =
      Except.ok (10, 0, 256, 256) ∧
    (do
      let s ← run wide_config 10 (xarray_init wide_config 1 false) (fill_ops 255)
      let b ← s.block (s.array.root.values 0)
      pure (s.array.root.values 0, b.used, occupied wide_config b, s.array.values)) =
      Except.ok (10, 255, 255, 255) := by
  refine ⟨rfl, rfl⟩

end XArray
